import Mathlib

/-!
# LRU-family cache policies of webcachesim (`caches/lru_variants.cpp`)

A shallow embedding of the recency-list caches and a verification of their
contract.

Modelling conventions.

* Byte counts (`uint64_t` sizes, capacities, `_currentSize`) and ids are natural
  numbers.  The methods of `LRUCache` that compute with the byte counter come twice:
  `LRUCache.evict_return`, `evictReq`, `evictLoop`, `pushFront`, `admitReq` count in
  the natural numbers, and `LRUCache.W64.evict_return`, ... are the same methods with
  the sums and differences of the code taken modulo `2^64` (`add64`, `sub64`).  On a
  consistent state of capacity below `2^63` the two agree (`W64.step_eq`): `a -= b`
  is then only executed with `b ≤ a`, and `_currentSize + size` is only formed with
  both summands at most the capacity.  From capacity `2^63` on the two can differ.
* `std::list<CacheObject>` is a `List Node`, front first.  A list iterator is a
  stable pointer to a list node; a node carries the stamp `pos` it received
  when it was pushed, and an iterator is that stamp.  Stamps are handed out by
  the counter `_next`, which is therefore also the admission clock.
* `std::unordered_map<CacheObject, ListIteratorType>` is an association list
  from keys to stamps; `find`, `erase(key)` and `operator[]=` are `mapFind`,
  `mapErase` and `mapAssign`.
* `lookup` returns the new state together with the boolean result.
* The `while` loop of `admit` is unrolled with fuel; `none` means the loop does
  not terminate.
* The segments of `S4LRUCache` and `SLRUCache` (`LRUCache segments[n]`) are a
  function from indices to `LRUCache` states, updated with `Function.update`.
  Calls that can dereference a null request return `Except Fault`.
* An id passed to a parameter declared `int` or `long long` is converted by
  `toInt32` or `toInt64` (two's complement, `% 2^32` and `% 2^64`).
* The frequency sketches (`CM::CM_type`, the door keeper) live outside this file
  of the repository; they are parameters (`CountMin`, `DoorKeeper`) with their
  `update`, `pointEst` and `reset` operations, and `exactCountMin`,
  `exactDoorKeeper` are the collision-free instances.
* The `double` expressions of `SLRUCache::setSize` and of `W_TinyLFU` are evaluated
  in binary64: a finite double is a rational number and every operation returns the
  rounding `Double.round` of the exact result (nearest, ties to even);
  `(uint64_t) x` is the floor of a non-negative `x`.
* The window percentage of `W_TinyLFU` is a signed integer; the `int` argument
  `reqs` is converted to `uint64_t` by `intToU64` before the remainder is taken.
* `AdaptSizeCache` is modelled over an arbitrary linearly ordered field `K` in place
  of `double` and `long double`.  A hit rate is an `Option K`, `none` being NaN:
  every comparison with it is false.  The constants of the header and the functions
  of the math library (`log2`, `pow(2, .)`, `exp`) are the fields of `AdaptEnv`, and
  so is the hit-rate model (`modelHitRate`), which the search only calls.
-/

namespace WebCacheSim

/-- A request `{id, size}` (`SimpleRequest`). -/
structure SimpleRequest where
  id : Nat
  size : Nat
deriving DecidableEq, Repr

/-- Modelled from the spec: `CacheObject` is declared in `cache_object.h`.
The spec says "Two requests are identical iff
both fields match" and "If a new admission arrives for an id already present with
a different size, it is treated as a new object"; `AdaptSizeCache::lookup` carries
the comment "webcachesim treats an object with size changed as a new object".
Hence a cache object is the pair of id and size and equality (and hashing)
compares both fields. -/
structure CacheObject where
  id : Nat
  size : Nat
deriving DecidableEq, Repr

/-- The constructor `CacheObject(SimpleRequest* req)`. -/
def CacheObject.ofReq (req : SimpleRequest) : CacheObject :=
  { id := req.id, size := req.size }

/-- The request `new SimpleRequest(obj.id, obj.size)`. -/
def CacheObject.toReq (obj : CacheObject) : SimpleRequest :=
  { id := obj.id, size := obj.size }

/-- A node of `_cacheList`: the stored object and the stamp identifying the node. -/
structure Node where
  pos : Nat
  obj : CacheObject
deriving DecidableEq, Repr

/-- The call `_cacheMap.find(key)`: the iterator stored under `key`, if any. -/
def mapFind (m : List (CacheObject × Nat)) (key : CacheObject) : Option Nat :=
  (m.find? (fun e => decide (e.1 = key))).map Prod.snd

/-- The call `_cacheMap.erase(key)`. -/
def mapErase (m : List (CacheObject × Nat)) (key : CacheObject) : List (CacheObject × Nat) :=
  m.filter (fun e => decide (e.1 ≠ key))

/-- The assignment `_cacheMap[key] = it`. -/
def mapAssign (m : List (CacheObject × Nat)) (key : CacheObject) (it : Nat) :
    List (CacheObject × Nat) :=
  (key, it) :: mapErase m key

/-- The call `_cacheList.erase(lit)`: unlink the node the iterator points to.
Stamps are distinct in every state the theorems speak about, so the filter removes
exactly that node. -/
def listErase (l : List Node) (lit : Nat) : List Node :=
  l.filter (fun n => decide (n.pos ≠ lit))

/-- The call `_cacheList.splice(_cacheList.begin(), _cacheList, lit)`: move the
node the iterator points to to the front.  An iterator that points to no node of
the list is undefined behaviour in the code; the model leaves the list alone, and
no state the theorems speak about holds such an iterator. -/
def listSplice (l : List Node) (lit : Nat) : List Node :=
  match l.find? (fun n => decide (n.pos = lit)) with
  | some n => n :: listErase l lit
  | none => l

/-- The state of an `LRUCache`. -/
structure LRUCache where
  _cacheSize : Nat
  _currentSize : Nat
  _cacheList : List Node
  _cacheMap : List (CacheObject × Nat)
  _next : Nat
deriving DecidableEq, Repr

namespace LRUCache

/-- A freshly constructed cache after `setSize(cs)`. -/
def empty (cs : Nat) : LRUCache :=
  { _cacheSize := cs, _currentSize := 0, _cacheList := [], _cacheMap := [], _next := 0 }

/-- The objects of the recency list, most recent first. -/
def objs (c : LRUCache) : List CacheObject := c._cacheList.map Node.obj

/-- Sum of the sizes of the listed objects. -/
def listSize (c : LRUCache) : Nat := (c._cacheList.map (fun n => n.obj.size)).sum

/-- The method `LRUCache::hit`: splice the node to the front. -/
def hit (c : LRUCache) (lit : Nat) : LRUCache :=
  { c with _cacheList := listSplice c._cacheList lit }

/-- The method `LRUCache::lookup`, for a given implementation of the virtual `hit`. -/
def lookupWith (hitFn : LRUCache → Nat → LRUCache) (c : LRUCache) (req : SimpleRequest) :
    LRUCache × Bool :=
  match mapFind c._cacheMap (CacheObject.ofReq req) with
  | some lit => (hitFn c lit, true)
  | none => (c, false)

/-- The method `LRUCache::lookup`. -/
def lookup (c : LRUCache) (req : SimpleRequest) : LRUCache × Bool :=
  lookupWith hit c req

/-- The method `LRUCache::evict_return`, the byte counter in the natural numbers
(`W64.evict_return` has the 64-bit difference). -/
def evict_return (c : LRUCache) : LRUCache × Option SimpleRequest :=
  match c._cacheList.getLast? with
  | some lit =>
      ({ c with
          _currentSize := c._currentSize - lit.obj.size
          _cacheMap := mapErase c._cacheMap lit.obj
          _cacheList := c._cacheList.dropLast },
        some lit.obj.toReq)
  | none => (c, none)

/-- The method `LRUCache::evict()`. -/
def evict (c : LRUCache) : LRUCache := (evict_return c).1

/-- The method `LRUCache::evict(SimpleRequest*)`, the byte counter in the natural
numbers (`W64.evictReq` has the 64-bit difference). -/
def evictReq (c : LRUCache) (req : SimpleRequest) : LRUCache :=
  match mapFind c._cacheMap (CacheObject.ofReq req) with
  | some lit =>
      { c with
          _currentSize := c._currentSize - (CacheObject.ofReq req).size
          _cacheMap := mapErase c._cacheMap (CacheObject.ofReq req)
          _cacheList := listErase c._cacheList lit }
  | none => c

/-- The loop `while (_currentSize + size > _cacheSize) evict();` with fuel, the sum
in the natural numbers (`W64.evictLoop` has the 64-bit sum). -/
def evictLoop : Nat → LRUCache → Nat → Option LRUCache
  | 0, _, _ => none
  | fuel + 1, c, size =>
      if c._currentSize + size > c._cacheSize then evictLoop fuel (evict c) size
      else some c

/-- The tail of `LRUCache::admit`: push the object to the front and index it, the
byte counter in the natural numbers (`W64.pushFront` has the 64-bit sum). -/
def pushFront (c : LRUCache) (req : SimpleRequest) : LRUCache :=
  { c with
      _cacheList := { pos := c._next, obj := CacheObject.ofReq req } :: c._cacheList
      _cacheMap := mapAssign c._cacheMap (CacheObject.ofReq req) c._next
      _currentSize := c._currentSize + req.size
      _next := c._next + 1 }

/-- The method `LRUCache::admit` with explicit loop fuel. -/
def admitFuel (fuel : Nat) (c : LRUCache) (req : SimpleRequest) : Option LRUCache :=
  if req.size > c._cacheSize then some c
  else (evictLoop fuel c req.size).map (fun c1 => pushFront c1 req)

/-- The method `LRUCache::admit`, called `admitReq` here (the bare name is a tactic
keyword).  Every iteration of the loop that changes the state unlinks
one node, and on an empty list `evict()` changes nothing, so `length + 1` rounds
decide the loop: see `evictLoop_fuel_exact`. -/
def admitReq (c : LRUCache) (req : SimpleRequest) : Option LRUCache :=
  admitFuel (c._cacheList.length + 1) c req

/-- The sum of two `uint64_t` values: modulo `2^64`. -/
def add64 (a b : Nat) : Nat := (a + b) % 2 ^ 64

/-- The difference of two `uint64_t` values: modulo `2^64`. -/
def sub64 (a b : Nat) : Nat := (a + (2 ^ 64 - b % 2 ^ 64)) % 2 ^ 64

/-- The calls a client can issue on a cache. -/
inductive Op where
  | lookup (req : SimpleRequest)
  | admitReq (req : SimpleRequest)
  | evict
  | evictReq (req : SimpleRequest)
deriving DecidableEq, Repr

/-- Whether a call is a `lookup`. -/
def Op.isLookup : Op → Bool
  | Op.lookup _ => true
  | _ => false

/-- The effect of one call. -/
def step (c : LRUCache) : Op → Option LRUCache
  | Op.lookup req => some (lookup c req).1
  | Op.admitReq req => admitReq c req
  | Op.evict => some (evict c)
  | Op.evictReq req => some (evictReq c req)

/-- The effect of a sequence of calls. -/
def run (c : LRUCache) : List Op → Option LRUCache
  | [] => some c
  | op :: ops => (step c op).bind (fun c1 => run c1 ops)

namespace W64

/-- The method `LRUCache::evict_return`, `_currentSize -= size` in 64 bits. -/
def evict_return (c : LRUCache) : LRUCache × Option SimpleRequest :=
  match c._cacheList.getLast? with
  | some lit =>
      ({ c with
          _currentSize := sub64 c._currentSize lit.obj.size
          _cacheMap := mapErase c._cacheMap lit.obj
          _cacheList := c._cacheList.dropLast },
        some lit.obj.toReq)
  | none => (c, none)

/-- The method `LRUCache::evict()`. -/
def evict (c : LRUCache) : LRUCache := (evict_return c).1

/-- The method `LRUCache::evict(SimpleRequest*)`, `_currentSize -= size` in 64 bits. -/
def evictReq (c : LRUCache) (req : SimpleRequest) : LRUCache :=
  match mapFind c._cacheMap (CacheObject.ofReq req) with
  | some lit =>
      { c with
          _currentSize := sub64 c._currentSize (CacheObject.ofReq req).size
          _cacheMap := mapErase c._cacheMap (CacheObject.ofReq req)
          _cacheList := listErase c._cacheList lit }
  | none => c

/-- The loop `while (_currentSize + size > _cacheSize) evict();` with fuel, the sum
in 64 bits. -/
def evictLoop : Nat → LRUCache → Nat → Option LRUCache
  | 0, _, _ => none
  | fuel + 1, c, size =>
      if add64 c._currentSize size > c._cacheSize then evictLoop fuel (evict c) size
      else some c

/-- The tail of `LRUCache::admit`, `_currentSize += size` in 64 bits. -/
def pushFront (c : LRUCache) (req : SimpleRequest) : LRUCache :=
  { c with
      _cacheList := { pos := c._next, obj := CacheObject.ofReq req } :: c._cacheList
      _cacheMap := mapAssign c._cacheMap (CacheObject.ofReq req) c._next
      _currentSize := add64 c._currentSize req.size
      _next := c._next + 1 }

/-- The method `LRUCache::admit` with explicit loop fuel. -/
def admitFuel (fuel : Nat) (c : LRUCache) (req : SimpleRequest) : Option LRUCache :=
  if req.size > c._cacheSize then some c
  else (evictLoop fuel c req.size).map (fun c1 => pushFront c1 req)

/-- The method `LRUCache::admit`.  A round of the loop that changes the state unlinks
one node, and on an empty list `evict()` changes nothing, so `length + 1` rounds
decide the loop. -/
def admitReq (c : LRUCache) (req : SimpleRequest) : Option LRUCache :=
  admitFuel (c._cacheList.length + 1) c req

/-- The effect of one call. -/
def step (c : LRUCache) : Op → Option LRUCache
  | Op.lookup req => some (lookup c req).1
  | Op.admitReq req => admitReq c req
  | Op.evict => some (evict c)
  | Op.evictReq req => some (evictReq c req)

/-- The effect of a sequence of calls. -/
def run (c : LRUCache) : List Op → Option LRUCache
  | [] => some c
  | op :: ops => (step c op).bind (fun c1 => run c1 ops)

end W64

/-- One request of a trace, as the simulator processes it:
`if (!cache->lookup(req)) cache->admit(req);`. -/
def request (c : LRUCache) (req : SimpleRequest) : Option LRUCache :=
  if (lookup c req).2 then some (lookup c req).1 else admitReq (lookup c req).1 req

/-- A trace of requests. -/
def requests (c : LRUCache) : List SimpleRequest → Option LRUCache
  | [] => some c
  | req :: reqs => (request c req).bind (fun c1 => requests c1 reqs)

/-- The steps of a trace-driven run: a request, or an explicit eviction. -/
inductive TraceOp where
  | request (req : SimpleRequest)
  | evict
  | evictReq (req : SimpleRequest)
deriving DecidableEq, Repr

/-- The effect of one trace step. -/
def traceStep (c : LRUCache) : TraceOp → Option LRUCache
  | TraceOp.request req => request c req
  | TraceOp.evict => some (evict c)
  | TraceOp.evictReq req => some (evictReq c req)

/-- The effect of a sequence of trace steps. -/
def traceRun (c : LRUCache) : List TraceOp → Option LRUCache
  | [] => some c
  | op :: ops => (traceStep c op).bind (fun c1 => traceRun c1 ops)

/-- The invariant of every reachable state, whatever the calls were. -/
structure Inv (c : LRUCache) : Prop where
  size_eq : c._currentSize = c.listSize
  size_le : c._currentSize ≤ c._cacheSize
  pos_nodup : (c._cacheList.map Node.pos).Nodup
  pos_lt : ∀ n ∈ c._cacheList, n.pos < c._next
  map_live : ∀ e ∈ c._cacheMap, (Node.mk e.2 e.1) ∈ c._cacheList

/-- Well-formed states: the index holds exactly one entry per list node, keyed by
the node's object and pointing at the node; `_currentSize` is the sum of the
listed sizes and within the capacity. -/
structure WF (c : LRUCache) : Prop where
  size_eq : c._currentSize = c.listSize
  size_le : c._currentSize ≤ c._cacheSize
  index : c._cacheMap.Perm (c._cacheList.map (fun n => (n.obj, n.pos)))
  obj_nodup : c.objs.Nodup
  pos_nodup : (c._cacheList.map Node.pos).Nodup
  pos_lt : ∀ n ∈ c._cacheList, n.pos < c._next

/-- The sizes of the objects left after the `k` least recent ones are removed,
plus the incoming size, fit in the capacity. -/
def fitsAfter (c : LRUCache) (size k : Nat) : Prop :=
  ((c.objs.take (c.objs.length - k)).map CacheObject.size).sum + size ≤ c._cacheSize

/-- The reference definition of admission: an oversized request changes nothing;
otherwise the new list is the request followed by the old list without its `k`
last objects, `k` least such that the rest plus the request fits. -/
def AdmitRef (c : LRUCache) (req : SimpleRequest) (c1 : LRUCache) : Prop :=
  if req.size > c._cacheSize then
    c1._cacheList = c._cacheList ∧ c1._cacheMap = c._cacheMap ∧
      c1._currentSize = c._currentSize
  else
    ∃ k, k ≤ c.objs.length ∧ fitsAfter c req.size k ∧ (∀ j, j < k → ¬ fitsAfter c req.size j) ∧
      c1.objs = CacheObject.ofReq req :: c.objs.take (c.objs.length - k) ∧
      c1._currentSize =
        ((c.objs.take (c.objs.length - k)).map CacheObject.size).sum + req.size

/-- The working-set property in the contract's words: after the trace `S`, every
element of `W` that occurs among the last `|W|` requests of `S` is resident. -/
def WorkingSetResident (cs : Nat) (S : List SimpleRequest) (W : Finset CacheObject) : Prop :=
  ∀ c, requests (empty cs) S = some c →
    ∀ w, w ∈ W → w ∈ (S.drop (S.length - W.card)).map CacheObject.ofReq → w ∈ c.objs

/-- The object `w` is listed and every object in front of it belongs to `W`. -/
def FrontedBy (W : Finset CacheObject) (w : CacheObject) (c : LRUCache) : Prop :=
  ∃ pre post, c.objs = pre ++ w :: post ∧ ∀ x, x ∈ pre → x ∈ W

/-- A sample state: capacity 10, holding B (id 2, 4 bytes) in front of A (id 1,
5 bytes), as left by admitting A and then B into the empty cache. -/
def sampleAB : LRUCache :=
  { _cacheSize := 10
    _currentSize := 9
    _cacheList := [Node.mk 1 (CacheObject.mk 2 4), Node.mk 0 (CacheObject.mk 1 5)]
    _cacheMap := [(CacheObject.mk 2 4, 1), (CacheObject.mk 1 5, 0)]
    _next := 2 }

/-- A well-formed state of capacity `2^64 - 1` that is full with one object (id 1,
`2^64 - 1` bytes). -/
def sampleHuge : LRUCache :=
  { _cacheSize := 2 ^ 64 - 1
    _currentSize := 2 ^ 64 - 1
    _cacheList := [Node.mk 0 (CacheObject.mk 1 (2 ^ 64 - 1))]
    _cacheMap := [(CacheObject.mk 1 (2 ^ 64 - 1), 0)]
    _next := 1 }

end LRUCache

/-! ### FIFO -/

namespace FIFOCache

/-- The method `FIFOCache::hit`: empty body. -/
def hit (c : LRUCache) (_lit : Nat) : LRUCache := c

/-- The method `lookup` as inherited by `FIFOCache`: the virtual `hit` is the empty one. -/
def lookup (c : LRUCache) (req : SimpleRequest) : LRUCache × Bool :=
  LRUCache.lookupWith hit c req

/-- The effect of one call on a FIFO cache. -/
def step (c : LRUCache) : LRUCache.Op → Option LRUCache
  | LRUCache.Op.lookup req => some (lookup c req).1
  | LRUCache.Op.admitReq req => LRUCache.admitReq c req
  | LRUCache.Op.evict => some (LRUCache.evict c)
  | LRUCache.Op.evictReq req => some (LRUCache.evictReq c req)

/-- The effect of a sequence of calls on a FIFO cache. -/
def run (c : LRUCache) : List LRUCache.Op → Option LRUCache
  | [] => some c
  | op :: ops => (step c op).bind (fun c1 => run c1 ops)

end FIFOCache

/-! ### ThLRU -/

/-- The state of a `ThLRUCache`: an `LRUCache` and the admission threshold. -/
structure ThLRUCache extends LRUCache where
  _sizeThreshold : Nat
deriving DecidableEq, Repr

namespace ThLRUCache

/-- A freshly constructed `ThLRUCache` (threshold 524288) after `setSize(cs)`. -/
def empty (cs : Nat) : ThLRUCache :=
  { toLRUCache := LRUCache.empty cs, _sizeThreshold := 524288 }

/-- An empty `ThLRUCache` of capacity `cs` whose threshold is `t` bytes. -/
def emptyWith (cs t : Nat) : ThLRUCache :=
  { toLRUCache := LRUCache.empty cs, _sizeThreshold := t }

/-- The method `ThLRUCache::setPar` for a natural exponent (parsing and `pow` are
floating point in the code, exact on natural exponents below 64):
`_sizeThreshold = pow(2.0, t)`, guarded by `assert(t>0)`; other parameter names only
print a diagnostic. -/
def setPar (c : ThLRUCache) (parName : String) (t : Nat) : Option ThLRUCache :=
  if parName = "t" then
    if 0 < t then some { c with _sizeThreshold := 2 ^ t } else none
  else some c

/-- The method `ThLRUCache::admit`. -/
def admitReq (c : ThLRUCache) (req : SimpleRequest) : Option ThLRUCache :=
  if req.size < c._sizeThreshold then
    (LRUCache.admitReq c.toLRUCache req).map (fun l => { c with toLRUCache := l })
  else some c

/-- The effect of one call on a ThLRU cache; all but `admit` are inherited. -/
def step (c : ThLRUCache) : LRUCache.Op → Option ThLRUCache
  | LRUCache.Op.lookup req => some { c with toLRUCache := (LRUCache.lookup c.toLRUCache req).1 }
  | LRUCache.Op.admitReq req => admitReq c req
  | LRUCache.Op.evict => some { c with toLRUCache := LRUCache.evict c.toLRUCache }
  | LRUCache.Op.evictReq req => some { c with toLRUCache := LRUCache.evictReq c.toLRUCache req }

/-- The effect of a sequence of calls on a ThLRU cache. -/
def run (c : ThLRUCache) : List LRUCache.Op → Option ThLRUCache
  | [] => some c
  | op :: ops => (step c op).bind (fun c1 => run c1 ops)

end ThLRUCache

end WebCacheSim

namespace WebCacheSim

/-! ### Machine integers, faults, capacities -/

/-- The value of an id after conversion to `int` (32 bits, two's complement), as
in a call `f(req->getId())` of a function declared `f(int cand_id)`. -/
def toInt32 (x : Nat) : Int :=
  if x % 2 ^ 32 < 2 ^ 31 then ((x % 2 ^ 32 : Nat) : Int)
  else ((x % 2 ^ 32 : Nat) : Int) - 2 ^ 32

/-- The value of an id after conversion to `long long` (64 bits, two's complement). -/
def toInt64 (x : Nat) : Int :=
  if x % 2 ^ 64 < 2 ^ 63 then ((x % 2 ^ 64 : Nat) : Int)
  else ((x % 2 ^ 64 : Nat) : Int) - 2 ^ 64

/-- The ways a call can fail to return a state: a null request pointer is
dereferenced, a loop does not terminate, an integer remainder is taken by zero, or
an `assert` fails. -/
inductive Fault where
  | nullRequest
  | diverges
  | divisionByZero
  | assertionFailed
deriving DecidableEq, Repr

deriving instance DecidableEq for Except

/-- Modelled from the spec: `Cache::setSize` is declared in the class header.  The
spec names it `setCapacity(bytes)`, says that it mutates the capacity and that
`getCapacity()` returns it; the model stores the byte budget.  The spec does not say
what the call does to a cache that holds more than the new budget, and no theorem
of a claim depends on it: where a capacity is lowered on such a cache (a segment in
`SLRUCache::setSize`, at the end of `increaseWindow`), the theorems speak of the
capacities, of the window percentage and of the hit ratio only. -/
def LRUCache.setSize (c : LRUCache) (cs : Nat) : LRUCache :=
  { c with _cacheSize := cs }

/-- An `LRUCache::admit` whose loop may diverge, as a call that may fail. -/
def LRUCache.admitOrFault (c : LRUCache) (req : SimpleRequest) : Except Fault LRUCache :=
  match LRUCache.admitReq c req with
  | some c1 => Except.ok c1
  | none => Except.error Fault.diverges

/-! ### The `double` arithmetic of SLRU and W-TinyLFU

A finite `double` is a rational number, and the operations of the code (`+`, `-`,
`*`, `/`, the conversions from `int` and `uint64_t`) return the binary64 value
nearest to the exact result, ties going to the even mantissa.  `Double.round` is
that rounding, with an unbounded exponent range: the values the caches compute
(shares of a capacity, percentages, hit ratios, byte counts below `2^64`) are zero
or lie in the normal range.  Comparisons of doubles are comparisons of their values. -/

namespace Double

/-- The integer nearest to `s`, ties to the even one. -/
def roundEven (s : ℚ) : Int :=
  if s - ⌊s⌋ < 1 / 2 then ⌊s⌋
  else if 1 / 2 < s - ⌊s⌋ then ⌊s⌋ + 1
  else if ⌊s⌋ % 2 = 0 then ⌊s⌋ else ⌊s⌋ + 1

/-- The binary64 value nearest to `x`: with `k = ⌊log2 |x|⌋` the spacing of the
doubles around `x` is `2^(k-52)`, and `|x|` is rounded to a multiple of it. -/
def round (x : ℚ) : ℚ :=
  if x = 0 then 0
  else
    (if x < 0 then -1 else 1) * ((roundEven (|x| / 2 ^ (Int.log 2 |x| - 52)) : Int) : ℚ)
      * 2 ^ (Int.log 2 |x| - 52)

/-- The conversion `double(n)` of an `int`. -/
def ofInt (n : Int) : ℚ := round (n : ℚ)

/-- The conversion of a `uint64_t` to `double`. -/
def ofU64 (n : Nat) : ℚ := round (n : ℚ)

/-- The sum of two doubles. -/
def add (a b : ℚ) : ℚ := round (a + b)

/-- The difference of two doubles. -/
def sub (a b : ℚ) : ℚ := round (a - b)

/-- The product of two doubles. -/
def mul (a b : ℚ) : ℚ := round (a * b)

/-- The quotient of two doubles, for a divisor other than zero (the code gives an
infinity or a NaN for the divisor zero, the model 0). -/
def div (a b : ℚ) : ℚ := round (a / b)

/-- The conversion `(uint64_t) x` of a double: truncation, for `x > -1` below
`2^64`. -/
def toU64 (x : ℚ) : Nat := ⌊x⌋₊

end Double

/-! ### FilterCache -/

/-- The state of a `FilterCache`: an `LRUCache`, the parameter `n` and the request
counts `_filter` (an `unordered_map` read and written through `operator[]` only,
hence a total function with default 0). -/
structure FilterCache extends LRUCache where
  _nParam : Nat
  _filter : CacheObject → Nat

namespace FilterCache

/-- An empty `FilterCache` of capacity `cs` with parameter `n`. -/
def empty (cs n : Nat) : FilterCache :=
  { toLRUCache := LRUCache.empty cs, _nParam := n, _filter := fun _ => 0 }

/-- The method `FilterCache::lookup`: `_filter[obj]++; return LRUCache::lookup(req);`. -/
def lookup (c : FilterCache) (req : SimpleRequest) : FilterCache × Bool :=
  ({ c with
      _filter := fun o => if o = CacheObject.ofReq req then c._filter o + 1 else c._filter o
      toLRUCache := (LRUCache.lookup c.toLRUCache req).1 },
    (LRUCache.lookup c.toLRUCache req).2)

/-- The method `FilterCache::admit`. -/
def admitReq (c : FilterCache) (req : SimpleRequest) : Option FilterCache :=
  if c._filter (CacheObject.ofReq req) ≤ c._nParam then some c
  else (LRUCache.admitReq c.toLRUCache req).map (fun l => { c with toLRUCache := l })

/-- The effect of one call on a `FilterCache`; the evictions are inherited. -/
def step (c : FilterCache) : LRUCache.Op → Option FilterCache
  | LRUCache.Op.lookup req => some (lookup c req).1
  | LRUCache.Op.admitReq req => admitReq c req
  | LRUCache.Op.evict => some { c with toLRUCache := LRUCache.evict c.toLRUCache }
  | LRUCache.Op.evictReq req => some { c with toLRUCache := LRUCache.evictReq c.toLRUCache req }

/-- The effect of a sequence of calls on a `FilterCache`. -/
def run (c : FilterCache) : List LRUCache.Op → Option FilterCache
  | [] => some c
  | op :: ops => (step c op).bind (fun c1 => run c1 ops)

/-- The invariant of a trace: the LRU part is well-formed, and an object whose
count has not passed `n` is not listed. -/
structure Gated (c : FilterCache) : Prop where
  wf : LRUCache.WF c.toLRUCache
  gate : ∀ o, c._filter o ≤ c._nParam → o ∉ c.objs

/-- The number of `lookup` calls for the object `o` in a sequence of calls. -/
def lookupCount (o : CacheObject) : List LRUCache.Op → Nat
  | [] => 0
  | LRUCache.Op.lookup req :: ops =>
      (if CacheObject.ofReq req = o then 1 else 0) + lookupCount o ops
  | _ :: ops => lookupCount o ops

/-- One request of a trace: lookup, and admit on a miss. -/
def request (c : FilterCache) (req : SimpleRequest) : Option FilterCache :=
  if (lookup c req).2 then some (lookup c req).1 else admitReq (lookup c req).1 req

/-- A trace of requests. -/
def requests (c : FilterCache) : List SimpleRequest → Option FilterCache
  | [] => some c
  | req :: reqs => (request c req).bind (fun c1 => requests c1 reqs)

/-- The number of requests for the object `o` in a trace. -/
def requestCount (o : CacheObject) (S : List SimpleRequest) : Nat :=
  (S.filter (fun r => decide (CacheObject.ofReq r = o))).length

end FilterCache

/-! ### Segmented caches: S4LRU -/

/-- The array `segments[]` of a segmented cache, by index.  `S4LRUCache` uses the
indices 0 to 3, `SLRUCache` the indices 0 and 1. -/
abbrev Segments := Nat → LRUCache

namespace Segments

/-- The call `segments[idx].admit(req)`. -/
def admitAt (idx : Nat) (s : Segments) (req : SimpleRequest) : Except Fault Segments :=
  match LRUCache.admitReq (s idx) req with
  | some c => Except.ok (Function.update s idx c)
  | none => Except.error Fault.diverges

/-- The loop of `segment_admit(idx, req)`, for `idx > 0`:
`while (segments[idx].getCurrentSize() + req->getSize() > segments[idx].getSize())
{ auto nreq = segments[idx].evict_return(); segment_admit(idx-1, nreq); }`, where
`lower` is `segment_admit(idx-1, ·)` and `nreq` is null when the segment is empty. -/
def admitLoop (lower : Segments → Option SimpleRequest → Except Fault Segments)
    (idx size : Nat) : Nat → Segments → Except Fault Segments
  | 0, _ => Except.error Fault.diverges
  | fuel + 1, s =>
      if (s idx)._currentSize + size > (s idx)._cacheSize then
        match lower (Function.update s idx (LRUCache.evict_return (s idx)).1)
            (LRUCache.evict_return (s idx)).2 with
        | Except.ok s1 => admitLoop lower idx size fuel s1
        | Except.error e => Except.error e
      else Except.ok s

/-- The method `segment_admit(idx, req)` of `S4LRUCache` and of `SLRUCache`.  A null
`req` is dereferenced at once (`req->getSize()`), which is a fault.  Every round of
the loop unlinks a node of segment `idx` or faults on the null victim, so
`length + 1` rounds decide the loop. -/
def segment_admit : Nat → Segments → Option SimpleRequest → Except Fault Segments
  | 0 => fun s r =>
      match r with
      | none => Except.error Fault.nullRequest
      | some req => admitAt 0 s req
  | idx + 1 => fun s r =>
      match r with
      | none => Except.error Fault.nullRequest
      | some req =>
          match admitLoop ( segment_admit idx) (idx + 1) req.size
              ((s (idx + 1))._cacheList.length + 1) s with
          | Except.ok s1 => admitAt (idx + 1) s1 req
          | Except.error e => Except.error e

/-- The sum of the current sizes of the first `k` segments. -/
def totalSize (s : Segments) (k : Nat) : Nat :=
  ((List.range k).map (fun i => (s i)._currentSize)).sum

/-- Every segment satisfies the invariant of arbitrary call sequences. -/
def AllInv (s : Segments) : Prop := ∀ k, LRUCache.Inv (s k)

/-- What a call of `segment_admit(j, ·)` that returns guarantees on states whose
segments satisfy the invariant: the request was not null, the invariant and the
capacities are kept, the segments above `j` are untouched and the sizes of the
segments up to `j` grow by at most the request's size. -/
def LowerOk (lower : Segments → Option SimpleRequest → Except Fault Segments) (j : Nat) : Prop :=
  ∀ s r t, AllInv s → lower s r = Except.ok t →
    ∃ req, r = some req ∧ AllInv t ∧ (∀ k, (t k)._cacheSize = (s k)._cacheSize) ∧
      (∀ k, j < k → t k = s k) ∧ totalSize t (j + 1) ≤ totalSize s (j + 1) + req.size

/-- Every segment is well-formed and no object is listed in two segments. -/
structure SegWF (s : Segments) : Prop where
  wf : ∀ k, LRUCache.WF (s k)
  disjoint : ∀ k l o, k ≠ l → o ∈ (s k).objs → o ∉ (s l).objs

/-- From segment 1 on, no segment is larger than the one below it. -/
def CapsMono (s : Segments) : Prop :=
  ∀ k, 1 ≤ k → (s (k + 1))._cacheSize ≤ (s k)._cacheSize

/-- The contract of `segment_admit(j, req)` on well-formed, disjoint segments, for a
request that is listed nowhere and, when `j > 0`, fits segment `j`: the call
returns, the segments stay well-formed and disjoint, every listed object was listed
before or is the request in segment `j`, and the request is listed in segment `j`
when it fits there. -/
def AdmitsOk (j : Nat) : Prop :=
  ∀ (s : Segments) (req : SimpleRequest), SegWF s →
    (∀ k, CacheObject.ofReq req ∉ (s k).objs) → CapsMono s →
    (1 ≤ j → req.size ≤ (s j)._cacheSize) →
    ∃ t, segment_admit j s (some req) = Except.ok t ∧ SegWF t ∧
      (∀ k o, o ∈ (t k).objs → (o = CacheObject.ofReq req ∧ k = j) ∨ ∃ l, o ∈ (s l).objs) ∧
      (req.size ≤ (s j)._cacheSize → CacheObject.ofReq req ∈ (t j).objs)

end Segments

namespace S4LRUCache

/-- A freshly constructed `S4LRUCache`: four empty segments. -/
def init : Segments := fun _ => LRUCache.empty 0

/-- The method `S4LRUCache::setSize`. -/
def setSize (s : Segments) (cs : Nat) : Segments :=
  let s1 := (List.range 4).foldl
    (fun (t : Segments) i => Function.update t i (LRUCache.setSize (t i) (cs / 4))) s
  let total := (List.range 4).foldl (fun (t : Nat) _ => t - cs / 4) cs
  if total > 0 then Function.update s1 0 (LRUCache.setSize (s1 0) (cs / 4 + total)) else s1

/-- The loop of `S4LRUCache::lookup` over the segments `i, i+1, ...` (`n` of them). -/
def lookupLoop (req : SimpleRequest) : Nat → Nat → Segments → Except Fault (Segments × Bool)
  | 0, _, s => Except.ok (s, false)
  | n + 1, i, s =>
      if (LRUCache.lookup (s i) req).2 then
        if i < 3 then
          match Segments.segment_admit (i + 1)
              (Function.update s i (LRUCache.evictReq (LRUCache.lookup (s i) req).1 req))
              (some req) with
          | Except.ok s2 => Except.ok (s2, true)
          | Except.error e => Except.error e
        else Except.ok (Function.update s i (LRUCache.lookup (s i) req).1, true)
      else lookupLoop req n (i + 1) (Function.update s i (LRUCache.lookup (s i) req).1)

/-- The method `S4LRUCache::lookup`. -/
def lookup (s : Segments) (req : SimpleRequest) : Except Fault (Segments × Bool) :=
  lookupLoop req 4 0 s

/-- The method `S4LRUCache::admit`. -/
def admitReq (s : Segments) (req : SimpleRequest) : Except Fault Segments :=
  Segments.admitAt 0 s req

/-- The method `S4LRUCache::evict(SimpleRequest*)`. -/
def evictReq (s : Segments) (req : SimpleRequest) : Segments :=
  (List.range 4).foldl (fun (t : Segments) i => Function.update t i (LRUCache.evictReq (t i) req)) s

/-- The method `S4LRUCache::evict()`. -/
def evict (s : Segments) : Segments :=
  Function.update s 0 (LRUCache.evict (s 0))

/-- The effect of one call on an `S4LRUCache`. -/
def step (s : Segments) : LRUCache.Op → Except Fault Segments
  | LRUCache.Op.lookup req =>
      match lookup s req with
      | Except.ok r => Except.ok r.1
      | Except.error e => Except.error e
  | LRUCache.Op.admitReq req => admitReq s req
  | LRUCache.Op.evict => Except.ok (evict s)
  | LRUCache.Op.evictReq req => Except.ok (evictReq s req)

/-- The effect of a sequence of calls on an `S4LRUCache`. -/
def run (s : Segments) : List LRUCache.Op → Except Fault Segments
  | [] => Except.ok s
  | op :: ops =>
      match step s op with
      | Except.ok s1 => run s1 ops
      | Except.error e => Except.error e

/-- One request of a trace: lookup, and admit on a miss. -/
def request (s : Segments) (req : SimpleRequest) : Except Fault Segments :=
  match lookup s req with
  | Except.ok r => if r.2 then Except.ok r.1 else admitReq r.1 req
  | Except.error e => Except.error e

/-- A trace of requests. -/
def requests (s : Segments) : List SimpleRequest → Except Fault Segments
  | [] => Except.ok s
  | req :: reqs =>
      match request s req with
      | Except.ok s1 => requests s1 reqs
      | Except.error e => Except.error e

/-- The objects of the four segments, segment 0 first. -/
def view (s : Segments) : List (List CacheObject) :=
  (List.range 4).map (fun i => (s i).objs)

/-- The invariant of request traces on an `S4LRUCache` configured by `setSize(cs)`:
well-formed disjoint segments with the configured capacities, and nothing listed
beyond segment 3. -/
structure Reach (cs : Nat) (s : Segments) : Prop where
  segwf : Segments.SegWF s
  caps : ∀ k, (s k)._cacheSize = (setSize init cs k)._cacheSize
  upper : ∀ k, 4 ≤ k → (s k).objs = []

end S4LRUCache

/-! ### Sketches -/

/-- Modelled from the spec: the Count-Min sketch is an external collaborator
providing `update(sketch, id, delta) → newCount` and `pointEst(sketch, id) → count`;
`σ` is the type of its states, ids reach it as integers, `delta` is always 1. -/
structure CountMin (σ : Type) where
  update : σ → Int → σ × Int
  pointEst : σ → Int → Int

/-- Modelled from the spec: the door-keeper is an external collaborator providing
`update(id, 1)`, `pointEst(id) → 0|1` and `reset()`; `δ` is the type of its
states. -/
structure DoorKeeper (δ : Type) where
  update : δ → Int → δ
  pointEst : δ → Int → Int
  reset : δ → δ

/-- An exact sketch: the list of the ids it was updated with; the estimate of an id
is the number of its updates. -/
def exactCountMin : CountMin (List Int) :=
  { update := fun s id => (id :: s, ((id :: s).count id : Int))
    pointEst := fun s id => (s.count id : Int) }

/-- An exact door-keeper: the list of the ids it holds; the estimate is 0 or 1. -/
def exactDoorKeeper : DoorKeeper (List Int) :=
  { update := fun s id => id :: s
    pointEst := fun s id => if id ∈ s then 1 else 0
    reset := fun _ => [] }

/-! ### TinyLFU -/

/-- The state of a `TinyLFU` cache: an `LRUCache` and the sketch `cm_sketch`. -/
structure TinyLFU (σ : Type) extends LRUCache where
  cm_sketch : σ

namespace TinyLFU

/-- An empty `TinyLFU` cache of capacity `cs` over the sketch state `s0`. -/
def empty {σ : Type} (cs : Nat) (s0 : σ) : TinyLFU σ :=
  { toLRUCache := LRUCache.empty cs, cm_sketch := s0 }

/-- The method `TinyLFU::update_tiny_lfu(long long id)`. -/
def update_tiny_lfu {σ : Type} (cm : CountMin σ) (c : TinyLFU σ) (id : Int) : TinyLFU σ :=
  { c with cm_sketch := (cm.update c.cm_sketch id).1 }

/-- The method `TinyLFU::lookup`. -/
def lookup {σ : Type} (cm : CountMin σ) (c : TinyLFU σ) (req : SimpleRequest) :
    TinyLFU σ × Bool :=
  ({ update_tiny_lfu cm c (toInt64 req.id) with
      toLRUCache := (LRUCache.lookup c.toLRUCache req).1 },
    (LRUCache.lookup c.toLRUCache req).2)

/-- The method `TinyLFU::evict_return(int cand_id)`: the victim's id goes to the
sketch as every id does (`toInt64`, as in `update_tiny_lfu`), the candidate's id as
the `int` received. -/
def evict_return {σ : Type} (cm : CountMin σ) (c : TinyLFU σ) (cand_id : Int) :
    TinyLFU σ × Option SimpleRequest :=
  match c._cacheList.getLast? with
  | some lit =>
      if cm.pointEst c.cm_sketch (toInt64 lit.obj.id) < cm.pointEst c.cm_sketch cand_id then
        ({ c with
            _currentSize := c._currentSize - lit.obj.size
            _cacheMap := mapErase c._cacheMap lit.obj
            _cacheList := c._cacheList.dropLast },
          some lit.obj.toReq)
      else (c, none)
  | none => (c, none)

/-- The method `TinyLFU::evict(int cand_id)`. -/
def evict {σ : Type} (cm : CountMin σ) (c : TinyLFU σ) (cand_id : Int) : TinyLFU σ × Bool :=
  ((evict_return cm c cand_id).1, (evict_return cm c cand_id).2.isSome)

/-- The loop of `TinyLFU::admit`, returning the final value of `evicted`:
`while (_currentSize + size > _cacheSize) { evicted = evict(id); if(!evicted) break; }`. -/
def admitLoop {σ : Type} (cm : CountMin σ) (size : Nat) (cand_id : Int) :
    Nat → TinyLFU σ → Option (TinyLFU σ × Bool)
  | 0, _ => none
  | fuel + 1, c =>
      if c._currentSize + size > c._cacheSize then
        if (evict cm c cand_id).2 then admitLoop cm size cand_id fuel (evict cm c cand_id).1
        else some ((evict cm c cand_id).1, false)
      else some (c, true)

/-- The method `TinyLFU::admit`; `evict(req->getId())` converts the id to `int`.
Every round of the loop unlinks a node or leaves the loop, so `length + 1` rounds
decide it. -/
def admitReq {σ : Type} (cm : CountMin σ) (c : TinyLFU σ) (req : SimpleRequest) :
    Option (TinyLFU σ) :=
  if req.size > c._cacheSize then some c
  else
    match admitLoop cm req.size (toInt32 req.id) (c._cacheList.length + 1) c with
    | some (c1, true) => some { c1 with toLRUCache := LRUCache.pushFront c1.toLRUCache req }
    | some (c1, false) => some c1
    | none => none

/-- One request of a trace: lookup, and admit on a miss. -/
def request {σ : Type} (cm : CountMin σ) (c : TinyLFU σ) (req : SimpleRequest) :
    Option (TinyLFU σ) :=
  if (lookup cm c req).2 then some (lookup cm c req).1 else admitReq cm (lookup cm c req).1 req

/-- A trace of requests. -/
def requests {σ : Type} (cm : CountMin σ) (c : TinyLFU σ) :
    List SimpleRequest → Option (TinyLFU σ)
  | [] => some c
  | req :: reqs => (request cm c req).bind (fun c1 => requests cm c1 reqs)

end TinyLFU

/-! ### SLRU -/

/-- The state of an `SLRUCache`: two segments, the total capacity and current size,
the sketch and the door-keeper. -/
structure SLRUCache (σ δ : Type) where
  segments : Segments
  _cacheSize : Nat
  _currentSize : Nat
  cm_sketch : σ
  dk : δ

namespace SLRUCache

/-- The method `SLRUCache::setSize`.  The literals `0.2` and `0.8` are the doubles
nearest to 2/10 and 8/10, `cs` is converted to `double` for the products, `floor`
returns a double, and `total -= x` converts `total` to `double`, subtracts and
converts the difference back to `uint64_t`. -/
def setSize {σ δ : Type} (m : SLRUCache σ δ) (cs : Nat) : SLRUCache σ δ :=
  let seg0 := LRUCache.setSize (m.segments 0)
    (Double.toU64 ((⌊Double.mul (Double.ofU64 cs) (Double.round (2 / 10))⌋ : Int) : ℚ))
  let total1 := Double.toU64
    (Double.sub (Double.ofU64 cs) (Double.mul (Double.ofU64 cs) (Double.round (2 / 10))))
  let seg1 := LRUCache.setSize (m.segments 1)
    (Double.toU64 ((⌊Double.mul (Double.ofU64 cs) (Double.round (8 / 10))⌋ : Int) : ℚ))
  let total2 := Double.toU64
    (Double.sub (Double.ofU64 total1) (Double.mul (Double.ofU64 cs) (Double.round (8 / 10))))
  let seg0b :=
    if total2 > 0 then
      LRUCache.setSize seg0
        (Double.toU64
          (Double.add (Double.mul (Double.ofU64 cs) (Double.round (2 / 10)))
            (Double.ofU64 total2)))
    else seg0
  { m with
      segments := Function.update (Function.update m.segments 0 seg0b) 1 seg1
      _cacheSize := cs }

/-- The first loop of `admit_from_window`, returning segment 0 and `prevEvicted`:
`while (segments[0].getCurrentSize() + size > segments[0].getSize())
{ evicted = segments[0].evict_return(); if(evicted==NULL) break; prevEvicted=evicted; }`. -/
def preEvict (size : Nat) :
    Nat → LRUCache → Option SimpleRequest → Option (LRUCache × Option SimpleRequest)
  | 0, _, _ => none
  | fuel + 1, c, prev =>
      if c._currentSize + size > c._cacheSize then
        match (LRUCache.evict_return c).2 with
        | some v => preEvict size fuel (LRUCache.evict_return c).1 (some v)
        | none => some ((LRUCache.evict_return c).1, prev)
      else some (c, prev)

/-- The combined estimate `CM_PointEst(cm_sketch, id) + Door_keeper_PointEst(dk, id)`;
the id goes to the sketches as every id does (`toInt64`, as in `update_cm_sketch`). -/
def freqEst {σ δ : Type} (cm : CountMin σ) (door : DoorKeeper δ) (m : SLRUCache σ δ)
    (id : Nat) : Int :=
  cm.pointEst m.cm_sketch (toInt64 id) + door.pointEst m.dk (toInt64 id)

/-- The method `SLRUCache::admit_from_window`, the byte counters in the natural
numbers (`W64.admit_from_window` has the 64-bit sums). -/
def admit_from_window {σ δ : Type} (cm : CountMin σ) (door : DoorKeeper δ)
    (m : SLRUCache σ δ) (req : SimpleRequest) : Except Fault (SLRUCache σ δ) :=
  if req.size > (m.segments 0)._cacheSize then Except.ok m
  else
    match preEvict req.size ((m.segments 0)._cacheList.length + 1) (m.segments 0) none with
    | none => Except.error Fault.diverges
    | some (seg0, prevEvicted) =>
        let chosen :=
          match prevEvicted with
          | some v => if freqEst cm door m v.id > freqEst cm door m req.id then v else req
          | none => req
        match LRUCache.admitReq seg0 chosen with
        | none => Except.error Fault.diverges
        | some seg0a =>
            Except.ok { m with
              segments := Function.update m.segments 0 seg0a
              _currentSize := seg0a._currentSize + (m.segments 1)._currentSize }

/-- The method `SLRUCache::search_door_keeper(long long id)`. -/
def search_door_keeper {σ δ : Type} (door : DoorKeeper δ) (m : SLRUCache σ δ) (id : Int) : Int :=
  door.pointEst m.dk id

/-- The method `SLRUCache::update_door_keeper(long long id)`. -/
def update_door_keeper {σ δ : Type} (door : DoorKeeper δ) (m : SLRUCache σ δ) (id : Int) :
    SLRUCache σ δ :=
  { m with dk := door.update m.dk id }

namespace W64

/-- The first loop of `admit_from_window`, the sum in 64 bits. -/
def preEvict (size : Nat) :
    Nat → LRUCache → Option SimpleRequest → Option (LRUCache × Option SimpleRequest)
  | 0, _, _ => none
  | fuel + 1, c, prev =>
      if LRUCache.add64 c._currentSize size > c._cacheSize then
        match (LRUCache.W64.evict_return c).2 with
        | some v => preEvict size fuel (LRUCache.W64.evict_return c).1 (some v)
        | none => some ((LRUCache.W64.evict_return c).1, prev)
      else some (c, prev)

/-- The method `SLRUCache::admit_from_window`, the byte counters in 64 bits. -/
def admit_from_window {σ δ : Type} (cm : CountMin σ) (door : DoorKeeper δ)
    (m : SLRUCache σ δ) (req : SimpleRequest) : Except Fault (SLRUCache σ δ) :=
  if req.size > (m.segments 0)._cacheSize then Except.ok m
  else
    match preEvict req.size ((m.segments 0)._cacheList.length + 1) (m.segments 0) none with
    | none => Except.error Fault.diverges
    | some (seg0, prevEvicted) =>
        let chosen :=
          match prevEvicted with
          | some v => if freqEst cm door m v.id > freqEst cm door m req.id then v else req
          | none => req
        match LRUCache.W64.admitReq seg0 chosen with
        | none => Except.error Fault.diverges
        | some seg0a =>
            Except.ok { m with
              segments := Function.update m.segments 0 seg0a
              _currentSize := LRUCache.add64 seg0a._currentSize (m.segments 1)._currentSize }

end W64

end SLRUCache

/-! ### The window and W-TinyLFU -/

namespace LRU

/-- The loop of `LRU::admit_with_return`, collecting the victims in order:
`while (_currentSize + size > _cacheSize)
{ SimpleRequest* r=evict_return(); if(r!=NULL) victim_list.push_back(r); }`. -/
def evictCollect (size : Nat) :
    Nat → LRUCache → List SimpleRequest → Option (LRUCache × List SimpleRequest)
  | 0, _, _ => none
  | fuel + 1, c, acc =>
      if c._currentSize + size > c._cacheSize then
        match (LRUCache.evict_return c).2 with
        | some v => evictCollect size fuel (LRUCache.evict_return c).1 (acc ++ [v])
        | none => evictCollect size fuel (LRUCache.evict_return c).1 acc
      else some (c, acc)

/-- The method `LRU::admit_with_return`, the byte counter in the natural numbers
(`W64.admit_with_return` has the 64-bit sums). -/
def admit_with_return (c : LRUCache) (req : SimpleRequest) :
    Except Fault (LRUCache × List SimpleRequest) :=
  if req.size > c._cacheSize then Except.ok (c, [])
  else
    match evictCollect req.size (c._cacheList.length + 1) c [] with
    | none => Except.error Fault.diverges
    | some (c1, victims) =>
        match LRUCache.admitReq c1 req with
        | none => Except.error Fault.diverges
        | some c2 => Except.ok (c2, victims)

namespace W64

/-- The loop of `LRU::admit_with_return`, the sum in 64 bits. -/
def evictCollect (size : Nat) :
    Nat → LRUCache → List SimpleRequest → Option (LRUCache × List SimpleRequest)
  | 0, _, _ => none
  | fuel + 1, c, acc =>
      if LRUCache.add64 c._currentSize size > c._cacheSize then
        match (LRUCache.W64.evict_return c).2 with
        | some v => evictCollect size fuel (LRUCache.W64.evict_return c).1 (acc ++ [v])
        | none => evictCollect size fuel (LRUCache.W64.evict_return c).1 acc
      else some (c, acc)

/-- The method `LRU::admit_with_return`, the byte counter in 64 bits. -/
def admit_with_return (c : LRUCache) (req : SimpleRequest) :
    Except Fault (LRUCache × List SimpleRequest) :=
  if req.size > c._cacheSize then Except.ok (c, [])
  else
    match evictCollect req.size (c._cacheList.length + 1) c [] with
    | none => Except.error Fault.diverges
    | some (c1, victims) =>
        match LRUCache.W64.admitReq c1 req with
        | none => Except.error Fault.diverges
        | some c2 => Except.ok (c2, victims)

end W64

end LRU

/-- The state of a `W_TinyLFU` cache.  The class is declared in the header; the
window percentage is taken as a signed integer (`hillClimber` subtracts 5 from it
and compares it with 0), the counters `reqs` and `hits` as the `int` values
`hillClimber` receives, without a bound; `prev_hit_ratio` is a double, that is, the
rational number it stands for. -/
structure W_TinyLFU (σ δ : Type) where
  window : LRUCache
  main_cache : SLRUCache σ δ
  _cacheSize : Nat
  window_size_p : Int
  reqs : Int
  hits : Int
  prev_hit_ratio : ℚ

namespace W_TinyLFU

/-- The loop of `W_TinyLFU::admit` that offers the window's victims to the main
cache, in the order of the list. -/
def offerVictims {σ δ : Type} (cm : CountMin σ) (door : DoorKeeper δ) :
    List SimpleRequest → SLRUCache σ δ → Except Fault (SLRUCache σ δ)
  | [], m => Except.ok m
  | v :: vs, m =>
      match SLRUCache.admit_from_window cm door m v with
      | Except.ok m1 => offerVictims cm door vs m1
      | Except.error e => Except.error e

/-- The method `W_TinyLFU::admit`, the byte counters in the natural numbers
(`W64.admitReq` has the 64-bit sums). -/
def admitReq {σ δ : Type} (cm : CountMin σ) (door : DoorKeeper δ) (c : W_TinyLFU σ δ)
    (req : SimpleRequest) : Except Fault (W_TinyLFU σ δ) :=
  if SLRUCache.search_door_keeper door c.main_cache (toInt64 req.id) ≠ 0 then
    if c.window._cacheSize = 0 then
      match SLRUCache.admit_from_window cm door c.main_cache req with
      | Except.ok m => Except.ok { c with main_cache := m }
      | Except.error e => Except.error e
    else
      match LRU.admit_with_return c.window req with
      | Except.error e => Except.error e
      | Except.ok (w, victims) =>
          match offerVictims cm door victims c.main_cache with
          | Except.ok m => Except.ok { c with window := w, main_cache := m }
          | Except.error e => Except.error e
  else
    Except.ok { c with
      main_cache := SLRUCache.update_door_keeper door c.main_cache (toInt64 req.id) }

namespace W64

/-- The loop of `W_TinyLFU::admit` over the victims, the byte counters in 64 bits. -/
def offerVictims {σ δ : Type} (cm : CountMin σ) (door : DoorKeeper δ) :
    List SimpleRequest → SLRUCache σ δ → Except Fault (SLRUCache σ δ)
  | [], m => Except.ok m
  | v :: vs, m =>
      match SLRUCache.W64.admit_from_window cm door m v with
      | Except.ok m1 => offerVictims cm door vs m1
      | Except.error e => Except.error e

/-- The method `W_TinyLFU::admit`, the byte counters in 64 bits. -/
def admitReq {σ δ : Type} (cm : CountMin σ) (door : DoorKeeper δ) (c : W_TinyLFU σ δ)
    (req : SimpleRequest) : Except Fault (W_TinyLFU σ δ) :=
  if SLRUCache.search_door_keeper door c.main_cache (toInt64 req.id) ≠ 0 then
    if c.window._cacheSize = 0 then
      match SLRUCache.W64.admit_from_window cm door c.main_cache req with
      | Except.ok m => Except.ok { c with main_cache := m }
      | Except.error e => Except.error e
    else
      match LRU.W64.admit_with_return c.window req with
      | Except.error e => Except.error e
      | Except.ok (w, victims) =>
          match offerVictims cm door victims c.main_cache with
          | Except.ok m => Except.ok { c with window := w, main_cache := m }
          | Except.error e => Except.error e
  else
    Except.ok { c with
      main_cache := SLRUCache.update_door_keeper door c.main_cache (toInt64 req.id) }

end W64

/-- A sample `W_TinyLFU` state: capacity 100, window 10, main cache 18 + 72, all
empty, exact sketches that have seen nothing. -/
def sample : W_TinyLFU (List Int) (List Int) :=
  { window := LRUCache.empty 10
    main_cache :=
      { segments := Function.update (Function.update S4LRUCache.init 0 (LRUCache.empty 18)) 1
          (LRUCache.empty 72)
        _cacheSize := 90
        _currentSize := 0
        cm_sketch := []
        dk := [] }
    _cacheSize := 100
    window_size_p := 10
    reqs := 0
    hits := 0
    prev_hit_ratio := 0 }

end W_TinyLFU

end WebCacheSim

namespace WebCacheSim

namespace TinyLFU

/-- A sample `TinyLFU` state of capacity 2 over the exact sketch: A (id 1, 1 byte) in
front of B (id 2, 1 byte); the sketch has seen id 3 twice, id 1 twice and id 2 once.
It is the state after the requests `{3,5}`, `{2,1}`, `{1,1}`, `{1,1}` and the lookup
of `{3,2}`. -/
def sampleHot : TinyLFU (List Int) :=
  { toLRUCache :=
      { _cacheSize := 2
        _currentSize := 2
        _cacheList := [Node.mk 1 (CacheObject.mk 1 1), Node.mk 0 (CacheObject.mk 2 1)]
        _cacheMap := [(CacheObject.mk 1 1, 1), (CacheObject.mk 2 1, 0)]
        _next := 2 }
    cm_sketch := [3, 1, 1, 2, 3] }

end TinyLFU

/-! ### SLRU: lookup, promotion, eviction from a segment -/

namespace SLRUCache

/-- The method `SLRUCache::segment_admit`: the recursion of the segments, then
`_currentSize=segments[0].getCurrentSize()+segments[1].getCurrentSize()`. -/
def segment_admit {σ δ : Type} (m : SLRUCache σ δ) (idx : Nat) (req : Option SimpleRequest) :
    Except Fault (SLRUCache σ δ) :=
  match Segments.segment_admit idx m.segments req with
  | Except.ok s =>
      Except.ok { m with segments := s, _currentSize := (s 0)._currentSize + (s 1)._currentSize }
  | Except.error e => Except.error e

/-- The method `SLRUCache::lookup`. -/
def lookup {σ δ : Type} (m : SLRUCache σ δ) (req : SimpleRequest) :
    Except Fault (SLRUCache σ δ × Bool) :=
  if (LRUCache.lookup (m.segments 0) req).2 then
    match segment_admit
        { m with segments := (Function.update m.segments 0
            (LRUCache.evictReq (LRUCache.lookup (m.segments 0) req).1 req)) } 1 (some req) with
    | Except.ok m1 => Except.ok (m1, true)
    | Except.error e => Except.error e
  else
    Except.ok
      ({ m with segments :=
          (Function.update (Function.update m.segments 0 (LRUCache.lookup (m.segments 0) req).1) 1
            (LRUCache.lookup (m.segments 1) req).1) },
        (LRUCache.lookup (m.segments 1) req).2)

/-- The method `SLRUCache::evict_return(int segment)`. -/
def evict_return {σ δ : Type} (m : SLRUCache σ δ) (segment : Nat) :
    SLRUCache σ δ × Option SimpleRequest :=
  ({ m with
      segments :=
        (Function.update m.segments segment (LRUCache.evict_return (m.segments segment)).1)
      _currentSize :=
        ((Function.update m.segments segment (LRUCache.evict_return (m.segments segment)).1
            0)._currentSize
          + (Function.update m.segments segment (LRUCache.evict_return (m.segments segment)).1
            1)._currentSize) },
    (LRUCache.evict_return (m.segments segment)).2)

/-- The macro `COUNTER_MAX`. -/
def COUNTER_MAX : Int := 15

/-- The method `SLRUCache::update_cm_sketch(long long id)`. -/
def update_cm_sketch {σ δ : Type} (cm : CountMin σ) (door : DoorKeeper δ) (m : SLRUCache σ δ)
    (id : Int) : SLRUCache σ δ :=
  if (cm.update m.cm_sketch id).2 = COUNTER_MAX then
    { m with cm_sketch := (cm.update m.cm_sketch id).1, dk := door.reset m.dk }
  else { m with cm_sketch := (cm.update m.cm_sketch id).1 }

/-- The method `SLRUCache::initDoor_initCM`.  Modelled from the spec: the sketches
are created by `init(width, depth, seed)`; `cmInit` and `dkInit` give the fresh
sketch of a width. -/
def initDoor_initCM {σ δ : Type} (cmInit : Nat → σ) (dkInit : Nat → δ) (m : SLRUCache σ δ)
    (cs : Nat) : SLRUCache σ δ :=
  { m with cm_sketch := cmInit (cs / 2), dk := dkInit cs }

end SLRUCache

/-! ### W-TinyLFU: lookup, parameters and the hill climber -/

namespace W_TinyLFU

/-- The macro `HILL_CLIMBER_FACTOR`. -/
def HILL_CLIMBER_FACTOR : Nat := 1

/-- The conversion of an `int` to `uint64_t`. -/
def intToU64 (x : Int) : Nat := (x % 2 ^ 64).toNat

/-- The expression `_cacheSize*(double(window_size_p)/100)`. -/
def windowShare (cs : Nat) (p : Int) : ℚ :=
  Double.mul (Double.ofU64 cs) (Double.div (Double.ofInt p) (Double.ofInt 100))

/-- The expression `_cacheSize*(1-double(window_size_p)/100)`. -/
def mainShare (cs : Nat) (p : Int) : ℚ :=
  Double.mul (Double.ofU64 cs)
    (Double.sub (Double.ofInt 1) (Double.div (Double.ofInt p) (Double.ofInt 100)))

/-- The expression `_cacheSize*double(window_size_p)/100` at the end of
`increaseMainCache`: the product is formed first. -/
def windowShareLate (cs : Nat) (p : Int) : ℚ :=
  Double.div (Double.mul (Double.ofU64 cs) (Double.ofInt p)) (Double.ofInt 100)

/-- The expression `double(hits)/reqs`. -/
def hitRatio (hits reqs : Int) : ℚ :=
  Double.div (Double.ofInt hits) (Double.ofInt reqs)

/-- A call `window.admit(req)` with a request pointer that may be null. -/
def admitPtr (w : LRUCache) : Option SimpleRequest → Except Fault LRUCache
  | some req => LRUCache.admitOrFault w req
  | none => Except.error Fault.nullRequest

/-- The loop of `W_TinyLFU::increaseWindow`: while the main cache holds more than
its new share (a comparison of doubles), the tail of segment 0 (of segment 1 when
`getCurrentSegmentSize(0) <= 0`, an `int`) is moved to the window. -/
def increaseWindowLoop {σ δ : Type} (bound : ℚ) :
    Nat → LRUCache → SLRUCache σ δ → Except Fault (LRUCache × SLRUCache σ δ)
  | 0, _, _ => Except.error Fault.diverges
  | fuel + 1, w, m =>
      if bound < Double.ofU64 m._currentSize then
        match admitPtr w
            (if toInt32 (m.segments 0)._currentSize ≤ 0 then (SLRUCache.evict_return m 1).2
              else (SLRUCache.evict_return m 0).2) with
        | Except.ok w1 =>
            increaseWindowLoop bound fuel w1
              (if toInt32 (m.segments 0)._currentSize ≤ 0 then (SLRUCache.evict_return m 1).1
                else (SLRUCache.evict_return m 0).1)
        | Except.error e => Except.error e
      else Except.ok (w, m)

/-- The method `W_TinyLFU::increaseWindow`.  Every round of the loop unlinks a node of
a segment or dereferences a null request, so the lengths of the two segments plus
one bound the rounds. -/
def increaseWindow {σ δ : Type} (c : W_TinyLFU σ δ) : Except Fault (W_TinyLFU σ δ) :=
  match increaseWindowLoop (mainShare c._cacheSize c.window_size_p)
      ((c.main_cache.segments 0)._cacheList.length
        + (c.main_cache.segments 1)._cacheList.length + 1) c.window c.main_cache with
  | Except.ok (w, m) =>
      Except.ok { c with
        window := w
        main_cache := (SLRUCache.setSize m
          (Double.toU64 (mainShare c._cacheSize c.window_size_p))) }
  | Except.error e => Except.error e

/-- The loop of `W_TinyLFU::increaseMainCache`: while the window holds more than its
new share (a comparison of doubles), its tail is moved to segment 1 of the main
cache when `getCurrentSegmentSize(0) >= getSegmentSize(0)` (both `int`), else to
segment 0. -/
def increaseMainCacheLoop {σ δ : Type} (bound : ℚ) :
    Nat → LRUCache → SLRUCache σ δ → Except Fault (LRUCache × SLRUCache σ δ)
  | 0, _, _ => Except.error Fault.diverges
  | fuel + 1, w, m =>
      if bound < Double.ofU64 w._currentSize then
        match SLRUCache.segment_admit m
            (if toInt32 (m.segments 0)._currentSize ≥ toInt32 (m.segments 0)._cacheSize then 1
              else 0)
            (LRUCache.evict_return w).2 with
        | Except.ok m1 => increaseMainCacheLoop bound fuel (LRUCache.evict_return w).1 m1
        | Except.error e => Except.error e
      else Except.ok (w, m)

/-- The method `W_TinyLFU::increaseMainCache`.  Every round of the loop unlinks a
node of the window or dereferences a null request. -/
def increaseMainCache {σ δ : Type} (c : W_TinyLFU σ δ) : Except Fault (W_TinyLFU σ δ) :=
  match increaseMainCacheLoop (windowShare c._cacheSize c.window_size_p)
      (c.window._cacheList.length + 1) c.window c.main_cache with
  | Except.ok (w, m) =>
      Except.ok { c with
        window := (LRUCache.setSize w
          (Double.toU64 (windowShareLate c._cacheSize c.window_size_p)))
        main_cache := m }
  | Except.error e => Except.error e

/-- The window percentage after an improvement of the hit ratio. -/
def windowUp (p : Int) : Int :=
  if p = 0 then 1 else if p = 1 then 5 else if p + 5 > 80 then 80 else p + 5

/-- The window percentage after a decline of the hit ratio. -/
def windowDown (p : Int) : Int :=
  if p = 0 then 0 else if p = 1 then 0 else if p = 5 then 1 else p - 5

/-- The method `W_TinyLFU::hillClimber(int reqs, int hits)`.  The hit ratio and the
previous hit ratio are doubles and are compared as such.  (For `reqs = 0` the code
computes an infinity or a NaN, the model 0; `lookup` increments `reqs` before the
call.) -/
def hillClimber {σ δ : Type} (c : W_TinyLFU σ δ) (reqs hits : Int) :
    Except Fault (W_TinyLFU σ δ) :=
  if HILL_CLIMBER_FACTOR * c._cacheSize = 0 then Except.error Fault.divisionByZero
  else if intToU64 reqs % (HILL_CLIMBER_FACTOR * c._cacheSize) ≠ 0 then Except.ok c
  else if hitRatio hits reqs > c.prev_hit_ratio then
    increaseWindow { c with
      window_size_p := windowUp c.window_size_p
      prev_hit_ratio := hitRatio hits reqs
      window := (LRUCache.setSize c.window
        (Double.toU64 (windowShare c._cacheSize (windowUp c.window_size_p)))) }
  else if hitRatio hits reqs < c.prev_hit_ratio then
    increaseMainCache { c with
      window_size_p := windowDown c.window_size_p
      prev_hit_ratio := hitRatio hits reqs
      main_cache := (SLRUCache.setSize c.main_cache
        (Double.toU64 (mainShare c._cacheSize (windowDown c.window_size_p)))) }
  else Except.ok c

/-- The method `W_TinyLFU::lookup`, with `USE_HILL_CLIMBER` true. -/
def lookup {σ δ : Type} (cm : CountMin σ) (door : DoorKeeper δ) (c : W_TinyLFU σ δ)
    (req : SimpleRequest) : Except Fault (W_TinyLFU σ δ × Bool) :=
  let m1 :=
    if SLRUCache.search_door_keeper door c.main_cache (toInt64 req.id) ≠ 0 then
      SLRUCache.update_cm_sketch cm door c.main_cache (toInt64 req.id)
    else c.main_cache
  if (LRUCache.lookup c.window req).2 then
    match hillClimber
        { c with
          reqs := c.reqs + 1
          hits := c.hits + 1
          window := (LRUCache.lookup c.window req).1
          main_cache := SLRUCache.update_door_keeper door m1 (toInt64 req.id) }
        (c.reqs + 1) (c.hits + 1) with
    | Except.ok c1 => Except.ok (c1, true)
    | Except.error e => Except.error e
  else
    match SLRUCache.lookup m1 req with
    | Except.error e => Except.error e
    | Except.ok (m2, true) =>
        match hillClimber
            { c with
              reqs := c.reqs + 1
              hits := c.hits + 1
              window := (LRUCache.lookup c.window req).1
              main_cache := SLRUCache.update_door_keeper door m2 (toInt64 req.id) }
            (c.reqs + 1) (c.hits + 1) with
        | Except.ok c1 => Except.ok (c1, true)
        | Except.error e => Except.error e
    | Except.ok (m2, false) =>
        match hillClimber
            { c with
              reqs := c.reqs + 1
              window := (LRUCache.lookup c.window req).1
              main_cache := m2 }
            (c.reqs + 1) c.hits with
        | Except.ok c1 => Except.ok (c1, false)
        | Except.error e => Except.error e

/-- The method `W_TinyLFU::setPar`, on the number `std::stoull(parValue)`. -/
def setPar {σ δ : Type} (cmInit : Nat → σ) (dkInit : Nat → δ) (c : W_TinyLFU σ δ)
    (parValue : Nat) : W_TinyLFU σ δ :=
  { c with
    window_size_p := (parValue : Int)
    main_cache :=
      (SLRUCache.initDoor_initCM cmInit dkInit
        (SLRUCache.setSize c.main_cache
          (Double.toU64 (mainShare c._cacheSize (parValue : Int))))
        c._cacheSize)
    window := (LRUCache.setSize c.window
      (Double.toU64 (windowShare c._cacheSize (parValue : Int)))) }

/-- The effect of one call on a `W_TinyLFU` cache; `evict()` and `evict(req)` have
empty bodies. -/
def step {σ δ : Type} (cm : CountMin σ) (door : DoorKeeper δ) (c : W_TinyLFU σ δ) :
    LRUCache.Op → Except Fault (W_TinyLFU σ δ)
  | LRUCache.Op.lookup req =>
      match lookup cm door c req with
      | Except.ok r => Except.ok r.1
      | Except.error e => Except.error e
  | LRUCache.Op.admitReq req => admitReq cm door c req
  | LRUCache.Op.evict => Except.ok c
  | LRUCache.Op.evictReq _ => Except.ok c

/-- The effect of a sequence of calls on a `W_TinyLFU` cache. -/
def run {σ δ : Type} (cm : CountMin σ) (door : DoorKeeper δ) (c : W_TinyLFU σ δ) :
    List LRUCache.Op → Except Fault (W_TinyLFU σ δ)
  | [] => Except.ok c
  | op :: ops =>
      match step cm door c op with
      | Except.ok c1 => run cm door c1 ops
      | Except.error e => Except.error e

/-- A sample `W_TinyLFU` state of capacity 100 with window percentage 75: the
window has capacity 75 and the main cache 25 (5 + 20), all empty; the previous hit
ratio is 0. -/
def sample75 : W_TinyLFU (List Int) (List Int) :=
  { window := LRUCache.empty 75
    main_cache :=
      { segments := Function.update (Function.update S4LRUCache.init 0 (LRUCache.empty 5)) 1
          (LRUCache.empty 20)
        _cacheSize := 25
        _currentSize := 0
        cm_sketch := []
        dk := [] }
    _cacheSize := 100
    window_size_p := 75
    reqs := 100
    hits := 50
    prev_hit_ratio := 0 }

/-- A `W_TinyLFU` state whose window has the capacity `2^64 - 1` and is full with one
object (id 1, `2^64 - 1` bytes); the main cache is empty and the door-keeper has
recorded the id 2. -/
def sampleHugeWindow : W_TinyLFU (List Int) (List Int) :=
  { sample with
    window := LRUCache.sampleHuge
    main_cache := SLRUCache.update_door_keeper exactDoorKeeper sample.main_cache 2 }

/-- The sample state `sample` with the object Y (id 2, 8 bytes) in the window and
the id 1 recorded by the door-keeper. -/
def sampleVictim : W_TinyLFU (List Int) (List Int) :=
  { sample with
    window :=
      { _cacheSize := 10
        _currentSize := 8
        _cacheList := [Node.mk 0 (CacheObject.mk 2 8)]
        _cacheMap := [(CacheObject.mk 2 8, 0)]
        _next := 1 }
    main_cache := SLRUCache.update_door_keeper exactDoorKeeper sample.main_cache 1 }

/-- The window percentages of the hill climber's ladder: 0, 1, 5, 10, ..., 80. -/
def OnLadder (p : Int) : Prop :=
  p = 0 ∨ p = 1 ∨ (5 ≤ p ∧ p ≤ 80 ∧ p % 5 = 0)

instance (p : Int) : Decidable (OnLadder p) := by
  unfold OnLadder; infer_instance

end W_TinyLFU

/-! ### AdaptSize

The arithmetic of the tuner is over an ordered field `K` (the rationals for
evaluation, the reals for the exact statement).  The constants `EWMA_DECAY`, `gss_r`
and `tol` are declared in the header and are parameters, as are the library functions
`log2`, `pow(2, ·)` and `exp`.  A hit rate is an optional value: `none` is NaN, and
every comparison with NaN is false. -/

/-- The record `{requestCount, objSize}` kept per object by `AdaptSizeCache`. -/
structure ObjInfo (K : Type) where
  requestCount : K
  objSize : Nat

/-- The constants and library functions `AdaptSizeCache` depends on, and the value
`modelHitRate(log2c)` as a function of the aligned arrays, of the capacity and of
`log2c`.  The code computes that value in `double` arithmetic with `exp` and `pow`,
and a NaN is a product of that arithmetic (a quotient of zeros or of infinities);
an ordered field has none, so the value is a parameter with values in `Option K`
and the theorems about `reconfigure` hold for every such function. -/
structure AdaptEnv (K : Type) where
  EWMA_DECAY : K
  gss_r : K
  tol : K
  log2 : Nat → K
  pow2 : K → K
  exp : K → K
  modelHitRate : List K → List Nat → Nat → K → Option K

/-- The state of an `AdaptSizeCache`. -/
structure AdaptSizeCache (K : Type) extends LRUCache where
  _cParam : K
  statSize : Nat
  _maxIterations : Nat
  _reconfiguration_interval : Nat
  _nextReconfiguration : Nat
  _longTermMetadata : List (CacheObject × ObjInfo K)
  _intervalMetadata : List (CacheObject × ObjInfo K)
  _alignedReqCount : List K
  _alignedObjSize : List Nat

namespace AdaptSizeCache

/-- The comparison `a > b` of two hit rates; false when one of them is NaN. -/
def rateGt {K : Type} [LinearOrderedField K] (a b : Option K) : Bool :=
  match a, b with
  | some x, some y => decide (x > y)
  | _, _ => false

/-- The test `h != h`: whether a hit rate is NaN. -/
def isNaN {K : Type} (h : Option K) : Bool := h.isNone

/-- The points `i = 2, 6, 10, ...` of the coarse scan `for(int i=2; i<x3; i+=4)`;
`x3` is the `log2` of a 64-bit capacity, so no point beyond 62 is reached. -/
def scanPoints : List Nat := (List.range 16).map (fun j => 4 * j + 2)

/-- The coarse scan over the points `is`, from the state `(bestHitRate, x1)`. -/
def coarseScan {K : Type} [LinearOrderedField K] (hitRate : K → Option K) (x3 : K) :
    List Nat → Option K × K → Option K × K
  | [], acc => acc
  | i :: is, acc =>
      if (i : K) < x3 then
        coarseScan hitRate x3 is
          (if rateGt (hitRate (i : K)) acc.1 then (hitRate (i : K), (i : K)) else acc)
      else acc

/-- The variables `x0, x1, x2, x3, h1, h2` of the golden section search. -/
structure Bracket (K : Type) where
  x0 : K
  x1 : K
  x2 : K
  x3 : K
  h1 : Option K
  h2 : Option K

/-- The preparation of the search: the larger of the two segments around `x1` gets
the second interior point. -/
def prepare {K : Type} [LinearOrderedField K] (v : K) (hitRate : K → Option K) (x0 x3 : K)
    (best : Option K) (x1 : K) : Bracket K :=
  if x3 - x1 > x1 - x0 then
    { x0 := x0, x1 := x1, x2 := x1 + v * (x3 - x1), x3 := x3
      h1 := best, h2 := hitRate (x1 + v * (x3 - x1)) }
  else
    { x0 := x0, x1 := x0 + v * (x1 - x0), x2 := x1, x3 := x3
      h1 := hitRate (x0 + v * (x1 - x0)), h2 := best }

/-- One round of the search.  `SHFT3(a,b,c,d)` is `(a)=(b);(b)=(c);(c)=(d);`, so the
new point `d` is computed from the variables already shifted. -/
def gssStep {K : Type} [LinearOrderedField K] (r v : K) (hitRate : K → Option K)
    (b : Bracket K) : Bracket K :=
  if rateGt b.h2 b.h1 then
    { x0 := b.x1, x1 := b.x2, x2 := r * b.x2 + v * b.x3, x3 := b.x3
      h1 := b.h2, h2 := hitRate (r * b.x2 + v * b.x3) }
  else
    { x0 := b.x0, x1 := r * b.x1 + v * b.x0, x2 := b.x1, x3 := b.x2
      h1 := hitRate (r * b.x1 + v * b.x0), h2 := b.h1 }

/-- The loop `while(curIterations++<_maxIterations && fabs(x3-x0)>tol*(fabs(x1)+fabs(x2)))`
with its NaN check, for `n` remaining iterations. -/
def gssLoop {K : Type} [LinearOrderedField K] (r v tol : K) (hitRate : K → Option K) :
    Nat → Bracket K → Bracket K
  | 0, b => b
  | n + 1, b =>
      if |b.x3 - b.x0| > tol * (|b.x1| + |b.x2|) then
        if isNaN b.h1 || isNaN b.h2 then b
        else gssLoop r v tol hitRate n (gssStep r v hitRate b)
      else b

/-- The brackets the loop goes through, the first one included and the last one
last. -/
def gssTrace {K : Type} [LinearOrderedField K] (r v tol : K) (hitRate : K → Option K) :
    Nat → Bracket K → List (Bracket K)
  | 0, b => [b]
  | n + 1, b =>
      if |b.x3 - b.x0| > tol * (|b.x1| + |b.x2|) then
        if isNaN b.h1 || isNaN b.h2 then [b]
        else b :: gssTrace r v tol hitRate n (gssStep r v hitRate b)
      else [b]

/-- The bracket at `assert(x1<x2)`: coarse scan from `bestHitRate = 0`, `x1 = x3 = L`,
then the preparation with `_gss_v = 1 - gss_r`. -/
def bracket0 {K : Type} [LinearOrderedField K] (r : K) (hitRate : K → Option K) (L : K) :
    Bracket K :=
  prepare (1 - r) hitRate 0 L (coarseScan hitRate L scanPoints (some 0, L)).1
    (coarseScan hitRate L scanPoints (some 0, L)).2

/-- The check of the result: nothing on a NaN, else the point with the higher hit
rate (`x2` on a tie). -/
def choose {K : Type} [LinearOrderedField K] (b : Bracket K) : Option K :=
  if isNaN b.h1 || isNaN b.h2 then none
  else if rateGt b.h1 b.h2 then some b.x1
  else some b.x2

/-- The search of `AdaptSizeCache::reconfigure` for `log2(c)` between 0 and
`L = log2(getSize())`: the exponent whose power of two is assigned to `_cParam`, or
`none` when `_cParam` is left unchanged; a failing `assert(x1<x2)` ends the run. -/
def search {K : Type} [LinearOrderedField K] (r tol : K) (maxIterations : Nat)
    (hitRate : K → Option K) (L : K) : Except Fault (Option K) :=
  if (bracket0 r hitRate L).x1 < (bracket0 r hitRate L).x2 then
    Except.ok (choose (gssLoop r (1 - r) tol hitRate maxIterations (bracket0 r hitRate L)))
  else Except.error Fault.assertionFailed

/-- The search points are in order between `lo` and `hi`. -/
def Bracket.Ordered {K : Type} [LinearOrderedField K] (b : Bracket K) (lo hi : K) : Prop :=
  lo ≤ b.x0 ∧ b.x0 ≤ b.x1 ∧ b.x1 ≤ b.x2 ∧ b.x2 ≤ b.x3 ∧ b.x3 ≤ hi

/-- An `unordered_map` entry for `k` is replaced by `f (some old)`, or `f none` is
inserted when there is none. -/
def mapAlter {K : Type} (l : List (CacheObject × ObjInfo K)) (k : CacheObject)
    (f : Option (ObjInfo K) → ObjInfo K) : List (CacheObject × ObjInfo K) :=
  match l with
  | [] => [(k, f none)]
  | e :: es => if e.1 = k then (k, f (some e.2)) :: es else e :: mapAlter es k f

/-- The first loop of `reconfigure`: `it->second.requestCount *= EWMA_DECAY`. -/
def decay {K : Type} [LinearOrderedField K] (d : K) (l : List (CacheObject × ObjInfo K)) :
    List (CacheObject × ObjInfo K) :=
  l.map (fun e => (e.1, { e.2 with requestCount := e.2.requestCount * d }))

/-- The second loop of `reconfigure`: the interval entries are merged into
`_longTermMetadata`. -/
def persist {K : Type} [LinearOrderedField K] (d : K)
    (interval long : List (CacheObject × ObjInfo K)) : List (CacheObject × ObjInfo K) :=
  interval.foldl
    (fun acc e => mapAlter acc e.1 (fun old =>
      match old with
      | some o =>
          { requestCount := o.requestCount + (1 - d) * e.2.requestCount, objSize := e.2.objSize }
      | none => e.2))
    long

/-- The third loop of `reconfigure` on the entries still to visit: entries with
`requestCount < 0.1` are erased and their `objSize` is taken off `statSize`, the
others are copied into the aligned arrays.  The result is the kept entries, the new
`statSize` and the two arrays. -/
def prune {K : Type} [LinearOrderedField K] :
    List (CacheObject × ObjInfo K) → Nat → List (CacheObject × ObjInfo K) × Nat × List K × List Nat
  | [], stat => ([], stat, [], [])
  | e :: es, stat =>
      if e.2.requestCount < 1 / 10 then prune es (stat - e.2.objSize)
      else
        (e :: (prune es stat).1, (prune es stat).2.1, e.2.requestCount :: (prune es stat).2.2.1,
          e.2.objSize :: (prune es stat).2.2.2)

/-- The three loops of `reconfigure` over the metadata: kept long-term entries, new
`statSize`, `_alignedReqCount` and `_alignedObjSize`. -/
def smooth {K : Type} [LinearOrderedField K] (E : AdaptEnv K) (c : AdaptSizeCache K) :
    List (CacheObject × ObjInfo K) × Nat × List K × List Nat :=
  prune (persist E.EWMA_DECAY c._intervalMetadata (decay E.EWMA_DECAY c._longTermMetadata))
    c.statSize

/-- The decrement `--x` of a `uint64_t`: 0 wraps to `2^64 - 1`. -/
def decr64 (x : Nat) : Nat := if x = 0 then 2 ^ 64 - 1 else x - 1

/-- The method `AdaptSizeCache::reconfigure`. -/
def reconfigure {K : Type} [LinearOrderedField K] (E : AdaptEnv K) (c : AdaptSizeCache K) :
    Except Fault (AdaptSizeCache K) :=
  if decr64 c._nextReconfiguration > 0 then
    Except.ok { c with _nextReconfiguration := decr64 c._nextReconfiguration }
  else if c.statSize ≤ c._cacheSize * 3 then
    Except.ok { c with
      _nextReconfiguration := (decr64 c._nextReconfiguration + 10000) % 2 ^ 64 }
  else
    match search E.gss_r E.tol c._maxIterations
        (E.modelHitRate (smooth E c).2.2.1 (smooth E c).2.2.2 c._cacheSize)
        (E.log2 c._cacheSize) with
    | Except.error e => Except.error e
    | Except.ok x =>
        Except.ok { c with
          _nextReconfiguration := c._reconfiguration_interval
          _longTermMetadata := (smooth E c).1
          _intervalMetadata := []
          statSize := (smooth E c).2.1
          _alignedReqCount := (smooth E c).2.2.1
          _alignedObjSize := (smooth E c).2.2.2
          _cParam :=
            (match x with
              | some e => E.pow2 e
              | none => c._cParam) }

/-- The statistics part of `AdaptSizeCache::lookup`, after `reconfigure()`: a new
object adds its size to `statSize`; its interval entry counts one more request. -/
def record {K : Type} [LinearOrderedField K] (c : AdaptSizeCache K) (req : SimpleRequest) :
    AdaptSizeCache K :=
  { c with
    statSize :=
      (if CacheObject.ofReq req ∉ c._intervalMetadata.map Prod.fst
          ∧ CacheObject.ofReq req ∉ c._longTermMetadata.map Prod.fst then
        c.statSize + (CacheObject.ofReq req).size
      else c.statSize)
    _intervalMetadata :=
      (mapAlter c._intervalMetadata (CacheObject.ofReq req) (fun old =>
        { requestCount :=
            (match old with
              | some o => o.requestCount
              | none => 0) + 1
          objSize := (CacheObject.ofReq req).size })) }

/-- The method `AdaptSizeCache::lookup`. -/
def lookup {K : Type} [LinearOrderedField K] (E : AdaptEnv K) (c : AdaptSizeCache K)
    (req : SimpleRequest) : Except Fault (AdaptSizeCache K × Bool) :=
  match reconfigure E c with
  | Except.error e => Except.error e
  | Except.ok c1 =>
      Except.ok
        ({ record c1 req with toLRUCache := (LRUCache.lookup c1.toLRUCache req).1 },
          (LRUCache.lookup c1.toLRUCache req).2)

/-- The method `AdaptSizeCache::admit`, for the value `roll` drawn from the uniform
distribution. -/
def admitReq {K : Type} [LinearOrderedField K] (E : AdaptEnv K) (c : AdaptSizeCache K)
    (req : SimpleRequest) (roll : K) : Except Fault (AdaptSizeCache K) :=
  if roll < E.exp (-1 * (req.size : K) / c._cParam) then
    match LRUCache.admitOrFault c.toLRUCache req with
    | Except.ok l => Except.ok { c with toLRUCache := l }
    | Except.error e => Except.error e
  else Except.ok c

/-- A fresh `AdaptSizeCache` of capacity `cs`: the constructor's values, and an
empty cache. -/
def empty {K : Type} [LinearOrderedField K] (cs : Nat) : AdaptSizeCache K :=
  { toLRUCache := LRUCache.empty cs
    _cParam := 2 ^ 15
    statSize := 0
    _maxIterations := 15
    _reconfiguration_interval := 500000
    _nextReconfiguration := 500000
    _longTermMetadata := []
    _intervalMetadata := []
    _alignedReqCount := []
    _alignedObjSize := [] }

/-- The calls of a client of an `AdaptSizeCache`: a lookup, or an admission with
the value drawn for it. -/
inductive Call (K : Type) where
  | lookup (req : SimpleRequest)
  | admitReq (req : SimpleRequest) (roll : K)

/-- The effect of one call. -/
def step {K : Type} [LinearOrderedField K] (E : AdaptEnv K) (c : AdaptSizeCache K) :
    Call K → Except Fault (AdaptSizeCache K)
  | Call.lookup req =>
      match lookup E c req with
      | Except.ok r => Except.ok r.1
      | Except.error e => Except.error e
  | Call.admitReq req roll => admitReq E c req roll

/-- The effect of a sequence of calls. -/
def run {K : Type} [LinearOrderedField K] (E : AdaptEnv K) (c : AdaptSizeCache K) :
    List (Call K) → Except Fault (AdaptSizeCache K)
  | [] => Except.ok c
  | op :: ops =>
      match step E c op with
      | Except.ok c1 => run E c1 ops
      | Except.error e => Except.error e

/-- A rational stand-in for `pow(2, x)`: exact at the natural numbers and linear
between them. -/
def pow2Interp (x : ℚ) : ℚ := 2 ^ ⌊x⌋₊ * (1 + (x - ⌊x⌋₊))

/-- A sample environment over the rationals: `EWMA_DECAY = 0.3`, `gss_r = 0.618`,
`tol = 0.0001`, the integer `log2`, the interpolated power of two, a rational
stand-in for `exp` on negative arguments, and the hit-rate model given. -/
def sampleEnv (model : ℚ → Option ℚ) : AdaptEnv ℚ :=
  { EWMA_DECAY := 3 / 10
    gss_r := 309 / 500
    tol := 1 / 10000
    log2 := fun n => (Nat.log 2 n : ℚ)
    pow2 := pow2Interp
    exp := fun x => 1 / (1 - x)
    modelHitRate := fun _ _ _ x => model x }

/-- A hit-rate model with its maximum at `log2c = 2`. -/
def hillModel (x : ℚ) : Option ℚ := some (x * (4 - x))

/-- The model `hillModel` with a NaN at the scan point 2. -/
def nanAtScan (x : ℚ) : Option ℚ := if x = 2 then none else some (x * (4 - x))

/-- The model `hillModel` with a NaN everywhere but at the scan point 2. -/
def nanOffScan (x : ℚ) : Option ℚ := if x = 2 then some 4 else none

/-- A sample `AdaptSizeCache` of capacity 8 that reconfigures at its next lookup:
object 1 (10 bytes) has the long-term count 2 and was requested 3 times in the
interval, object 2 (20 bytes) has the long-term count 0.2; `statSize` is 30; one
iteration of the search is allowed. -/
def sampleStats : AdaptSizeCache ℚ :=
  { toLRUCache := LRUCache.empty 8
    _cParam := 2 ^ 15
    statSize := 30
    _maxIterations := 1
    _reconfiguration_interval := 500000
    _nextReconfiguration := 1
    _longTermMetadata :=
      [(CacheObject.mk 1 10, { requestCount := 2, objSize := 10 }),
        (CacheObject.mk 2 20, { requestCount := 1 / 5, objSize := 20 })]
    _intervalMetadata := [(CacheObject.mk 1 10, { requestCount := 3, objSize := 10 })]
    _alignedReqCount := []
    _alignedObjSize := [] }

end AdaptSizeCache

end WebCacheSim

namespace WebCacheSim

/-! ### The index and the list as data -/

theorem mapFind_some {m : List (CacheObject × Nat)} {key : CacheObject} {lit : Nat}
    (h : mapFind m key = some lit) : (key, lit) ∈ m := by
  unfold mapFind at h
  cases hf : m.find? (fun e => decide (e.1 = key)) with
  | none => rw [hf] at h; simp at h
  | some e =>
    rw [hf] at h
    have hm := List.mem_of_find?_eq_some hf
    have hk := List.find?_some hf
    simp at h hk
    rcases e with ⟨k, v⟩
    simp at h hk
    subst h; subst hk
    exact hm

theorem mapFind_none {m : List (CacheObject × Nat)} {key : CacheObject}
    (h : mapFind m key = none) : ∀ e ∈ m, e.1 ≠ key := by
  unfold mapFind at h
  intro e he
  cases hf : m.find? (fun e => decide (e.1 = key)) with
  | none =>
    have := List.find?_eq_none.mp hf e he
    simpa using this
  | some e => rw [hf] at h; simp at h

theorem mapFind_of_mem {m : List (CacheObject × Nat)} {e : CacheObject × Nat}
    (he : e ∈ m) : ∃ lit, mapFind m e.1 = some lit := by
  cases h : mapFind m e.1 with
  | none => exact absurd rfl (mapFind_none h e he)
  | some lit => exact ⟨lit, rfl⟩

theorem mem_mapErase {m : List (CacheObject × Nat)} {key : CacheObject}
    {e : CacheObject × Nat} : e ∈ mapErase m key ↔ e ∈ m ∧ e.1 ≠ key := by
  simp [mapErase]

theorem node_eq_of_pos {l : List Node} (h : (l.map Node.pos).Nodup) {a b : Node}
    (ha : a ∈ l) (hb : b ∈ l) (hp : a.pos = b.pos) : a = b :=
  List.inj_on_of_nodup_map h ha hb hp

theorem node_eq_of_obj {l : List Node} (h : (l.map Node.obj).Nodup) {a b : Node}
    (ha : a ∈ l) (hb : b ∈ l) (hp : a.obj = b.obj) : a = b :=
  List.inj_on_of_nodup_map h ha hb hp

theorem mem_listErase {l : List Node} {lit : Nat} {n : Node} :
    n ∈ listErase l lit ↔ n ∈ l ∧ n.pos ≠ lit := by
  simp [listErase]

theorem listErase_eq_erase {l : List Node} (h : (l.map Node.pos).Nodup) {n : Node}
    (hn : n ∈ l) : listErase l n.pos = l.erase n := by
  rw [(List.Nodup.of_map _ h).erase_eq_filter]
  unfold listErase
  apply List.filter_congr
  intro x hx
  by_cases hxn : x = n
  · subst hxn; simp
  · have hp : x.pos ≠ n.pos := fun hp => hxn (node_eq_of_pos h hx hn hp)
    simp [hxn, hp]

theorem listErase_perm {l : List Node} (h : (l.map Node.pos).Nodup) {n : Node}
    (hn : n ∈ l) : (n :: listErase l n.pos).Perm l := by
  rw [listErase_eq_erase h hn]
  exact (List.perm_cons_erase hn).symm

theorem listSplice_of_mem {l : List Node} (h : (l.map Node.pos).Nodup) {n : Node}
    (hn : n ∈ l) : listSplice l n.pos = n :: listErase l n.pos := by
  unfold listSplice
  cases hf : l.find? (fun m => decide (m.pos = n.pos)) with
  | none =>
    have := List.find?_eq_none.mp hf n hn
    simp at this
  | some m =>
    have hm := List.mem_of_find?_eq_some hf
    have hk := List.find?_some hf
    simp at hk
    have : m = n := node_eq_of_pos h hm hn hk
    subst this
    rfl

theorem sum_sizes_perm {l1 l2 : List Node} (h : l1.Perm l2) :
    (l1.map (fun n => n.obj.size)).sum = (l2.map (fun n => n.obj.size)).sum :=
  (h.map _).sum_eq

end WebCacheSim

namespace WebCacheSim
namespace LRUCache

/-! ### The operations, step by step -/

theorem nil_or_snoc {α : Type} (l : List α) : l = [] ∨ ∃ init x, l = init ++ [x] := by
  rcases List.eq_nil_or_concat l with h | ⟨init, x, h⟩
  · exact Or.inl h
  · exact Or.inr ⟨init, x, by rw [h, List.concat_eq_append]⟩

theorem evict_return_nil {c : LRUCache} (h : c._cacheList = []) : evict_return c = (c, none) := by
  simp [evict_return, h]

theorem evict_return_concat {c : LRUCache} {init : List Node} {x : Node}
    (h : c._cacheList = init ++ [x]) :
    evict_return c =
      ({ c with
          _currentSize := c._currentSize - x.obj.size
          _cacheMap := mapErase c._cacheMap x.obj
          _cacheList := init },
        some x.obj.toReq) := by
  simp [evict_return, h]

theorem listSize_concat {c : LRUCache} {init : List Node} {x : Node}
    (h : c._cacheList = init ++ [x]) :
    c.listSize = (init.map (fun n => n.obj.size)).sum + x.obj.size := by
  simp [listSize, h]

theorem lookup_hit {c : LRUCache} {req : SimpleRequest} {lit : Nat}
    (h : mapFind c._cacheMap (CacheObject.ofReq req) = some lit) :
    lookup c req = (hit c lit, true) := by
  simp [lookup, lookupWith, h]

theorem lookup_miss {c : LRUCache} {req : SimpleRequest}
    (h : mapFind c._cacheMap (CacheObject.ofReq req) = none) :
    lookup c req = (c, false) := by
  simp [lookup, lookupWith, h]

/-! ### The invariant of arbitrary call sequences -/

theorem inv_empty (cs : Nat) : Inv (empty cs) := by
  constructor <;> simp [empty, listSize]

theorem inv_hit {c : LRUCache} (hc : Inv c) {key : CacheObject} {lit : Nat}
    (h : mapFind c._cacheMap key = some lit) : Inv (hit c lit) := by
  have hn : (Node.mk lit key) ∈ c._cacheList := hc.map_live _ (mapFind_some h)
  have hs : listSplice c._cacheList lit = Node.mk lit key :: listErase c._cacheList lit :=
    listSplice_of_mem hc.pos_nodup hn
  have hp : (Node.mk lit key :: listErase c._cacheList lit).Perm c._cacheList :=
    listErase_perm hc.pos_nodup hn
  constructor
  · show c._currentSize = ((listSplice c._cacheList lit).map (fun n => n.obj.size)).sum
    rw [hs, sum_sizes_perm hp]; exact hc.size_eq
  · exact hc.size_le
  · show ((listSplice c._cacheList lit).map Node.pos).Nodup
    rw [hs]; exact ((hp.map _).nodup_iff).mpr hc.pos_nodup
  · intro n hn1
    have hn2 : n ∈ listSplice c._cacheList lit := hn1
    rw [hs] at hn2
    exact hc.pos_lt n (hp.subset hn2)
  · intro e he
    show _ ∈ listSplice c._cacheList lit
    rw [hs]
    exact hp.symm.subset (hc.map_live e he)

theorem inv_lookup {c : LRUCache} (hc : Inv c) (req : SimpleRequest) : Inv (lookup c req).1 := by
  cases h : mapFind c._cacheMap (CacheObject.ofReq req) with
  | none => rw [lookup_miss h]; exact hc
  | some lit => rw [lookup_hit h]; exact inv_hit hc h

theorem inv_evict {c : LRUCache} (hc : Inv c) : Inv (evict c) := by
  unfold evict
  rcases nil_or_snoc c._cacheList with h | ⟨init, x, h⟩
  · rw [evict_return_nil h]; exact hc
  · rw [evict_return_concat h]
    have hsz := listSize_concat h
    have hnd := hc.pos_nodup
    rw [h] at hnd
    constructor
    · show c._currentSize - x.obj.size = (init.map (fun n => n.obj.size)).sum
      have := hc.size_eq; omega
    · show c._currentSize - x.obj.size ≤ c._cacheSize
      have := hc.size_le; omega
    · show (init.map Node.pos).Nodup
      rw [List.map_append] at hnd
      exact (List.nodup_append.mp hnd).1
    · intro n hn
      have hn1 : n ∈ init := hn
      exact hc.pos_lt n (by rw [h]; simp [hn1])
    · intro e he
      have he1 : e ∈ mapErase c._cacheMap x.obj := he
      rw [mem_mapErase] at he1
      have hl := hc.map_live e he1.1
      rw [h] at hl
      show _ ∈ init
      rcases List.mem_append.mp hl with hi | hx
      · exact hi
      · simp at hx
        exact absurd (by rw [← hx]) he1.2

theorem inv_evictReq {c : LRUCache} (hc : Inv c) (req : SimpleRequest) :
    Inv (evictReq c req) := by
  unfold evictReq
  cases h : mapFind c._cacheMap (CacheObject.ofReq req) with
  | none => exact hc
  | some lit =>
    have hn : (Node.mk lit (CacheObject.ofReq req)) ∈ c._cacheList :=
      hc.map_live _ (mapFind_some h)
    have hp : (Node.mk lit (CacheObject.ofReq req) :: listErase c._cacheList lit).Perm
        c._cacheList := listErase_perm hc.pos_nodup hn
    have hsum := sum_sizes_perm hp
    simp only [List.map_cons, List.sum_cons] at hsum
    constructor
    · show c._currentSize - (CacheObject.ofReq req).size
          = ((listErase c._cacheList lit).map (fun n => n.obj.size)).sum
      have := hc.size_eq
      unfold listSize at this
      omega
    · show c._currentSize - (CacheObject.ofReq req).size ≤ c._cacheSize
      have := hc.size_le; omega
    · show ((listErase c._cacheList lit).map Node.pos).Nodup
      have := ((hp.map Node.pos).nodup_iff).mpr hc.pos_nodup
      exact (List.nodup_cons.mp this).2
    · intro n hn1
      have hn2 : n ∈ listErase c._cacheList lit := hn1
      exact hc.pos_lt n (mem_listErase.mp hn2).1
    · intro e he
      have he1 : e ∈ mapErase c._cacheMap (CacheObject.ofReq req) := he
      rw [mem_mapErase] at he1
      show _ ∈ listErase c._cacheList lit
      rw [mem_listErase]
      refine ⟨hc.map_live e he1.1, ?_⟩
      intro hpos
      have := node_eq_of_pos hc.pos_nodup (hc.map_live e he1.1) hn hpos
      exact he1.2 (congrArg Node.obj this)

theorem evict_cacheSize (c : LRUCache) : (evict c)._cacheSize = c._cacheSize := by
  unfold evict
  rcases nil_or_snoc c._cacheList with h | ⟨init, x, h⟩
  · rw [evict_return_nil h]
  · rw [evict_return_concat h]

theorem evict_next (c : LRUCache) : (evict c)._next = c._next := by
  unfold evict
  rcases nil_or_snoc c._cacheList with h | ⟨init, x, h⟩
  · rw [evict_return_nil h]
  · rw [evict_return_concat h]

theorem evict_list (c : LRUCache) : (evict c)._cacheList = c._cacheList.dropLast := by
  unfold evict
  rcases nil_or_snoc c._cacheList with h | ⟨init, x, h⟩
  · rw [evict_return_nil h, h]; rfl
  · rw [evict_return_concat h, h]; simp

theorem evictReq_cacheSize (c : LRUCache) (req : SimpleRequest) :
    (evictReq c req)._cacheSize = c._cacheSize := by
  unfold evictReq
  cases mapFind c._cacheMap (CacheObject.ofReq req) <;> rfl

theorem lookup_cacheSize (c : LRUCache) (req : SimpleRequest) :
    (lookup c req).1._cacheSize = c._cacheSize := by
  unfold lookup lookupWith
  cases mapFind c._cacheMap (CacheObject.ofReq req) <;> rfl

theorem lookup_currentSize (c : LRUCache) (req : SimpleRequest) :
    (lookup c req).1._currentSize = c._currentSize := by
  unfold lookup lookupWith
  cases mapFind c._cacheMap (CacheObject.ofReq req) <;> rfl

theorem lookup_cacheMap (c : LRUCache) (req : SimpleRequest) :
    (lookup c req).1._cacheMap = c._cacheMap := by
  unfold lookup lookupWith
  cases mapFind c._cacheMap (CacheObject.ofReq req) <;> rfl

end LRUCache
end WebCacheSim

namespace WebCacheSim
namespace LRUCache

/-! ### The eviction loop -/

theorem evictLoop_succ (fuel : Nat) (c : LRUCache) (size : Nat) :
    evictLoop (fuel + 1) c size =
      if c._currentSize + size > c._cacheSize then evictLoop fuel (evict c) size else some c :=
  rfl

theorem evict_of_nil {c : LRUCache} (h : c._cacheList = []) : evict c = c := by
  unfold evict; rw [evict_return_nil h]

theorem evict_length_lt {c : LRUCache} (h : c._cacheList ≠ []) :
    (evict c)._cacheList.length < c._cacheList.length := by
  rw [evict_list, List.length_dropLast]
  have : 0 < c._cacheList.length := List.length_pos.mpr h
  omega

/-- More fuel does not change a result of the loop. -/
theorem evictLoop_mono {fuel : Nat} {c r : LRUCache} {size : Nat}
    (h : evictLoop fuel c size = some r) : evictLoop (fuel + 1) c size = some r := by
  induction fuel generalizing c with
  | zero => simp [evictLoop] at h
  | succ f ih =>
    rw [evictLoop_succ] at h
    rw [evictLoop_succ]
    by_cases hgt : c._currentSize + size > c._cacheSize
    · rw [if_pos hgt] at h ⊢; exact ih h
    · rw [if_neg hgt] at h ⊢; exact h

theorem evictLoop_stuck {c : LRUCache} {size : Nat} (hnil : c._cacheList = [])
    (hgt : c._currentSize + size > c._cacheSize) (fuel : Nat) :
    evictLoop fuel c size = none := by
  induction fuel with
  | zero => rfl
  | succ f ih => rw [evictLoop_succ, if_pos hgt, evict_of_nil hnil]; exact ih

/-- The fuel `length + 1` decides the loop: when it is not enough, no fuel is. -/
theorem evictLoop_fuel_exact {fuel : Nat} {c : LRUCache} {size : Nat}
    (hf : c._cacheList.length < fuel) (h : evictLoop fuel c size = none) (fuel1 : Nat) :
    evictLoop fuel1 c size = none := by
  induction fuel generalizing c fuel1 with
  | zero => omega
  | succ f ih =>
    rw [evictLoop_succ] at h
    by_cases hgt : c._currentSize + size > c._cacheSize
    · rw [if_pos hgt] at h
      by_cases hnil : c._cacheList = []
      · exact evictLoop_stuck hnil hgt fuel1
      · have hlt := evict_length_lt hnil
        cases fuel1 with
        | zero => rfl
        | succ g => rw [evictLoop_succ, if_pos hgt]; exact ih (by omega) h g
    · rw [if_neg hgt] at h; simp at h

theorem evictLoop_inv {fuel : Nat} {c r : LRUCache} {size : Nat} (hc : Inv c)
    (h : evictLoop fuel c size = some r) :
    Inv r ∧ r._currentSize + size ≤ r._cacheSize ∧ r._cacheSize = c._cacheSize := by
  induction fuel generalizing c with
  | zero => simp [evictLoop] at h
  | succ f ih =>
    rw [evictLoop_succ] at h
    by_cases hgt : c._currentSize + size > c._cacheSize
    · rw [if_pos hgt] at h
      have := ih (inv_evict hc) h
      rw [evict_cacheSize] at this
      exact this
    · rw [if_neg hgt] at h
      simp at h; subst h
      exact ⟨hc, by omega, rfl⟩

/-- On a state whose `_currentSize` is the sum of the listed sizes, the loop ends
after removing the least number `k` of tail nodes that makes room. -/
theorem evictLoop_spec {fuel : Nat} {c : LRUCache} {size : Nat}
    (hsz : c._currentSize = c.listSize) (hs : size ≤ c._cacheSize)
    (hf : c._cacheList.length < fuel) :
    ∃ k r, evictLoop fuel c size = some r ∧ k ≤ c._cacheList.length ∧
      r._cacheList = c._cacheList.take (c._cacheList.length - k) ∧
      r._currentSize = r.listSize ∧ r._cacheSize = c._cacheSize ∧ r._next = c._next ∧
      r._currentSize + size ≤ r._cacheSize ∧
      ∀ j, j < k →
        c._cacheSize <
          ((c._cacheList.take (c._cacheList.length - j)).map (fun n => n.obj.size)).sum + size := by
  induction fuel generalizing c with
  | zero => omega
  | succ f ih =>
    rw [evictLoop_succ]
    by_cases hgt : c._currentSize + size > c._cacheSize
    · rw [if_pos hgt]
      rcases nil_or_snoc c._cacheList with hnil | ⟨init, x, hl⟩
      · have : c.listSize = 0 := by simp [listSize, hnil]
        omega
      · have hev : evict c = { c with
              _currentSize := c._currentSize - x.obj.size
              _cacheMap := mapErase c._cacheMap x.obj
              _cacheList := init } := by
          unfold evict; rw [evict_return_concat hl]
        have hsum := listSize_concat hl
        have hlen : c._cacheList.length = init.length + 1 := by rw [hl]; simp
        have h1 : (evict c)._currentSize = (evict c).listSize := by
          rw [hev]; show c._currentSize - x.obj.size = (init.map (fun n => n.obj.size)).sum
          omega
        have h2 : size ≤ (evict c)._cacheSize := by rw [evict_cacheSize]; exact hs
        have h3 : (evict c)._cacheList.length < f := by
          rw [hev]; show init.length < f; omega
        obtain ⟨k, r, hr, hk, hlist, hrs, hcap, hnext, hfit, hmin⟩ := ih h1 h2 h3
        have hel : (evict c)._cacheList = init := by rw [hev]
        rw [hel] at hk hlist hmin
        rw [evict_cacheSize] at hcap hmin
        rw [evict_next] at hnext
        refine ⟨k + 1, r, hr, by omega, ?_, hrs, hcap, hnext, hfit, ?_⟩
        · rw [hlist, hl]
          have : (init ++ [x]).length - (k + 1) = init.length - k := by simp
          rw [this, List.take_append_of_le_length (by omega)]
        · intro j hj
          cases j with
          | zero =>
            have : (c._cacheList.take (c._cacheList.length - 0)) = c._cacheList := by simp
            rw [this]
            have := hsz; unfold listSize at this
            omega
          | succ i =>
            have hi := hmin i (by omega)
            have : c._cacheList.take (c._cacheList.length - (i + 1))
                = init.take (init.length - i) := by
              rw [hl]
              have : (init ++ [x]).length - (i + 1) = init.length - i := by simp
              rw [this, List.take_append_of_le_length (by omega)]
            rw [this]; exact hi
    · rw [if_neg hgt]
      refine ⟨0, c, rfl, by omega, by simp, hsz, rfl, rfl, by omega, ?_⟩
      intro j hj; omega

/-! ### Admission -/

theorem admit_oversize {c : LRUCache} {req : SimpleRequest} (h : req.size > c._cacheSize) :
    admitReq c req = some c := by
  simp [admitReq, admitFuel, h]

theorem admit_fitting {c : LRUCache} {req : SimpleRequest} (h : ¬ req.size > c._cacheSize) :
    admitReq c req =
      (evictLoop (c._cacheList.length + 1) c req.size).map (fun c1 => pushFront c1 req) := by
  simp [admitReq, admitFuel, h]

theorem inv_pushFront {c : LRUCache} (hc : Inv c) {req : SimpleRequest}
    (hfit : c._currentSize + req.size ≤ c._cacheSize) : Inv (pushFront c req) := by
  constructor
  · show c._currentSize + req.size = _
    have := hc.size_eq
    simp [pushFront, listSize, CacheObject.ofReq] at this ⊢
    omega
  · exact hfit
  · show ((Node.mk c._next (CacheObject.ofReq req) :: c._cacheList).map Node.pos).Nodup
    rw [List.map_cons, List.nodup_cons]
    refine ⟨?_, hc.pos_nodup⟩
    intro hmem
    obtain ⟨n, hn, hp⟩ := List.mem_map.mp hmem
    have := hc.pos_lt n hn
    simp at hp
    omega
  · intro n hn
    have hn1 : n ∈ Node.mk c._next (CacheObject.ofReq req) :: c._cacheList := hn
    show n.pos < c._next + 1
    rcases List.mem_cons.mp hn1 with h | h
    · subst h; simp
    · have := hc.pos_lt n h; omega
  · intro e he
    have he1 : e ∈ (CacheObject.ofReq req, c._next) :: mapErase c._cacheMap (CacheObject.ofReq req) :=
      he
    show _ ∈ Node.mk c._next (CacheObject.ofReq req) :: c._cacheList
    rcases List.mem_cons.mp he1 with h | h
    · subst h; simp
    · exact List.mem_cons_of_mem _ (hc.map_live e (mem_mapErase.mp h).1)

theorem inv_admission {c : LRUCache} (hc : Inv c) (req : SimpleRequest) :
    ∃ r, admitReq c req = some r ∧ Inv r ∧ r._cacheSize = c._cacheSize := by
  by_cases h : req.size > c._cacheSize
  · exact ⟨c, admit_oversize h, hc, rfl⟩
  · obtain ⟨k, r, hr, -, -, -, -, -, -, -⟩ :=
      @evictLoop_spec (c._cacheList.length + 1) c req.size hc.size_eq (by omega) (by omega)
    obtain ⟨hinv, hfit, hcap⟩ := evictLoop_inv hc hr
    refine ⟨pushFront r req, ?_, inv_pushFront hinv hfit, hcap⟩
    rw [admit_fitting h, hr]; rfl

theorem inv_step {c : LRUCache} (hc : Inv c) (op : Op) :
    ∃ r, step c op = some r ∧ Inv r ∧ r._cacheSize = c._cacheSize := by
  cases op with
  | lookup req => exact ⟨_, rfl, inv_lookup hc req, lookup_cacheSize c req⟩
  | admitReq req => exact inv_admission hc req
  | evict => exact ⟨_, rfl, inv_evict hc, evict_cacheSize c⟩
  | evictReq req => exact ⟨_, rfl, inv_evictReq hc req, evictReq_cacheSize c req⟩

theorem inv_run {c : LRUCache} (hc : Inv c) (ops : List Op) :
    ∃ r, run c ops = some r ∧ Inv r ∧ r._cacheSize = c._cacheSize := by
  induction ops generalizing c with
  | nil => exact ⟨c, rfl, hc, rfl⟩
  | cons op ops ih =>
    obtain ⟨c1, h1, hi1, hcap1⟩ := inv_step hc op
    obtain ⟨r, h2, hi2, hcap2⟩ := ih hi1
    refine ⟨r, ?_, hi2, by rw [hcap2, hcap1]⟩
    show (step c op).bind (fun c1 => run c1 ops) = some r
    rw [h1]; exact h2

end LRUCache
end WebCacheSim

namespace WebCacheSim
namespace LRUCache

/-! ### Well-formed states -/

theorem wf_empty (cs : Nat) : WF (empty cs) := by
  constructor <;> simp [empty, listSize, objs]

theorem wf_mem_index {c : LRUCache} (hc : WF c) {e : CacheObject × Nat} :
    e ∈ c._cacheMap ↔ Node.mk e.2 e.1 ∈ c._cacheList := by
  rw [hc.index.mem_iff, List.mem_map]
  constructor
  · rintro ⟨n, hn, rfl⟩; exact hn
  · intro h; exact ⟨_, h, rfl⟩

theorem wf_inv {c : LRUCache} (hc : WF c) : Inv c :=
  ⟨hc.size_eq, hc.size_le, hc.pos_nodup, hc.pos_lt, fun _ he => (wf_mem_index hc).mp he⟩

theorem wf_find_of_mem {c : LRUCache} (hc : WF c) {n : Node} (hn : n ∈ c._cacheList) :
    mapFind c._cacheMap n.obj = some n.pos := by
  have he : (n.obj, n.pos) ∈ c._cacheMap := (wf_mem_index hc).mpr hn
  obtain ⟨lit, hlit⟩ := mapFind_of_mem he
  have h1 : Node.mk lit n.obj ∈ c._cacheList := (wf_mem_index hc).mp (mapFind_some hlit)
  have h2 := node_eq_of_obj hc.obj_nodup h1 hn rfl
  have h3 : lit = n.pos := congrArg Node.pos h2
  simpa [h3] using hlit

theorem wf_find_none {c : LRUCache} (hc : WF c) {key : CacheObject} (hk : key ∉ c.objs) :
    mapFind c._cacheMap key = none := by
  cases h : mapFind c._cacheMap key with
  | none => rfl
  | some lit =>
    have h1 : Node.mk lit key ∈ c._cacheList := (wf_mem_index hc).mp (mapFind_some h)
    exact absurd (List.mem_map.mpr ⟨_, h1, rfl⟩) hk

theorem filter_obj_eq_erase {l : List Node} (h : (l.map Node.obj).Nodup) {n : Node}
    (hn : n ∈ l) : l.filter (fun m => decide (m.obj ≠ n.obj)) = l.erase n := by
  rw [(List.Nodup.of_map _ h).erase_eq_filter]
  apply List.filter_congr
  intro x hx
  by_cases hxn : x = n
  · subst hxn; simp
  · have hp : x.obj ≠ n.obj := fun hp => hxn (node_eq_of_obj h hx hn hp)
    simp [hxn, hp]

theorem map_obj_erase {l : List Node} (h : (l.map Node.obj).Nodup) {n : Node} (hn : n ∈ l) :
    (l.erase n).map Node.obj = (l.map Node.obj).filter (fun o => decide (o ≠ n.obj)) := by
  rw [← filter_obj_eq_erase h hn, List.filter_map]
  rfl

theorem index_erase {l : List Node} (h : (l.map Node.obj).Nodup) {n : Node} (hn : n ∈ l) :
    mapErase (l.map (fun m => (m.obj, m.pos))) n.obj = (l.erase n).map (fun m => (m.obj, m.pos)) := by
  rw [← filter_obj_eq_erase h hn]
  unfold mapErase
  rw [List.filter_map]
  rfl

theorem wf_hit {c : LRUCache} (hc : WF c) {n : Node} (hn : n ∈ c._cacheList) :
    WF (hit c n.pos) ∧
      (hit c n.pos).objs = n.obj :: c.objs.filter (fun o => decide (o ≠ n.obj)) := by
  have hs : listSplice c._cacheList n.pos = n :: listErase c._cacheList n.pos :=
    listSplice_of_mem hc.pos_nodup hn
  have hp : (n :: listErase c._cacheList n.pos).Perm c._cacheList :=
    listErase_perm hc.pos_nodup hn
  have hl : (hit c n.pos)._cacheList = n :: listErase c._cacheList n.pos := hs
  refine ⟨⟨?_, hc.size_le, ?_, ?_, ?_, ?_⟩, ?_⟩
  · show c._currentSize = ((hit c n.pos)._cacheList.map (fun n => n.obj.size)).sum
    rw [hl, sum_sizes_perm hp]; exact hc.size_eq
  · show c._cacheMap.Perm ((hit c n.pos)._cacheList.map (fun n => (n.obj, n.pos)))
    rw [hl]; exact hc.index.trans (hp.map _).symm
  · show ((hit c n.pos)._cacheList.map Node.obj).Nodup
    rw [hl]; exact ((hp.map _).nodup_iff).mpr hc.obj_nodup
  · rw [hl]; exact ((hp.map _).nodup_iff).mpr hc.pos_nodup
  · intro m hm
    rw [hl] at hm
    exact hc.pos_lt m (hp.subset hm)
  · show (hit c n.pos)._cacheList.map Node.obj = _
    rw [hl, listErase_eq_erase hc.pos_nodup hn, List.map_cons, map_obj_erase hc.obj_nodup hn]
    rfl

theorem wf_evict_concat {c : LRUCache} (hc : WF c) {init : List Node} {x : Node}
    (h : c._cacheList = init ++ [x]) : WF (evict c) := by
  have hi := wf_inv hc
  have hiv := inv_evict hi
  have hev : evict c = { c with
        _currentSize := c._currentSize - x.obj.size
        _cacheMap := mapErase c._cacheMap x.obj
        _cacheList := init } := by
    unfold evict; rw [evict_return_concat h]
  have hx : x ∈ c._cacheList := by rw [h]; simp
  have hnd : c._cacheList.Nodup := List.Nodup.of_map _ hc.obj_nodup
  have herase : c._cacheList.erase x = init := by
    rw [h] at hnd ⊢
    have hxi : x ∉ init := by
      intro hmem
      have := (List.nodup_append.mp hnd).2.2
      exact this hmem (by simp) 
    rw [List.erase_append_right _ hxi]; simp
  refine ⟨hiv.size_eq, hiv.size_le, ?_, ?_, hiv.pos_nodup, hiv.pos_lt⟩
  · rw [hev]
    show (mapErase c._cacheMap x.obj).Perm (init.map (fun n => (n.obj, n.pos)))
    have h1 : (mapErase c._cacheMap x.obj).Perm
        (mapErase (c._cacheList.map (fun n => (n.obj, n.pos))) x.obj) :=
      hc.index.filter _
    rw [index_erase hc.obj_nodup hx, herase] at h1
    exact h1
  · rw [hev]
    show (init.map Node.obj).Nodup
    have := hc.obj_nodup
    unfold objs at this
    rw [h, List.map_append] at this
    exact (List.nodup_append.mp this).1

theorem wf_evict {c : LRUCache} (hc : WF c) : WF (evict c) := by
  rcases nil_or_snoc c._cacheList with h | ⟨init, x, h⟩
  · rw [evict_of_nil h]; exact hc
  · exact wf_evict_concat hc h

theorem wf_evictReq {c : LRUCache} (hc : WF c) (req : SimpleRequest) : WF (evictReq c req) := by
  have hiv := inv_evictReq (wf_inv hc) req
  refine ⟨hiv.size_eq, hiv.size_le, ?_, ?_, hiv.pos_nodup, hiv.pos_lt⟩
  · unfold evictReq
    cases h : mapFind c._cacheMap (CacheObject.ofReq req) with
    | none => exact hc.index
    | some lit =>
      have hn : Node.mk lit (CacheObject.ofReq req) ∈ c._cacheList :=
        (wf_mem_index hc).mp (mapFind_some h)
      show (mapErase c._cacheMap (CacheObject.ofReq req)).Perm
        ((listErase c._cacheList lit).map (fun n => (n.obj, n.pos)))
      have h1 : (mapErase c._cacheMap (CacheObject.ofReq req)).Perm
          (mapErase (c._cacheList.map (fun n => (n.obj, n.pos))) (CacheObject.ofReq req)) :=
        hc.index.filter _
      have h2 := index_erase hc.obj_nodup hn
      have h3 := listErase_eq_erase hc.pos_nodup hn
      simp only at h2 h3
      rw [h2, ← h3] at h1
      exact h1
  · unfold evictReq
    cases h : mapFind c._cacheMap (CacheObject.ofReq req) with
    | none => exact hc.obj_nodup
    | some lit =>
      show ((listErase c._cacheList lit).map Node.obj).Nodup
      exact List.Nodup.sublist ((List.filter_sublist c._cacheList).map Node.obj) hc.obj_nodup

theorem wf_lookup {c : LRUCache} (hc : WF c) (req : SimpleRequest) : WF (lookup c req).1 := by
  cases h : mapFind c._cacheMap (CacheObject.ofReq req) with
  | none => rw [lookup_miss h]; exact hc
  | some lit =>
    rw [lookup_hit h]
    have hn : Node.mk lit (CacheObject.ofReq req) ∈ c._cacheList :=
      (wf_mem_index hc).mp (mapFind_some h)
    exact (wf_hit hc hn).1

theorem wf_evictLoop {fuel : Nat} {c r : LRUCache} {size : Nat} (hc : WF c)
    (h : evictLoop fuel c size = some r) : WF r := by
  induction fuel generalizing c with
  | zero => simp [evictLoop] at h
  | succ f ih =>
    rw [evictLoop_succ] at h
    by_cases hgt : c._currentSize + size > c._cacheSize
    · rw [if_pos hgt] at h; exact ih (wf_evict hc) h
    · rw [if_neg hgt] at h; simp at h; subst h; exact hc

theorem wf_pushFront {c : LRUCache} (hc : WF c) {req : SimpleRequest}
    (hfit : c._currentSize + req.size ≤ c._cacheSize) (hnew : CacheObject.ofReq req ∉ c.objs) :
    WF (pushFront c req) := by
  have hiv := inv_pushFront (wf_inv hc) hfit
  refine ⟨hiv.size_eq, hiv.size_le, ?_, ?_, hiv.pos_nodup, hiv.pos_lt⟩
  · show (mapAssign c._cacheMap (CacheObject.ofReq req) c._next).Perm
      ((Node.mk c._next (CacheObject.ofReq req) :: c._cacheList).map (fun n => (n.obj, n.pos)))
    have hfilter : mapErase c._cacheMap (CacheObject.ofReq req) = c._cacheMap := by
      unfold mapErase
      rw [List.filter_eq_self]
      intro e he
      have := mapFind_none (wf_find_none hc hnew) e he
      simpa using this
    unfold mapAssign
    rw [hfilter, List.map_cons]
    exact List.Perm.cons _ hc.index
  · show ((Node.mk c._next (CacheObject.ofReq req) :: c._cacheList).map Node.obj).Nodup
    rw [List.map_cons, List.nodup_cons]
    exact ⟨hnew, hc.obj_nodup⟩

end LRUCache
end WebCacheSim

namespace WebCacheSim
namespace LRUCache

theorem evictLoop_mono_le {fuel fuel1 : Nat} {c r : LRUCache} {size : Nat} (hle : fuel ≤ fuel1)
    (h : evictLoop fuel c size = some r) : evictLoop fuel1 c size = some r := by
  induction hle with
  | refl => exact h
  | step _ ih => exact evictLoop_mono ih

theorem objs_length (c : LRUCache) : c.objs.length = c._cacheList.length := by
  simp [objs]

theorem sizes_take (c : LRUCache) (m : Nat) :
    ((c.objs.take m).map CacheObject.size).sum
      = ((c._cacheList.take m).map (fun n => n.obj.size)).sum := by
  simp [objs, List.map_take, List.map_map, Function.comp_def]

theorem listSize_eq_objs (c : LRUCache) : c.listSize = (c.objs.map CacheObject.size).sum := by
  simp [listSize, objs, List.map_map, Function.comp_def]

/-- Admission on a state whose `_currentSize` is the sum of the listed sizes. -/
theorem admit_spec {c : LRUCache} (hsz : c._currentSize = c.listSize) (req : SimpleRequest) :
    ∃ c1, admitReq c req = some c1 ∧
      (∀ fuel, c._cacheList.length < fuel → admitFuel fuel c req = some c1) ∧
      AdmitRef c req c1 := by
  by_cases h : req.size > c._cacheSize
  · refine ⟨c, admit_oversize h, ?_, ?_⟩
    · intro fuel _; simp [admitFuel, h]
    · unfold AdmitRef; rw [if_pos h]; exact ⟨rfl, rfl, rfl⟩
  · obtain ⟨k, r, hr, hk, hlist, hrs, hcap, -, hfit, hmin⟩ :=
      @evictLoop_spec (c._cacheList.length + 1) c req.size hsz (by omega) (by omega)
    refine ⟨pushFront r req, ?_, ?_, ?_⟩
    · rw [admit_fitting h, hr]; rfl
    · intro fuel hf
      have := evictLoop_mono_le (Nat.succ_le_of_lt hf) hr
      simp [admitFuel, h, this]
    · unfold AdmitRef; rw [if_neg h]
      have hobjs : r.objs = c.objs.take (c.objs.length - k) := by
        unfold objs; rw [hlist, List.map_take, List.length_map]
      have hsum : r._currentSize
          = ((c.objs.take (c.objs.length - k)).map CacheObject.size).sum := by
        rw [hrs, listSize_eq_objs, hobjs]
      refine ⟨k, by rw [objs_length]; exact hk, ?_, ?_, ?_, ?_⟩
      · unfold fitsAfter; rw [← hsum, ← hcap]; exact hfit
      · intro j hj hfits
        unfold fitsAfter at hfits
        have := hmin j hj
        rw [sizes_take, objs_length] at hfits
        omega
      · show (Node.mk r._next (CacheObject.ofReq req) :: r._cacheList).map Node.obj = _
        rw [List.map_cons]
        show CacheObject.ofReq req :: r.objs = _
        rw [hobjs]
      · show r._currentSize + req.size = _
        rw [hsum]

theorem admit_wf {c c1 : LRUCache} (hc : WF c) {req : SimpleRequest}
    (hnew : CacheObject.ofReq req ∉ c.objs) (h : admitReq c req = some c1) :
    WF c1 ∧ c1._cacheSize = c._cacheSize := by
  by_cases hov : req.size > c._cacheSize
  · rw [admit_oversize hov] at h
    simp at h; subst h; exact ⟨hc, rfl⟩
  · rw [admit_fitting hov] at h
    cases hr : evictLoop (c._cacheList.length + 1) c req.size with
    | none => rw [hr] at h; simp at h
    | some r =>
      rw [hr] at h; simp at h; subst h
      obtain ⟨-, hfit, hcap⟩ := evictLoop_inv (wf_inv hc) hr
      obtain ⟨k, r1, hr1, -, hlist, -⟩ :=
        @evictLoop_spec (c._cacheList.length + 1) c req.size hc.size_eq (by omega) (by omega)
      rw [hr] at hr1; simp at hr1; subst hr1
      have hnew1 : CacheObject.ofReq req ∉ r.objs := by
        intro hmem
        unfold objs at hmem
        rw [hlist] at hmem
        exact hnew (List.mem_map.mpr (by
          obtain ⟨n, hn, hno⟩ := List.mem_map.mp hmem
          exact ⟨n, List.mem_of_mem_take hn, hno⟩))
      exact ⟨wf_pushFront (wf_evictLoop hc hr) hfit hnew1, hcap⟩

/-- One request of a trace on a well-formed state. -/
theorem request_spec {c : LRUCache} (hc : WF c) (req : SimpleRequest) :
    ∃ r, request c req = some r ∧ WF r ∧ r._cacheSize = c._cacheSize ∧
      ((CacheObject.ofReq req ∈ c.objs ∧
          r.objs = CacheObject.ofReq req ::
            c.objs.filter (fun o => decide (o ≠ CacheObject.ofReq req))) ∨
        (CacheObject.ofReq req ∉ c.objs ∧ AdmitRef c req r)) := by
  by_cases hmem : CacheObject.ofReq req ∈ c.objs
  · obtain ⟨n, hn, hno⟩ := List.mem_map.mp hmem
    have hfind := wf_find_of_mem hc hn
    rw [hno] at hfind
    have hl := lookup_hit hfind
    obtain ⟨hwf, hobjs⟩ := wf_hit hc hn
    refine ⟨hit c n.pos, ?_, hwf, rfl, Or.inl ⟨hmem, ?_⟩⟩
    · simp [request, hl]
    · rw [hobjs, hno]
  · have hl := lookup_miss (wf_find_none hc hmem)
    obtain ⟨c1, h1, -, href⟩ := admit_spec hc.size_eq req
    obtain ⟨hwf, hcap⟩ := admit_wf hc hmem h1
    refine ⟨c1, ?_, hwf, hcap, Or.inr ⟨hmem, href⟩⟩
    simp [request, hl, h1]

theorem wf_traceStep {c : LRUCache} (hc : WF c) (op : TraceOp) :
    ∃ r, traceStep c op = some r ∧ WF r ∧ r._cacheSize = c._cacheSize := by
  cases op with
  | request req =>
    obtain ⟨r, h, hwf, hcap, -⟩ := request_spec hc req
    exact ⟨r, h, hwf, hcap⟩
  | evict => exact ⟨_, rfl, wf_evict hc, evict_cacheSize c⟩
  | evictReq req => exact ⟨_, rfl, wf_evictReq hc req, evictReq_cacheSize c req⟩

theorem wf_traceRun {c : LRUCache} (hc : WF c) (ops : List TraceOp) :
    ∃ r, traceRun c ops = some r ∧ WF r ∧ r._cacheSize = c._cacheSize := by
  induction ops generalizing c with
  | nil => exact ⟨c, rfl, hc, rfl⟩
  | cons op ops ih =>
    obtain ⟨c1, h1, hi1, hcap1⟩ := wf_traceStep hc op
    obtain ⟨r, h2, hi2, hcap2⟩ := ih hi1
    refine ⟨r, ?_, hi2, by rw [hcap2, hcap1]⟩
    show (traceStep c op).bind (fun c1 => traceRun c1 ops) = some r
    rw [h1]; exact h2

/-! ### The contract of the LRU cache -/

end LRUCache
end WebCacheSim

namespace WebCacheSim
namespace LRUCache

theorem wf_sampleAB : WF sampleAB := by
  constructor <;> decide

/-- C3: on a well-formed state `LRUCache::lookup` returns true exactly when the
requested object is resident; on a hit the new list is that object followed by all
other objects in their previous order, the resident set, the index and the current
size are unchanged; on a miss the whole state is unchanged.  Scenario: capacity 10,
admit A (5 bytes), admit B (4 bytes), lookup A, admit C (4 bytes) leaves exactly
C and A in the list. -/
theorem C3_lookup_spec (c : LRUCache) (req : SimpleRequest) (hc : WF c) :
    ((lookup c req).2 = true ↔ CacheObject.ofReq req ∈ c.objs) ∧
    (CacheObject.ofReq req ∈ c.objs →
      (lookup c req).1.objs = CacheObject.ofReq req ::
          c.objs.filter (fun o => decide (o ≠ CacheObject.ofReq req)) ∧
        (∀ o, o ∈ (lookup c req).1.objs ↔ o ∈ c.objs) ∧
        (lookup c req).1._currentSize = c._currentSize ∧
        (lookup c req).1._cacheMap = c._cacheMap ∧
        (lookup c req).1._cacheSize = c._cacheSize ∧
        WF (lookup c req).1) ∧
    (CacheObject.ofReq req ∉ c.objs → (lookup c req).1 = c) ∧
    (run (empty 10)
        [Op.admitReq (SimpleRequest.mk 1 5), Op.admitReq (SimpleRequest.mk 2 4),
          Op.lookup (SimpleRequest.mk 1 5), Op.admitReq (SimpleRequest.mk 3 4)]).map objs
      = some [CacheObject.mk 3 4, CacheObject.mk 1 5] := by
  refine ⟨?_, ?_, ?_, by decide⟩
  · constructor
    · intro h
      by_contra hmem
      rw [lookup_miss (wf_find_none hc hmem)] at h
      simp at h
    · intro hmem
      obtain ⟨n, hn, hno⟩ := List.mem_map.mp hmem
      have hfind := wf_find_of_mem hc hn
      rw [hno] at hfind
      rw [lookup_hit hfind]
  · intro hmem
    obtain ⟨n, hn, hno⟩ := List.mem_map.mp hmem
    have hfind := wf_find_of_mem hc hn
    rw [hno] at hfind
    obtain ⟨hwf, hobjs⟩ := wf_hit hc hn
    rw [hno] at hobjs
    refine ⟨?_, ?_, lookup_currentSize c req, lookup_cacheMap c req, lookup_cacheSize c req,
      wf_lookup hc req⟩
    · rw [lookup_hit hfind]; exact hobjs
    · intro o
      rw [lookup_hit hfind]
      show o ∈ (hit c n.pos).objs ↔ o ∈ c.objs
      rw [hobjs, List.mem_cons, List.mem_filter]
      constructor
      · rintro (h | h)
        · rw [h]; exact hmem
        · exact h.1
      · intro h
        by_cases ho : o = CacheObject.ofReq req
        · exact Or.inl ho
        · exact Or.inr ⟨h, by simpa using ho⟩
  · intro hmem
    rw [lookup_miss (wf_find_none hc hmem)]

/-- Witness of C3 on the sample state: A is resident and is looked up. -/
theorem C3_lookup_spec_witness :
    WF sampleAB ∧ (lookup sampleAB (SimpleRequest.mk 1 5)).2 = true ∧
      (lookup sampleAB (SimpleRequest.mk 1 5)).1.objs
        = [CacheObject.mk 1 5, CacheObject.mk 2 4] :=
  ⟨wf_sampleAB,
    (C3_lookup_spec sampleAB (SimpleRequest.mk 1 5) wf_sampleAB).1.mpr (by decide),
    ((C3_lookup_spec sampleAB (SimpleRequest.mk 1 5) wf_sampleAB).2.1 (by decide)).1⟩

/-- C4: on a non-empty well-formed cache `LRUCache::evict_return` removes exactly
the last list object from the list and from the index, lowers the current size by
that object's size, keeps the other objects and their order, and returns a request
with the removed object's id and size; on an empty cache it returns none and leaves
the state unchanged. -/
theorem C4_evict_return_spec (c : LRUCache) (hc : WF c) :
    (c._cacheList = [] → evict_return c = (c, none)) ∧
    (∀ x, c.objs.getLast? = some x →
      (evict_return c).2 = some (SimpleRequest.mk x.id x.size) ∧
        c.objs = (evict_return c).1.objs ++ [x] ∧
        x ∉ (evict_return c).1.objs ∧
        (evict_return c).1._currentSize + x.size = c._currentSize ∧
        (∀ e, e ∈ (evict_return c).1._cacheMap ↔ e ∈ c._cacheMap ∧ e.1 ≠ x) ∧
        (evict_return c).1._cacheSize = c._cacheSize ∧
        WF (evict_return c).1) := by
  refine ⟨fun h => evict_return_nil h, ?_⟩
  intro x hx
  rcases nil_or_snoc c._cacheList with h | ⟨init, y, h⟩
  · simp [objs, h] at hx
  · have hxy : x = y.obj := by
      simp [objs, h] at hx
      exact hx.symm
    subst hxy
    have hwf := wf_evict_concat hc h
    unfold evict at hwf
    rw [evict_return_concat h] at hwf ⊢
    have hnd := hc.obj_nodup
    unfold objs at hnd ⊢
    rw [h, List.map_append] at hnd
    have hsz := hc.size_eq
    rw [listSize_concat h] at hsz
    refine ⟨rfl, ?_, ?_, ?_, ?_, rfl, hwf⟩
    · rw [h, List.map_append]; rfl
    · intro hmem
      exact (List.nodup_append.mp hnd).2.2 hmem (by simp)
    · show c._currentSize - y.obj.size + y.obj.size = c._currentSize
      omega
    · intro e
      exact mem_mapErase

/-- Witness of C4 on the sample state: the victim is A. -/
theorem C4_evict_return_spec_witness :
    WF sampleAB ∧ (evict_return sampleAB).2 = some (SimpleRequest.mk 1 5) ∧
      sampleAB.objs = (evict_return sampleAB).1.objs ++ [CacheObject.mk 1 5] :=
  ⟨wf_sampleAB,
    ((C4_evict_return_spec sampleAB wf_sampleAB).2 (CacheObject.mk 1 5) (by decide)).1,
    ((C4_evict_return_spec sampleAB wf_sampleAB).2 (CacheObject.mk 1 5) (by decide)).2.1⟩

/-- C6: after every step of a trace processed as lookup-then-admit-on-miss,
interleaved with `evict()` and `evict(req)` calls, the index and the recency list
have the same number of entries, the index has one entry per key, every index entry
points at a list node holding the same object, and every list node has its index
entry. -/
theorem C6_index_list_consistent (cs : Nat) (ops : List TraceOp) :
    ∃ c, traceRun (empty cs) ops = some c ∧
      c._cacheMap.length = c._cacheList.length ∧
      (c._cacheMap.map Prod.fst).Nodup ∧
      (∀ e, e ∈ c._cacheMap → Node.mk e.2 e.1 ∈ c._cacheList) ∧
      (∀ n, n ∈ c._cacheList → (n.obj, n.pos) ∈ c._cacheMap) := by
  obtain ⟨r, hr, hwf, -⟩ := wf_traceRun (wf_empty cs) ops
  refine ⟨r, hr, ?_, ?_, ?_, ?_⟩
  · rw [hwf.index.length_eq, List.length_map]
  · have hp := hwf.index.map Prod.fst
    rw [List.map_map] at hp
    exact (hp.nodup_iff).mpr hwf.obj_nodup
  · intro e he; exact (wf_mem_index hwf).mp he
  · intro n hn; exact (wf_mem_index hwf).mpr hn

end LRUCache
end WebCacheSim

namespace WebCacheSim
namespace LRUCache

/-! ### The byte counter in 64 bits -/

theorem add64_eq {a b : Nat} (h : a + b < 2 ^ 64) : add64 a b = a + b :=
  Nat.mod_eq_of_lt h

theorem sub64_eq {a b : Nat} (hb : b ≤ a) (ha : a < 2 ^ 64) : sub64 a b = a - b := by
  unfold sub64
  have hb1 : b % 2 ^ 64 = b := Nat.mod_eq_of_lt (by omega)
  rw [hb1]
  have h1 : a + (2 ^ 64 - b) = (a - b) + 1 * 2 ^ 64 := by omega
  rw [h1, Nat.add_mul_mod_self_right]
  exact Nat.mod_eq_of_lt (by omega)

theorem size_le_sum {l : List Node} {n : Node} (hn : n ∈ l) :
    n.obj.size ≤ (l.map (fun n => n.obj.size)).sum := by
  induction l with
  | nil => cases hn
  | cons a l ih =>
    rw [List.map_cons, List.sum_cons]
    rcases List.mem_cons.mp hn with h | h
    · subst h; omega
    · have := ih h; omega

namespace W64

theorem evict_return_eq {c : LRUCache} (hc : Inv c) (hcap : c._cacheSize < 2 ^ 64) :
    W64.evict_return c = LRUCache.evict_return c := by
  unfold W64.evict_return LRUCache.evict_return
  cases hl : c._cacheList.getLast? with
  | none => rfl
  | some lit =>
    have hmem : lit ∈ c._cacheList := List.mem_of_getLast?_eq_some hl
    have hle : lit.obj.size ≤ c._currentSize := by
      rw [hc.size_eq]; exact size_le_sum hmem
    have hlt : c._currentSize < 2 ^ 64 := lt_of_le_of_lt hc.size_le hcap
    simp only [sub64_eq hle hlt]

theorem evict_eq {c : LRUCache} (hc : Inv c) (hcap : c._cacheSize < 2 ^ 64) :
    W64.evict c = LRUCache.evict c := by
  unfold W64.evict LRUCache.evict
  rw [evict_return_eq hc hcap]

theorem evictReq_eq {c : LRUCache} (hc : Inv c) (hcap : c._cacheSize < 2 ^ 64)
    (req : SimpleRequest) : W64.evictReq c req = LRUCache.evictReq c req := by
  unfold W64.evictReq LRUCache.evictReq
  cases hf : mapFind c._cacheMap (CacheObject.ofReq req) with
  | none => rfl
  | some lit =>
    have hmem : Node.mk lit (CacheObject.ofReq req) ∈ c._cacheList :=
      hc.map_live _ (mapFind_some hf)
    have hle : (CacheObject.ofReq req).size ≤ c._currentSize := by
      rw [hc.size_eq]; exact size_le_sum hmem
    have hlt : c._currentSize < 2 ^ 64 := lt_of_le_of_lt hc.size_le hcap
    simp only [sub64_eq hle hlt]

theorem evictLoop64_succ (fuel : Nat) (c : LRUCache) (size : Nat) :
    W64.evictLoop (fuel + 1) c size =
      if add64 c._currentSize size > c._cacheSize then W64.evictLoop fuel (W64.evict c) size
      else some c :=
  rfl

theorem evictLoop_eq {size : Nat} :
    ∀ (fuel : Nat) (c : LRUCache), Inv c → c._cacheSize < 2 ^ 63 → size ≤ c._cacheSize →
      W64.evictLoop fuel c size = LRUCache.evictLoop fuel c size := by
  intro fuel
  induction fuel with
  | zero => intro c _ _ _; rfl
  | succ f ih =>
    intro c hc hcap hs
    have hle := hc.size_le
    rw [evictLoop64_succ, LRUCache.evictLoop_succ, add64_eq (by omega),
      evict_eq hc (by omega)]
    by_cases hgt : c._currentSize + size > c._cacheSize
    · rw [if_pos hgt, if_pos hgt]
      exact ih _ (inv_evict hc) (by rw [evict_cacheSize]; exact hcap)
        (by rw [evict_cacheSize]; exact hs)
    · rw [if_neg hgt, if_neg hgt]

theorem admitFuel_eq {c : LRUCache} (hc : Inv c) (hcap : c._cacheSize < 2 ^ 63) (fuel : Nat)
    (req : SimpleRequest) : W64.admitFuel fuel c req = LRUCache.admitFuel fuel c req := by
  unfold W64.admitFuel LRUCache.admitFuel
  by_cases h : req.size > c._cacheSize
  · rw [if_pos h, if_pos h]
  · rw [if_neg h, if_neg h, evictLoop_eq fuel c hc hcap (by omega)]
    cases hr : LRUCache.evictLoop fuel c req.size with
    | none => rfl
    | some r =>
      obtain ⟨-, hfit, hrc⟩ := evictLoop_inv hc hr
      show some (W64.pushFront r req) = some (LRUCache.pushFront r req)
      unfold W64.pushFront LRUCache.pushFront
      rw [add64_eq (by omega)]

theorem admitReq_eq {c : LRUCache} (hc : Inv c) (hcap : c._cacheSize < 2 ^ 63)
    (req : SimpleRequest) : W64.admitReq c req = LRUCache.admitReq c req :=
  admitFuel_eq hc hcap _ req

/-- On a consistent state of capacity below `2^63` every call computes in 64 bits
what it computes in the natural numbers. -/
theorem step_eq {c : LRUCache} (hc : Inv c) (hcap : c._cacheSize < 2 ^ 63) (op : Op) :
    W64.step c op = LRUCache.step c op := by
  cases op with
  | lookup req => rfl
  | admitReq req => exact admitReq_eq hc hcap req
  | evict => exact congrArg some (evict_eq hc (by omega))
  | evictReq req => exact congrArg some (evictReq_eq hc (by omega) req)

theorem run_eq (ops : List Op) :
    ∀ c : LRUCache, Inv c → c._cacheSize < 2 ^ 63 → W64.run c ops = LRUCache.run c ops := by
  induction ops with
  | nil => intro c _ _; rfl
  | cons op ops ih =>
    intro c hc hcap
    show (W64.step c op).bind (fun c1 => W64.run c1 ops)
      = (LRUCache.step c op).bind (fun c1 => LRUCache.run c1 ops)
    rw [step_eq hc hcap]
    obtain ⟨c1, h1, hi1, hcap1⟩ := inv_step hc op
    rw [h1]
    exact ih c1 hi1 (by rw [hcap1]; exact hcap)

end W64

/-! ### The contract of the LRU cache, in 64 bits -/

/-- C1 fails at capacity `2^63`: the admissions of `{1, 2^63}` and `{2, 2^63}` make
the 64-bit sum `_currentSize + size` wrap to 0, so nothing is evicted and
`_currentSize` is 0; after the admission of `{3, 5}` the call `evict()` removes the
object of `2^63` bytes and `5 - 2^63` wraps to `2^63 + 5`, above the capacity. -/
theorem C1_counterexample :
    (W64.run (empty (2 ^ 63))
        [Op.admitReq (SimpleRequest.mk 1 (2 ^ 63)), Op.admitReq (SimpleRequest.mk 2 (2 ^ 63)),
          Op.admitReq (SimpleRequest.mk 3 5), Op.evict]).map
        (fun c => (c._cacheSize, c._currentSize, c.objs))
      = some (2 ^ 63, 2 ^ 63 + 5, [CacheObject.mk 3 5, CacheObject.mk 2 (2 ^ 63)]) ∧
    ¬ (2 ^ 63 + 5 ≤ 2 ^ 63) := by
  constructor
  · decide
  · decide

/-- C1 (amended): for a capacity below `2^63`, every sequence of `lookup`, `admit`,
`evict()` and `evict(req)` calls on the empty LRU cache runs to its end, with the
64-bit arithmetic of the code, and in the state it reaches the current size is at
most the capacity. -/
theorem C1_currentSize_le_capacity (cs : Nat) (hcs : cs < 2 ^ 63) (ops : List Op) :
    ∃ c, W64.run (empty cs) ops = some c ∧ c._cacheSize = cs ∧ c._currentSize ≤ cs := by
  obtain ⟨r, hr, hinv, hcap⟩ := inv_run (inv_empty cs) ops
  have hcs1 : r._cacheSize = cs := hcap
  refine ⟨r, ?_, hcs1, hcs1 ▸ hinv.size_le⟩
  rw [W64.run_eq ops (empty cs) (inv_empty cs) hcs]
  exact hr

/-- Witness of C1: capacity 10, the admissions of A (5 bytes), B (4 bytes) and
C (4 bytes), then `evict()`. -/
theorem C1_currentSize_le_capacity_witness :
    ∃ c, W64.run (empty 10)
        [Op.admitReq (SimpleRequest.mk 1 5), Op.admitReq (SimpleRequest.mk 2 4),
          Op.admitReq (SimpleRequest.mk 3 4), Op.evict] = some c ∧
      c._cacheSize = 10 ∧ c._currentSize ≤ 10 :=
  C1_currentSize_le_capacity 10 (by norm_num) _

/-- C2 fails at capacity `2^64 - 1`: on the well-formed state that is full with one
object of `2^64 - 1` bytes, the admission of `{2, 2}` forms the 64-bit sum
`2^64 - 1 + 2 = 1`, which is not above the capacity, so nothing is evicted: both
objects are listed and `_currentSize` is 1, whereas the reference definition evicts
the resident object. -/
theorem C2_counterexample :
    WF sampleHuge ∧
    (W64.admitReq sampleHuge (SimpleRequest.mk 2 2)).map (fun c => (c.objs, c._currentSize))
      = some ([CacheObject.mk 2 2, CacheObject.mk 1 (2 ^ 64 - 1)], 1) ∧
    ∀ c1, W64.admitReq sampleHuge (SimpleRequest.mk 2 2) = some c1 →
      ¬ AdmitRef sampleHuge (SimpleRequest.mk 2 2) c1 := by
  refine ⟨by constructor <;> decide, by decide, ?_⟩
  intro c1 h1 href
  have hobjs : c1.objs = [CacheObject.mk 2 2, CacheObject.mk 1 (2 ^ 64 - 1)] := by
    have : (W64.admitReq sampleHuge (SimpleRequest.mk 2 2)).map (fun c => c.objs)
        = some [CacheObject.mk 2 2, CacheObject.mk 1 (2 ^ 64 - 1)] := by decide
    rw [h1] at this
    exact Option.some.inj this
  unfold AdmitRef at href
  rw [if_neg (by decide)] at href
  obtain ⟨k, hk, hfit, -, hl, -⟩ := href
  rw [hobjs] at hl
  have hk1 : k ≤ 1 := hk
  interval_cases k
  · unfold fitsAfter at hfit
    exact absurd hfit (by decide)
  · exact absurd hl (by decide)

/-- C2 (amended): on every well-formed state of capacity below `2^63`,
`LRUCache::admit`, with the 64-bit arithmetic of the code, terminates (for every fuel
above the list length) and equals the reference definition `AdmitRef`: an oversized
request changes neither list, index nor current size; otherwise the new list is the
request followed by the old list without its `k` last objects, `k` the least number
for which the rest plus the request fits, and the current size is the sum of the
rest plus the request's size. -/
theorem C2_admit_refines_reference (c : LRUCache) (req : SimpleRequest) (hc : WF c)
    (hcap : c._cacheSize < 2 ^ 63) :
    ∃ c1, W64.admitReq c req = some c1 ∧
      (∀ fuel, c._cacheList.length < fuel → W64.admitFuel fuel c req = some c1) ∧
      AdmitRef c req c1 := by
  obtain ⟨c1, h1, h2, h3⟩ := admit_spec hc.size_eq req
  refine ⟨c1, ?_, ?_, h3⟩
  · rw [W64.admitReq_eq (wf_inv hc) hcap]; exact h1
  · intro fuel hf
    rw [W64.admitFuel_eq (wf_inv hc) hcap]; exact h2 fuel hf

/-- Witness of C2 on the sample state: admitting a 4-byte object C evicts A. -/
theorem C2_admit_refines_reference_witness :
    WF sampleAB ∧ sampleAB._cacheSize < 2 ^ 63 ∧
      ∃ c1, W64.admitReq sampleAB (SimpleRequest.mk 3 4) = some c1 ∧
        (∀ fuel, sampleAB._cacheList.length < fuel →
          W64.admitFuel fuel sampleAB (SimpleRequest.mk 3 4) = some c1) ∧
        AdmitRef sampleAB (SimpleRequest.mk 3 4) c1 :=
  ⟨wf_sampleAB, by decide,
    C2_admit_refines_reference sampleAB (SimpleRequest.mk 3 4) wf_sampleAB (by decide)⟩

/-- C5 fails at capacity `2^64 - 1`: after the admissions of `{1, 2^64 - 1}` and
`{2, 2}` both objects are listed, their sizes sum to `2^64 + 1`, and `_currentSize`
is 1 (the 64-bit sum wrapped, so the loop evicted nothing). -/
theorem C5_counterexample :
    (W64.run (empty (2 ^ 64 - 1))
        [Op.admitReq (SimpleRequest.mk 1 (2 ^ 64 - 1)), Op.admitReq (SimpleRequest.mk 2 2)]).map
        (fun c => (c._currentSize, c.objs, (c.objs.map CacheObject.size).sum))
      = some (1, [CacheObject.mk 2 2, CacheObject.mk 1 (2 ^ 64 - 1)], 2 ^ 64 + 1) ∧
    (1 : Nat) ≠ 2 ^ 64 + 1 := by
  constructor
  · decide
  · decide

/-- C5 (amended): for a capacity below `2^63`, every sequence of `lookup`, `admit`,
`evict()` and `evict(req)` calls on the empty LRU cache, with arbitrary requests and
the 64-bit arithmetic of the code, runs to its end, and in the state it reaches the
current size equals the sum of the sizes of the objects in the recency list. -/
theorem C5_currentSize_eq_listed_sum (cs : Nat) (hcs : cs < 2 ^ 63) (ops : List Op) :
    ∃ c, W64.run (empty cs) ops = some c ∧
      c._currentSize = (c.objs.map CacheObject.size).sum := by
  obtain ⟨r, hr, hinv, -⟩ := inv_run (inv_empty cs) ops
  refine ⟨r, ?_, by rw [← listSize_eq_objs]; exact hinv.size_eq⟩
  rw [W64.run_eq ops (empty cs) (inv_empty cs) hcs]
  exact hr

/-- Witness of C5: capacity 10, an id requested with two sizes, an eviction by
request and a lookup. -/
theorem C5_currentSize_eq_listed_sum_witness :
    ∃ c, W64.run (empty 10)
        [Op.admitReq (SimpleRequest.mk 1 5), Op.admitReq (SimpleRequest.mk 1 3),
          Op.evictReq (SimpleRequest.mk 1 5), Op.lookup (SimpleRequest.mk 1 3)] = some c ∧
      c._currentSize = (c.objs.map CacheObject.size).sum :=
  C5_currentSize_eq_listed_sum 10 (by norm_num) _

end LRUCache
end WebCacheSim

namespace WebCacheSim
namespace LRUCache

/-! ### Traces of requests -/

theorem wf_requests {c : LRUCache} (hc : WF c) (reqs : List SimpleRequest) :
    ∃ r, requests c reqs = some r ∧ WF r ∧ r._cacheSize = c._cacheSize := by
  induction reqs generalizing c with
  | nil => exact ⟨c, rfl, hc, rfl⟩
  | cons req reqs ih =>
    obtain ⟨c1, h1, hi1, hcap1, -⟩ := request_spec hc req
    obtain ⟨r, h2, hi2, hcap2⟩ := ih hi1
    refine ⟨r, ?_, hi2, by rw [hcap2, hcap1]⟩
    show (request c req).bind (fun c1 => requests c1 reqs) = some r
    rw [h1]; exact h2

theorem requests_append (c : LRUCache) (l1 l2 : List SimpleRequest) :
    requests c (l1 ++ l2) = (requests c l1).bind (fun c1 => requests c1 l2) := by
  induction l1 generalizing c with
  | nil => rfl
  | cons req l1 ih =>
    show (request c req).bind (fun c1 => requests c1 (l1 ++ l2)) = _
    cases h : request c req with
    | none => simp [requests, h]
    | some c1 => simp [requests, h, ih]

theorem sum_le_of_nodup_subset (W : Finset CacheObject) (l : List CacheObject)
    (hnd : l.Nodup) (hsub : ∀ x, x ∈ l → x ∈ W) :
    (l.map CacheObject.size).sum ≤ W.sum CacheObject.size := by
  rw [← List.sum_toFinset _ hnd]
  apply Finset.sum_le_sum_of_subset
  intro x hx
  exact hsub x (List.mem_toFinset.mp hx)

theorem take_split {α : Type} (pre post : List α) (w : α) (k : Nat) (hk : k ≤ post.length) :
    (pre ++ w :: post).take ((pre ++ w :: post).length - k)
      = pre ++ w :: post.take (post.length - k) := by
  have h1 : (pre ++ w :: post).length - k = pre.length + (1 + (post.length - k)) := by
    simp; omega
  rw [h1, List.take_append, Nat.add_comm 1, List.take_succ_cons]

/-- One request for an element of `W` keeps every fronted element of `W` fronted,
and fronts the requested object. -/
theorem request_fronted {W : Finset CacheObject} {c r : LRUCache} {req : SimpleRequest}
    (hc : WF c) (hW : W.sum CacheObject.size ≤ c._cacheSize)
    (hreq : CacheObject.ofReq req ∈ W) (hr : request c req = some r) :
    FrontedBy W (CacheObject.ofReq req) r ∧
      ∀ w, w ∈ W → FrontedBy W w c → FrontedBy W w r := by
  obtain ⟨r1, hr1, -, -, hcase⟩ := request_spec hc req
  rw [hr] at hr1
  simp at hr1
  subst hr1
  rcases hcase with ⟨hmem, hobjs⟩ | ⟨hnew, href⟩
  · refine ⟨⟨[], _, hobjs, by simp⟩, ?_⟩
    rintro w hw ⟨pre, post, hsplit, hpre⟩
    by_cases hwr : w = CacheObject.ofReq req
    · subst hwr; exact ⟨[], _, hobjs, by simp⟩
    · refine ⟨CacheObject.ofReq req ::
          pre.filter (fun o => decide (o ≠ CacheObject.ofReq req)),
        post.filter (fun o => decide (o ≠ CacheObject.ofReq req)), ?_, ?_⟩
      · rw [hobjs, hsplit, List.filter_append, List.filter_cons_of_pos (by simpa using hwr)]
        rfl
      · intro x hx
        rcases List.mem_cons.mp hx with h | h
        · rw [h]; exact hreq
        · exact hpre x (List.mem_filter.mp h).1
  · have hsize : req.size ≤ c._cacheSize := by
      have := Finset.single_le_sum (f := CacheObject.size) (fun _ _ => Nat.zero_le _) hreq
      exact le_trans this hW
    unfold AdmitRef at href
    rw [if_neg (by omega)] at href
    obtain ⟨k, hk, hfit, hmin, hobjs, -⟩ := href
    refine ⟨⟨[], _, hobjs, by simp⟩, ?_⟩
    rintro w hw ⟨pre, post, hsplit, hpre⟩
    have hkpost : k ≤ post.length := by
      by_contra hlt
      have hnot := hmin post.length (by omega)
      apply hnot
      unfold fitsAfter
      have ht := take_split pre post w post.length le_rfl
      rw [← hsplit] at ht
      rw [ht, Nat.sub_self, List.take_zero]
      have hnd : (CacheObject.ofReq req :: (pre ++ [w])).Nodup := by
        have hnd0 := hc.obj_nodup
        rw [hsplit] at hnd0 hnew
        rw [List.nodup_cons]
        constructor
        · intro hm
          apply hnew
          rcases List.mem_append.mp hm with h | h
          · exact List.mem_append_left _ h
          · exact List.mem_append_right _ (by simp at h; simp [h])
        · have : (pre ++ [w]).Sublist (pre ++ w :: post) :=
            List.Sublist.append_left (by simp) pre
          exact hnd0.sublist this
      have hsub : ∀ x, x ∈ CacheObject.ofReq req :: (pre ++ [w]) → x ∈ W := by
        intro x hx
        rcases List.mem_cons.mp hx with h | h
        · rw [h]; exact hreq
        · rcases List.mem_append.mp h with h1 | h1
          · exact hpre x h1
          · simp at h1; rw [h1]; exact hw
      have := sum_le_of_nodup_subset W _ hnd hsub
      simp only [List.map_cons, List.sum_cons, CacheObject.ofReq] at this
      omega
    refine ⟨CacheObject.ofReq req :: pre, post.take (post.length - k), ?_, ?_⟩
    · have ht := take_split pre post w k hkpost
      rw [← hsplit] at ht
      rw [hobjs, ht]; rfl
    · intro x hx
      rcases List.mem_cons.mp hx with h | h
      · rw [h]; exact hreq
      · exact hpre x h

theorem requests_fronted {W : Finset CacheObject} (reqs : List SimpleRequest) {c : LRUCache}
    (hc : WF c) (hW : W.sum CacheObject.size ≤ c._cacheSize)
    (hreqs : ∀ r, r ∈ reqs → CacheObject.ofReq r ∈ W) :
    ∃ r, requests c reqs = some r ∧
      ∀ w, w ∈ W → (FrontedBy W w c ∨ w ∈ reqs.map CacheObject.ofReq) → FrontedBy W w r := by
  induction reqs generalizing c with
  | nil =>
    refine ⟨c, rfl, ?_⟩
    intro w _ h
    rcases h with h | h
    · exact h
    · simp at h
  | cons req reqs ih =>
    obtain ⟨c1, h1, hwf1, hcap1, -⟩ := request_spec hc req
    have hreq : CacheObject.ofReq req ∈ W := hreqs req (by simp)
    obtain ⟨hfront, hkeep⟩ := request_fronted hc hW hreq h1
    obtain ⟨r, h2, hr⟩ := @ih c1 hwf1 (by rw [hcap1]; exact hW)
      (fun r hr => hreqs r (List.mem_cons_of_mem _ hr))
    refine ⟨r, ?_, ?_⟩
    · show (request c req).bind (fun c1 => requests c1 reqs) = some r
      rw [h1]; exact h2
    · intro w hw h
      apply hr w hw
      rcases h with h | h
      · exact Or.inl (hkeep w hw h)
      · rw [List.map_cons] at h
        rcases List.mem_cons.mp h with h | h
        · rw [h]; exact Or.inl hfront
        · exact Or.inr h

/-- C7, as stated, fails: the trace `{1,2}`, `{1,3}` on capacity 10 leaves two
listed objects with id 1. -/
theorem C7_counterexample :
    (requests (empty 10) [SimpleRequest.mk 1 2, SimpleRequest.mk 1 3]).map objs
        = some [CacheObject.mk 1 3, CacheObject.mk 1 2] ∧
      ¬ ([CacheObject.mk 1 3, CacheObject.mk 1 2].map CacheObject.id).Nodup := by
  constructor <;> decide

/-- C7 (amended): after every request of a trace processed as
lookup-then-admit-on-miss the recency list contains at most one object with any
given pair of id and size. -/
theorem C7_one_object_per_id_and_size (cs : Nat) (reqs : List SimpleRequest) :
    ∃ c, requests (empty cs) reqs = some c ∧ c.objs.Nodup ∧
      ∀ i s, (c.objs.filter (fun o => decide (o.id = i ∧ o.size = s))).length ≤ 1 := by
  obtain ⟨r, hr, hwf, -⟩ := wf_requests (wf_empty cs) reqs
  refine ⟨r, hr, hwf.obj_nodup, ?_⟩
  intro i s
  have hnd : (r.objs.filter (fun o => decide (o.id = i ∧ o.size = s))).Nodup :=
    hwf.obj_nodup.sublist (List.filter_sublist _)
  have hall : ∀ x, x ∈ r.objs.filter (fun o => decide (o.id = i ∧ o.size = s)) →
      x = CacheObject.mk i s := by
    intro x hx
    have := (List.mem_filter.mp hx).2
    simp at this
    rcases x with ⟨xi, xs⟩
    simp at this
    rw [this.1, this.2]
  generalize r.objs.filter (fun o => decide (o.id = i ∧ o.size = s)) = l at hnd hall ⊢
  match l, hnd, hall with
  | [], _, _ => simp
  | [_], _, _ => simp
  | a :: b :: t, hnd, hall =>
    have ha := hall a (by simp)
    have hb := hall b (by simp)
    rw [ha, hb] at hnd
    simp at hnd

/-- C8, as stated, fails: capacity 10, `W` two one-byte objects, trace "object 1,
then a 10-byte object 3": object 1 is in `W` and among the last two requests, and
is not resident afterwards. -/
theorem C8_counterexample :
    (({CacheObject.mk 1 1, CacheObject.mk 2 1} : Finset CacheObject).sum CacheObject.size ≤ 10) ∧
      ¬ WorkingSetResident 10 [SimpleRequest.mk 1 1, SimpleRequest.mk 3 10]
          {CacheObject.mk 1 1, CacheObject.mk 2 1} := by
  refine ⟨by decide, ?_⟩
  intro h
  have h1 := h _ rfl (CacheObject.mk 1 1) (by decide) (by decide)
  revert h1
  decide

/-- C8 (amended): for an LRU cache of capacity `cs` starting empty, every trace `S`
processed as lookup-then-admit-on-miss and every set `W` of distinct objects whose
sizes sum to at most `cs`: if each of the last `|W|` requests of `S` is for an
element of `W`, then every element of `W` that occurs among them is resident
after `S`. -/
theorem C8_working_set_resident (cs : Nat) (S : List SimpleRequest) (W : Finset CacheObject)
    (hW : W.sum CacheObject.size ≤ cs)
    (hS : ∀ r, r ∈ S.drop (S.length - W.card) → CacheObject.ofReq r ∈ W) :
    (∃ c, requests (empty cs) S = some c) ∧ WorkingSetResident cs S W := by
  obtain ⟨c1, h1, hwf1, hcap1⟩ := wf_requests (wf_empty cs) (S.take (S.length - W.card))
  have hcap : c1._cacheSize = cs := hcap1
  obtain ⟨r, h2, hr⟩ := requests_fronted (S.drop (S.length - W.card)) hwf1
    (by rw [hcap]; exact hW) hS
  have hrun : requests (empty cs) S = some r := by
    conv_lhs => rw [← List.take_append_drop (S.length - W.card) S]
    rw [requests_append, h1]
    exact h2
  refine ⟨⟨r, hrun⟩, ?_⟩
  intro c hc w hw hmem
  rw [hrun] at hc
  simp at hc
  subst hc
  obtain ⟨pre, post, hsplit, -⟩ := hr w hw (Or.inr hmem)
  rw [hsplit]
  simp

/-- Witness of C8: capacity 10, `W` two one-byte objects, trace 3, 1, 2 with a
5-byte object 3 outside `W` first. -/
theorem C8_working_set_resident_witness :
    (∃ c, requests (empty 10)
        [SimpleRequest.mk 3 5, SimpleRequest.mk 1 1, SimpleRequest.mk 2 1] = some c) ∧
      WorkingSetResident 10 [SimpleRequest.mk 3 5, SimpleRequest.mk 1 1, SimpleRequest.mk 2 1]
        {CacheObject.mk 1 1, CacheObject.mk 2 1} :=
  C8_working_set_resident 10 [SimpleRequest.mk 3 5, SimpleRequest.mk 1 1, SimpleRequest.mk 2 1]
    {CacheObject.mk 1 1, CacheObject.mk 2 1} (by decide) (by decide)

end LRUCache
end WebCacheSim

namespace WebCacheSim

/-! ### What the operations leave in the list -/

namespace LRUCache

theorem lookup_list_subset (c : LRUCache) (req : SimpleRequest) :
    ∀ n, n ∈ (lookup c req).1._cacheList → n ∈ c._cacheList := by
  intro n hn
  cases h : mapFind c._cacheMap (CacheObject.ofReq req) with
  | none => rw [lookup_miss h] at hn; exact hn
  | some lit =>
    rw [lookup_hit h] at hn
    have hn1 : n ∈ listSplice c._cacheList lit := hn
    unfold listSplice at hn1
    cases hf : c._cacheList.find? (fun m => decide (m.pos = lit)) with
    | none => rw [hf] at hn1; exact hn1
    | some m =>
      rw [hf] at hn1
      rcases List.mem_cons.mp hn1 with h1 | h1
      · rw [h1]; exact List.mem_of_find?_eq_some hf
      · exact (mem_listErase.mp h1).1

theorem evict_sublist (c : LRUCache) : (evict c)._cacheList.Sublist c._cacheList := by
  rw [evict_list]; exact List.dropLast_sublist _

theorem evictReq_sublist (c : LRUCache) (req : SimpleRequest) :
    (evictReq c req)._cacheList.Sublist c._cacheList := by
  unfold evictReq
  cases mapFind c._cacheMap (CacheObject.ofReq req) with
  | none => exact List.Sublist.refl _
  | some lit => exact List.filter_sublist _

theorem evictLoop_sublist {fuel : Nat} {c r : LRUCache} {size : Nat}
    (h : evictLoop fuel c size = some r) :
    r._cacheList.Sublist c._cacheList ∧ r._next = c._next := by
  induction fuel generalizing c with
  | zero => simp [evictLoop] at h
  | succ f ih =>
    rw [evictLoop_succ] at h
    by_cases hgt : c._currentSize + size > c._cacheSize
    · rw [if_pos hgt] at h
      obtain ⟨h1, h2⟩ := ih h
      exact ⟨h1.trans (evict_sublist c), by rw [h2, evict_next]⟩
    · rw [if_neg hgt] at h; simp at h; subst h
      exact ⟨List.Sublist.refl _, rfl⟩

theorem admit_list {c c1 : LRUCache} {req : SimpleRequest} (h : admitReq c req = some c1) :
    c1 = c ∨ ∃ l, l.Sublist c._cacheList ∧
      c1._cacheList = Node.mk c._next (CacheObject.ofReq req) :: l := by
  by_cases hov : req.size > c._cacheSize
  · rw [admit_oversize hov] at h
    simp at h; exact Or.inl h.symm
  · rw [admit_fitting hov] at h
    cases hr : evictLoop (c._cacheList.length + 1) c req.size with
    | none => rw [hr] at h; simp at h
    | some r =>
      rw [hr] at h; simp at h; subst h
      obtain ⟨hsub, hnext⟩ := evictLoop_sublist hr
      refine Or.inr ⟨r._cacheList, hsub, ?_⟩
      show Node.mk r._next (CacheObject.ofReq req) :: r._cacheList = _
      rw [hnext]

end LRUCache

/-! ### FIFO -/

namespace FIFOCache

open LRUCache

theorem lookup_fst (c : LRUCache) (req : SimpleRequest) : (FIFOCache.lookup c req).1 = c := by
  unfold FIFOCache.lookup lookupWith FIFOCache.hit
  cases mapFind c._cacheMap (CacheObject.ofReq req) <;> rfl

theorem lookup_snd (c : LRUCache) (req : SimpleRequest) :
    (FIFOCache.lookup c req).2 = true ↔ ∃ lit, (CacheObject.ofReq req, lit) ∈ c._cacheMap := by
  unfold FIFOCache.lookup lookupWith
  cases h : mapFind c._cacheMap (CacheObject.ofReq req) with
  | none =>
    simp only [Bool.false_eq_true, false_iff, not_exists]
    intro lit hmem
    exact mapFind_none h _ hmem rfl
  | some lit =>
    simp only [true_iff]
    exact ⟨lit, mapFind_some h⟩

theorem run_skip_lookups (c : LRUCache) (ops : List Op) :
    FIFOCache.run c (ops.filter (fun op => !op.isLookup)) = FIFOCache.run c ops := by
  induction ops generalizing c with
  | nil => rfl
  | cons op ops ih =>
    cases op with
    | lookup req =>
      show FIFOCache.run c (ops.filter (fun op => !op.isLookup))
        = (some (FIFOCache.lookup c req).1).bind (fun c1 => FIFOCache.run c1 ops)
      rw [lookup_fst, ih]; rfl
    | admitReq req =>
      show (FIFOCache.step c (Op.admitReq req)).bind
          (fun c1 => FIFOCache.run c1 (ops.filter (fun op => !op.isLookup)))
        = (FIFOCache.step c (Op.admitReq req)).bind (fun c1 => FIFOCache.run c1 ops)
      congr 1; funext c1; exact ih c1
    | evict =>
      show (FIFOCache.step c Op.evict).bind
          (fun c1 => FIFOCache.run c1 (ops.filter (fun op => !op.isLookup)))
        = (FIFOCache.step c Op.evict).bind (fun c1 => FIFOCache.run c1 ops)
      congr 1; funext c1; exact ih c1
    | evictReq req =>
      show (FIFOCache.step c (Op.evictReq req)).bind
          (fun c1 => FIFOCache.run c1 (ops.filter (fun op => !op.isLookup)))
        = (FIFOCache.step c (Op.evictReq req)).bind (fun c1 => FIFOCache.run c1 ops)
      congr 1; funext c1; exact ih c1

theorem step_sorted {c : LRUCache} (hc : Inv c)
    (hs : c._cacheList.Pairwise (fun a b => b.pos < a.pos)) (op : Op) :
    ∃ r, FIFOCache.step c op = some r ∧ Inv r ∧
      r._cacheList.Pairwise (fun a b => b.pos < a.pos) := by
  cases op with
  | lookup req =>
    refine ⟨(FIFOCache.lookup c req).1, rfl, ?_, ?_⟩ <;> rw [lookup_fst] <;> assumption
  | admitReq req =>
    obtain ⟨r, hr, hinv, -⟩ := inv_admission hc req
    refine ⟨r, hr, hinv, ?_⟩
    rcases admit_list hr with h | ⟨l, hsub, hl⟩
    · rw [h]; exact hs
    · rw [hl, List.pairwise_cons]
      refine ⟨?_, hs.sublist hsub⟩
      intro n hn
      exact hc.pos_lt n (hsub.subset hn)
  | evict => exact ⟨_, rfl, inv_evict hc, hs.sublist (evict_sublist c)⟩
  | evictReq req => exact ⟨_, rfl, inv_evictReq hc req, hs.sublist (evictReq_sublist c req)⟩

theorem run_sorted {c : LRUCache} (hc : Inv c)
    (hs : c._cacheList.Pairwise (fun a b => b.pos < a.pos)) (ops : List Op) :
    ∃ r, FIFOCache.run c ops = some r ∧ Inv r ∧
      r._cacheList.Pairwise (fun a b => b.pos < a.pos) := by
  induction ops generalizing c with
  | nil => exact ⟨c, rfl, hc, hs⟩
  | cons op ops ih =>
    obtain ⟨c1, h1, hi1, hs1⟩ := step_sorted hc hs op
    obtain ⟨r, h2, hi2, hs2⟩ := ih hi1 hs1
    refine ⟨r, ?_, hi2, hs2⟩
    show (FIFOCache.step c op).bind (fun c1 => FIFOCache.run c1 ops) = some r
    rw [h1]; exact h2

/-- C9: `FIFOCache::lookup` leaves the whole state unchanged, on a hit as on a miss,
and returns true exactly when the object has an index entry, which on a well-formed
state is exactly when it is listed.  Consequently lookups do not matter for the
state a sequence of calls reaches, the list stays ordered by admission stamp, newest
first, and the node an eviction removes is the resident node admitted earliest. -/
theorem C9_fifo_lookup_frame (c : LRUCache) (req : SimpleRequest) :
    (FIFOCache.lookup c req).1 = c ∧
    ((FIFOCache.lookup c req).2 = true ↔ ∃ lit, (CacheObject.ofReq req, lit) ∈ c._cacheMap) ∧
    (WF c → ((FIFOCache.lookup c req).2 = true ↔ CacheObject.ofReq req ∈ c.objs)) ∧
    (∀ cs ops, ∃ r, FIFOCache.run (LRUCache.empty cs) ops = some r ∧
      FIFOCache.run (LRUCache.empty cs) (ops.filter (fun op => !op.isLookup)) = some r ∧
      r._cacheList.Pairwise (fun a b => b.pos < a.pos) ∧
      ∀ last, r._cacheList.getLast? = some last →
        (evict_return r).2 = some last.obj.toReq ∧
        (evict_return r).1._cacheList = r._cacheList.dropLast ∧
        ∀ n, n ∈ r._cacheList → last.pos ≤ n.pos) := by
  refine ⟨lookup_fst c req, lookup_snd c req, ?_, ?_⟩
  · intro hc
    rw [lookup_snd]
    constructor
    · rintro ⟨lit, hmem⟩
      exact List.mem_map.mpr ⟨_, (wf_mem_index hc).mp hmem, rfl⟩
    · intro hmem
      obtain ⟨n, hn, hno⟩ := List.mem_map.mp hmem
      exact ⟨n.pos, by rw [← hno]; exact (wf_mem_index hc).mpr hn⟩
  · intro cs ops
    obtain ⟨r, hr, -, hs⟩ := run_sorted (inv_empty cs) (by simp [LRUCache.empty]) ops
    refine ⟨r, hr, by rw [run_skip_lookups]; exact hr, hs, ?_⟩
    intro last hlast
    rcases nil_or_snoc r._cacheList with h | ⟨init, y, h⟩
    · rw [h] at hlast; simp at hlast
    · have hy : y = last := by rw [h] at hlast; simpa using hlast
      subst hy
      rw [evict_return_concat h]
      refine ⟨rfl, by rw [h]; simp, ?_⟩
      intro n hn
      rw [h] at hn hs
      rcases List.mem_append.mp hn with h1 | h1
      · exact Nat.le_of_lt ((List.pairwise_append.mp hs).2.2 n h1 y (by simp))
      · simp at h1; rw [h1]

/-- Witness of C9 on the sample state: looking A up changes nothing. -/
theorem C9_fifo_lookup_frame_witness :
    WF sampleAB ∧ (FIFOCache.lookup sampleAB (SimpleRequest.mk 1 5)).1 = sampleAB ∧
      (FIFOCache.lookup sampleAB (SimpleRequest.mk 1 5)).2 = true :=
  ⟨wf_sampleAB, (C9_fifo_lookup_frame sampleAB (SimpleRequest.mk 1 5)).1,
    ((C9_fifo_lookup_frame sampleAB (SimpleRequest.mk 1 5)).2.2.1 wf_sampleAB).mpr (by decide)⟩

end FIFOCache

/-! ### ThLRU -/

namespace ThLRUCache

theorem step_below {c : ThLRUCache} (hc : LRUCache.Inv c.toLRUCache)
    (hb : ∀ n, n ∈ c._cacheList → n.obj.size < c._sizeThreshold) (op : LRUCache.Op) :
    ∃ r, step c op = some r ∧ LRUCache.Inv r.toLRUCache ∧
      r._sizeThreshold = c._sizeThreshold ∧
      ∀ n, n ∈ r._cacheList → n.obj.size < r._sizeThreshold := by
  cases op with
  | lookup req =>
    refine ⟨_, rfl, LRUCache.inv_lookup hc req, rfl, ?_⟩
    intro n hn
    exact hb n (LRUCache.lookup_list_subset c.toLRUCache req n hn)
  | admitReq req =>
    show ∃ r, admitReq c req = some r ∧ _
    unfold admitReq
    by_cases hlt : req.size < c._sizeThreshold
    · rw [if_pos hlt]
      obtain ⟨l, hl, hinv, -⟩ := LRUCache.inv_admission hc req
      rw [hl]
      refine ⟨_, rfl, hinv, rfl, ?_⟩
      intro n hn
      have hn1 : n ∈ l._cacheList := hn
      show n.obj.size < c._sizeThreshold
      rcases LRUCache.admit_list hl with h | ⟨l1, hsub, hl1⟩
      · rw [h] at hn1; exact hb n hn1
      · rw [hl1] at hn1
        rcases List.mem_cons.mp hn1 with h1 | h1
        · rw [h1]; exact hlt
        · exact hb n (hsub.subset h1)
    · rw [if_neg hlt]
      exact ⟨c, rfl, hc, rfl, hb⟩
  | evict =>
    refine ⟨_, rfl, LRUCache.inv_evict hc, rfl, ?_⟩
    intro n hn
    exact hb n ((LRUCache.evict_sublist c.toLRUCache).subset hn)
  | evictReq req =>
    refine ⟨_, rfl, LRUCache.inv_evictReq hc req, rfl, ?_⟩
    intro n hn
    exact hb n ((LRUCache.evictReq_sublist c.toLRUCache req).subset hn)

theorem run_below {c : ThLRUCache} (hc : LRUCache.Inv c.toLRUCache)
    (hb : ∀ n, n ∈ c._cacheList → n.obj.size < c._sizeThreshold) (ops : List LRUCache.Op) :
    ∃ r, run c ops = some r ∧ r._sizeThreshold = c._sizeThreshold ∧
      ∀ n, n ∈ r._cacheList → n.obj.size < r._sizeThreshold := by
  induction ops generalizing c with
  | nil => exact ⟨c, rfl, rfl, hb⟩
  | cons op ops ih =>
    obtain ⟨c1, h1, hi1, ht1, hb1⟩ := step_below hc hb op
    obtain ⟨r, h2, ht2, hb2⟩ := ih hi1 hb1
    refine ⟨r, ?_, by rw [ht2, ht1], hb2⟩
    show (step c op).bind (fun c1 => run c1 ops) = some r
    rw [h1]; exact h2

/-- C10: `ThLRUCache::admit` of a request whose size is at least the threshold
leaves the state unchanged, and in every state reachable from the empty cache by
`lookup`, `admit`, `evict()` and `evict(req)` calls every listed object is smaller
than the threshold.  Scenario: `t = 2` gives threshold 4; with capacity 100 the
4-byte X is rejected and the 3-byte Y is admitted. -/
theorem C10_thlru_threshold (c : ThLRUCache) (req : SimpleRequest)
    (h : c._sizeThreshold ≤ req.size) :
    ThLRUCache.admitReq c req = some c ∧
    (∀ cs t ops, ∃ r, ThLRUCache.run (emptyWith cs t) ops = some r ∧ r._sizeThreshold = t ∧
      ∀ o, o ∈ r.objs → o.size < t) ∧
    (setPar (empty 100) "t" 2 = some (emptyWith 100 4) ∧
      ThLRUCache.admitReq (emptyWith 100 4) (SimpleRequest.mk 1 4) = some (emptyWith 100 4) ∧
      ((ThLRUCache.admitReq (emptyWith 100 4) (SimpleRequest.mk 2 3)).map (fun r => r.objs))
        = some [CacheObject.mk 2 3]) := by
  refine ⟨?_, ?_, by decide, by decide, by decide⟩
  · unfold ThLRUCache.admitReq
    rw [if_neg (by omega)]
  · intro cs t ops
    obtain ⟨r, hr, ht, hb⟩ := @run_below (emptyWith cs t) (LRUCache.inv_empty cs)
      (by intro n hn; simp [emptyWith, LRUCache.empty] at hn) ops
    have ht1 : r._sizeThreshold = t := ht
    refine ⟨r, hr, ht1, ?_⟩
    intro o ho
    obtain ⟨n, hn, hno⟩ := List.mem_map.mp ho
    rw [← hno, ← ht1]
    exact hb n hn

/-- Witness of C10: threshold 4, the 4-byte X is refused. -/
theorem C10_thlru_threshold_witness :
    (emptyWith 100 4)._sizeThreshold ≤ (SimpleRequest.mk 1 4).size ∧
      ThLRUCache.admitReq (emptyWith 100 4) (SimpleRequest.mk 1 4) = some (emptyWith 100 4) :=
  ⟨by decide, (C10_thlru_threshold (emptyWith 100 4) (SimpleRequest.mk 1 4) (by decide)).1⟩

end ThLRUCache

end WebCacheSim

namespace WebCacheSim

/-! ### S4LRU: the scenario -/

namespace S4LRUCache

/-- C13, as stated, fails: with `setSize(8)` segment 0 holds 2 bytes, so after
admitting the unit-size objects a, b, c, d (ids 1 to 4) only d and c are listed in
segment 0, and the lookup of a returns false. -/
theorem C13_counterexample :
    (run (setSize init 8)
        [LRUCache.Op.admitReq (SimpleRequest.mk 1 1), LRUCache.Op.admitReq (SimpleRequest.mk 2 1),
          LRUCache.Op.admitReq (SimpleRequest.mk 3 1),
          LRUCache.Op.admitReq (SimpleRequest.mk 4 1)]).map view
      = Except.ok [[CacheObject.mk 4 1, CacheObject.mk 3 1], [], [], []] ∧
    ((run (setSize init 8)
        [LRUCache.Op.admitReq (SimpleRequest.mk 1 1), LRUCache.Op.admitReq (SimpleRequest.mk 2 1),
          LRUCache.Op.admitReq (SimpleRequest.mk 3 1),
          LRUCache.Op.admitReq (SimpleRequest.mk 4 1)]).bind
        (fun s => lookup s (SimpleRequest.mk 1 1))).map (fun r => (view r.1, r.2))
      = Except.ok ([[CacheObject.mk 4 1, CacheObject.mk 3 1], [], [], []], false) := by
  constructor <;> decide

/-- C13 (amended): with `setSize(8)`, after admitting the unit-size objects a, b, c,
d (ids 1 to 4) only c and d are resident, in segment 0, and a lookup of a returns
false and changes nothing; a first lookup of d returns true and places d in segment
1, a second places it in segment 2, a third in segment 3. -/
theorem C13_scenario_promotes_resident_object :
    (List.range 4).map (fun i => (setSize init 8 i)._cacheSize) = [2, 2, 2, 2] ∧
    (run (setSize init 8)
        [LRUCache.Op.admitReq (SimpleRequest.mk 1 1), LRUCache.Op.admitReq (SimpleRequest.mk 2 1),
          LRUCache.Op.admitReq (SimpleRequest.mk 3 1),
          LRUCache.Op.admitReq (SimpleRequest.mk 4 1)]).map view
      = Except.ok [[CacheObject.mk 4 1, CacheObject.mk 3 1], [], [], []] ∧
    ((run (setSize init 8)
        [LRUCache.Op.admitReq (SimpleRequest.mk 1 1), LRUCache.Op.admitReq (SimpleRequest.mk 2 1),
          LRUCache.Op.admitReq (SimpleRequest.mk 3 1),
          LRUCache.Op.admitReq (SimpleRequest.mk 4 1)]).bind
        (fun s => lookup s (SimpleRequest.mk 1 1))).map (fun r => (view r.1, r.2))
      = Except.ok ([[CacheObject.mk 4 1, CacheObject.mk 3 1], [], [], []], false) ∧
    ((run (setSize init 8)
        [LRUCache.Op.admitReq (SimpleRequest.mk 1 1), LRUCache.Op.admitReq (SimpleRequest.mk 2 1),
          LRUCache.Op.admitReq (SimpleRequest.mk 3 1),
          LRUCache.Op.admitReq (SimpleRequest.mk 4 1)]).bind
        (fun s => lookup s (SimpleRequest.mk 4 1))).map (fun r => (view r.1, r.2))
      = Except.ok ([[CacheObject.mk 3 1], [CacheObject.mk 4 1], [], []], true) ∧
    ((run (setSize init 8)
        [LRUCache.Op.admitReq (SimpleRequest.mk 1 1), LRUCache.Op.admitReq (SimpleRequest.mk 2 1),
          LRUCache.Op.admitReq (SimpleRequest.mk 3 1),
          LRUCache.Op.admitReq (SimpleRequest.mk 4 1),
          LRUCache.Op.lookup (SimpleRequest.mk 4 1)]).bind
        (fun s => lookup s (SimpleRequest.mk 4 1))).map (fun r => (view r.1, r.2))
      = Except.ok ([[CacheObject.mk 3 1], [], [CacheObject.mk 4 1], []], true) ∧
    ((run (setSize init 8)
        [LRUCache.Op.admitReq (SimpleRequest.mk 1 1), LRUCache.Op.admitReq (SimpleRequest.mk 2 1),
          LRUCache.Op.admitReq (SimpleRequest.mk 3 1),
          LRUCache.Op.admitReq (SimpleRequest.mk 4 1),
          LRUCache.Op.lookup (SimpleRequest.mk 4 1),
          LRUCache.Op.lookup (SimpleRequest.mk 4 1)]).bind
        (fun s => lookup s (SimpleRequest.mk 4 1))).map (fun r => (view r.1, r.2))
      = Except.ok ([[CacheObject.mk 3 1], [], [], [CacheObject.mk 4 1]], true) := by
  refine ⟨by decide, by decide, by decide, by decide, by decide, by decide⟩

end S4LRUCache

/-! ### TinyLFU: the candidate's id is cut to `int` -/

namespace TinyLFU

/-- When the tail's estimate is not below the estimate of the candidate id as the
code passes it (cut to `int`), `TinyLFU::admit` changes nothing. -/
theorem admit_colder_unchanged {σ : Type} (cm : CountMin σ) (c : TinyLFU σ)
    (req : SimpleRequest) (tail : Node) (htail : c._cacheList.getLast? = some tail)
    (hsize : req.size ≤ c._cacheSize) (hfull : c._currentSize + req.size > c._cacheSize)
    (hest : cm.pointEst c.cm_sketch (toInt32 req.id) ≤ cm.pointEst c.cm_sketch (toInt64 tail.obj.id)) :
    admitReq cm c req = some c := by
  have hev : evict_return cm c (toInt32 req.id) = (c, none) := by
    unfold evict_return
    rw [htail]
    simp only
    rw [if_neg (by omega)]
  have hloop : admitLoop cm req.size (toInt32 req.id) (c._cacheList.length + 1) c
      = some (c, false) := by
    show (if c._currentSize + req.size > c._cacheSize then
        if (evict cm c (toInt32 req.id)).2 then
          admitLoop cm req.size (toInt32 req.id) c._cacheList.length (evict cm c (toInt32 req.id)).1
        else some ((evict cm c (toInt32 req.id)).1, false)
      else some (c, true)) = some (c, false)
    rw [if_pos hfull]
    unfold evict
    rw [hev]
    simp
  unfold admitReq
  rw [if_neg (by omega), hloop]

theorem toInt32_small {x : Nat} (h : x < 2 ^ 31) : toInt32 x = (x : Int) := by
  unfold toInt32
  have h1 : x % 2 ^ 32 = x := Nat.mod_eq_of_lt (by omega)
  rw [h1, if_pos h]

/-- C16 fails on the code (the defect is the parameter `int cand_id` of
`TinyLFU::evict` and `TinyLFU::evict_return`, which cuts the 64-bit id of the
request): capacity 1, exact sketch, trace five requests for `{1,2}` (never
admitted, too large), three for `{7,1}`; then object 7 is the resident tail with
estimate 3, the request `{4294967297,1}` is not resident, fits the capacity, does
not fit beside the tail and has estimate 0, and `admit` still makes it resident,
because the estimate compared is that of id 1, which is 5. -/
theorem C16_colder_request_admitted :
    (requests exactCountMin (empty 1 [])
        [SimpleRequest.mk 1 2, SimpleRequest.mk 1 2, SimpleRequest.mk 1 2, SimpleRequest.mk 1 2,
          SimpleRequest.mk 1 2, SimpleRequest.mk 7 1, SimpleRequest.mk 7 1,
          SimpleRequest.mk 7 1]).map
        (fun c => (c.objs, c._cacheSize, c._currentSize,
          exactCountMin.pointEst c.cm_sketch 4294967297, exactCountMin.pointEst c.cm_sketch 7,
          exactCountMin.pointEst c.cm_sketch (toInt32 4294967297)))
      = some ([CacheObject.mk 7 1], 1, 1, 0, 3, 5) ∧
    ((requests exactCountMin (empty 1 [])
        [SimpleRequest.mk 1 2, SimpleRequest.mk 1 2, SimpleRequest.mk 1 2, SimpleRequest.mk 1 2,
          SimpleRequest.mk 1 2, SimpleRequest.mk 7 1, SimpleRequest.mk 7 1,
          SimpleRequest.mk 7 1]).bind
        (fun c => admitReq exactCountMin c (SimpleRequest.mk 4294967297 1))).map
        (fun c => c.objs)
      = some [CacheObject.mk 4294967297 1] := by
  constructor <;> decide

/-- C17 fails on the code (same defect as C16: `int cand_id` cuts the 64-bit id):
capacity 1, exact sketch, trace processed as lookup-then-admit-on-miss: five
requests for `{1,2}`, three for `{7,1}`, one for `{4294967297,1}`.  Before the last
request object 7 is resident; after it object 7 is gone and the request is
resident, although the estimate of id 7 is 3 and that of id 4294967297 is 1. -/
theorem C17_hotter_object_displaced :
    (requests exactCountMin (empty 1 [])
        [SimpleRequest.mk 1 2, SimpleRequest.mk 1 2, SimpleRequest.mk 1 2, SimpleRequest.mk 1 2,
          SimpleRequest.mk 1 2, SimpleRequest.mk 7 1, SimpleRequest.mk 7 1,
          SimpleRequest.mk 7 1]).map (fun c => c.objs)
      = some [CacheObject.mk 7 1] ∧
    (requests exactCountMin (empty 1 [])
        [SimpleRequest.mk 1 2, SimpleRequest.mk 1 2, SimpleRequest.mk 1 2, SimpleRequest.mk 1 2,
          SimpleRequest.mk 1 2, SimpleRequest.mk 7 1, SimpleRequest.mk 7 1,
          SimpleRequest.mk 7 1, SimpleRequest.mk 4294967297 1]).map
        (fun c => (c.objs, exactCountMin.pointEst c.cm_sketch 7,
          exactCountMin.pointEst c.cm_sketch 4294967297))
      = some ([CacheObject.mk 4294967297 1], 3, 1) := by
  constructor <;> decide

end TinyLFU

end WebCacheSim

namespace WebCacheSim

/-! ### Binary64: values of the sample runs -/

namespace Double

/-- A positive `x` rounds to `m * 2^e` when it lies in the binade of spacing `2^e`
and is less than half a spacing away from `m * 2^e`. -/
theorem round_eq {x : ℚ} (m : ℕ) (e : ℤ)
    (hlo : (2 : ℚ) ^ (e + 52) ≤ x) (hhi : x < (2 : ℚ) ^ (e + 53))
    (h1 : ((m : ℚ) - 1 / 2) * 2 ^ e < x) (h2 : x < ((m : ℚ) + 1 / 2) * 2 ^ e) :
    round x = (m : ℚ) * 2 ^ e := by
  have hpos : (0 : ℚ) < x := lt_of_lt_of_le (zpow_pos (by norm_num) _) hlo
  have habs : |x| = x := abs_of_pos hpos
  have hlog : Int.log 2 x = e + 52 := by
    apply le_antisymm
    · have : Int.log 2 x < e + 53 := by
        rw [← Int.lt_zpow_iff_log_lt (by norm_num) hpos]
        exact_mod_cast hhi
      omega
    · rw [← Int.zpow_le_iff_le_log (by norm_num) hpos]
      exact_mod_cast hlo
  have he : (0 : ℚ) < 2 ^ e := zpow_pos (by norm_num) _
  unfold round
  rw [if_neg (ne_of_gt hpos), if_neg (not_lt.mpr (le_of_lt hpos)), habs, hlog]
  have hsub : e + 52 - 52 = e := by omega
  rw [hsub, one_mul]
  congr 1
  have hs1 : (m : ℚ) - 1 / 2 < x / 2 ^ e := by
    rw [lt_div_iff₀ he]; exact h1
  have hs2 : x / 2 ^ e < (m : ℚ) + 1 / 2 := by
    rw [div_lt_iff₀ he]; exact h2
  generalize x / 2 ^ e = s at hs1 hs2
  unfold roundEven
  by_cases hge : (m : ℚ) ≤ s
  · have hf : ⌊s⌋ = (m : ℤ) := by
      rw [Int.floor_eq_iff]
      constructor
      · exact_mod_cast hge
      · push_cast; linarith
    rw [hf, if_pos (by push_cast; linarith)]
    simp
  · have hf : ⌊s⌋ = (m : ℤ) - 1 := by
      rw [Int.floor_eq_iff]
      constructor
      · push_cast; linarith
      · push_cast; linarith
    rw [hf, if_neg (by push_cast; linarith), if_pos (by push_cast; linarith)]
    push_cast
    ring

theorem round_zero : round 0 = 0 := by
  unfold round
  rw [if_pos rfl]

theorem round_one : round 1 = 1 := by
  rw [@round_eq 1 (2 ^ 52) (-52) (by norm_num) (by norm_num) (by norm_num) (by norm_num)]
  norm_num

theorem round_fifty : round 50 = 50 := by
  rw [@round_eq 50 (25 * 2 ^ 48) (-47) (by norm_num) (by norm_num) (by norm_num) (by norm_num)]
  norm_num

theorem round_eighty : round 80 = 80 := by
  rw [@round_eq 80 (5 * 2 ^ 50) (-46) (by norm_num) (by norm_num) (by norm_num) (by norm_num)]
  norm_num

theorem round_hundred : round 100 = 100 := by
  rw [@round_eq 100 (25 * 2 ^ 48) (-46) (by norm_num) (by norm_num) (by norm_num) (by norm_num)]
  norm_num

/-- The double `50.0/100` is exactly one half. -/
theorem div_fifty_hundred : div 50 100 = 1 / 2 := by
  unfold div
  rw [@round_eq (50 / 100) (2 ^ 52) (-53) (by norm_num) (by norm_num) (by norm_num)
    (by norm_num)]
  norm_num

/-- The double `80.0/100` is `7205759403792794 / 2^53`, a little above 4/5. -/
theorem div_eighty_hundred : div 80 100 = 7205759403792794 / 2 ^ 53 := by
  unfold div
  rw [@round_eq (80 / 100) 7205759403792794 (-53) (by norm_num) (by norm_num) (by norm_num)
    (by norm_num)]
  norm_num

/-- The double `1 - 80.0/100` is `7205759403792792 / 2^55`, a little below 1/5. -/
theorem sub_one_eighty : sub 1 (7205759403792794 / 2 ^ 53) = 7205759403792792 / 2 ^ 55 := by
  unfold sub
  rw [@round_eq (1 - 7205759403792794 / 2 ^ 53) 7205759403792792 (-55) (by norm_num)
    (by norm_num) (by norm_num) (by norm_num)]
  norm_num

/-- The double `100 * (80.0/100)` is 80. -/
theorem mul_hundred_eighty : mul 100 (7205759403792794 / 2 ^ 53) = 80 := by
  unfold mul
  rw [@round_eq (100 * (7205759403792794 / 2 ^ 53)) (5 * 2 ^ 50) (-46) (by norm_num)
    (by norm_num) (by norm_num) (by norm_num)]
  norm_num

/-- The double `100 * (1 - 80.0/100)` is `5629499534213119 / 2^48`, below 20. -/
theorem mul_hundred_fifth :
    mul 100 (7205759403792792 / 2 ^ 55) = 5629499534213119 / 2 ^ 48 := by
  unfold mul
  rw [@round_eq (100 * (7205759403792792 / 2 ^ 55)) 5629499534213119 (-48) (by norm_num)
    (by norm_num) (by norm_num) (by norm_num)]
  norm_num

theorem round_neg (x : ℚ) : round (-x) = -round x := by
  unfold round
  by_cases h0 : x = 0
  · rw [if_pos h0, if_pos (by rw [h0]; norm_num)]; norm_num
  · rw [if_neg h0, if_neg (by simpa using h0), abs_neg]
    rcases lt_or_gt_of_ne h0 with hlt | hgt
    · rw [if_pos hlt, if_neg (show ¬ -x < 0 by linarith)]; ring
    · rw [if_pos (show -x < 0 by linarith), if_neg (show ¬ x < 0 by linarith)]; ring

theorem round_five : round 5 = 5 := by
  rw [@round_eq 5 (5 * 2 ^ 50) (-50) (by norm_num) (by norm_num) (by norm_num) (by norm_num)]
  norm_num

theorem round_seven : round 7 = 7 := by
  rw [@round_eq 7 (7 * 2 ^ 50) (-50) (by norm_num) (by norm_num) (by norm_num) (by norm_num)]
  norm_num

/-- The literal `0.2` is `7205759403792794 / 2^55`, a little above 1/5. -/
theorem round_fifth : round (2 / 10) = 7205759403792794 / 2 ^ 55 := by
  rw [@round_eq (2 / 10) 7205759403792794 (-55) (by norm_num) (by norm_num) (by norm_num)
    (by norm_num)]
  norm_num

/-- The literal `0.8` is `7205759403792794 / 2^53`, a little above 4/5. -/
theorem round_four_fifths : round (8 / 10) = 7205759403792794 / 2 ^ 53 := by
  rw [@round_eq (8 / 10) 7205759403792794 (-53) (by norm_num) (by norm_num) (by norm_num)
    (by norm_num)]
  norm_num

theorem mul_seven_fifth : mul 7 (7205759403792794 / 2 ^ 55) = 6305039478318695 / 2 ^ 52 := by
  unfold mul
  rw [@round_eq (7 * (7205759403792794 / 2 ^ 55)) 6305039478318695 (-52) (by norm_num)
    (by norm_num) (by norm_num) (by norm_num)]
  norm_num

theorem mul_seven_four_fifths :
    mul 7 (7205759403792794 / 2 ^ 53) = 6305039478318695 / 2 ^ 50 := by
  unfold mul
  rw [@round_eq (7 * (7205759403792794 / 2 ^ 53)) 6305039478318695 (-50) (by norm_num)
    (by norm_num) (by norm_num) (by norm_num)]
  norm_num

theorem sub_seven : sub 7 (6305039478318695 / 2 ^ 52) = 6305039478318694 / 2 ^ 50 := by
  unfold sub
  rw [@round_eq (7 - 6305039478318695 / 2 ^ 52) 6305039478318694 (-50) (by norm_num)
    (by norm_num) (by norm_num) (by norm_num)]
  norm_num

theorem sub_five : sub 5 (6305039478318695 / 2 ^ 50) = -(5404319552844600 / 2 ^ 53) := by
  unfold sub
  have h : (5 : ℚ) - 6305039478318695 / 2 ^ 50 = -(6305039478318695 / 2 ^ 50 - 5) := by ring
  rw [h, round_neg,
    @round_eq (6305039478318695 / 2 ^ 50 - 5) 5404319552844600 (-53) (by norm_num)
      (by norm_num) (by norm_num) (by norm_num)]
  norm_num

end Double


/-! ### SLRU: the split of the capacity -/

namespace SLRUCache

theorem setSize_cacheSize {σ δ : Type} (m : SLRUCache σ δ) (cs : Nat) :
    (setSize m cs)._cacheSize = cs :=
  rfl

/-- The doubles of `setSize(7)`: `7*0.2` is a little above 1.4, `7 - 7*0.2` a little
below 5.6 (so `total` becomes 5), `7*0.8` a little above 5.6 and `5 - 7*0.8` is
negative (so `total` becomes 0 and the remainder branch is not taken). -/
theorem setSize_seven {σ δ : Type} (m : SLRUCache σ δ) :
    ((setSize m 7).segments 0)._cacheSize = 1 ∧ ((setSize m 7).segments 1)._cacheSize = 5 := by
  have h7 : Double.ofU64 7 = 7 := by
    unfold Double.ofU64
    rw [Nat.cast_ofNat, Double.round_seven]
  have h5 : Double.ofU64 5 = 5 := by
    unfold Double.ofU64
    rw [Nat.cast_ofNat, Double.round_five]
  have hf1 : Double.toU64 ((⌊(6305039478318695 / 2 ^ 52 : ℚ)⌋ : Int) : ℚ) = 1 := by
    have : ⌊(6305039478318695 / 2 ^ 52 : ℚ)⌋ = 1 := by
      rw [Int.floor_eq_iff]; constructor <;> norm_num
    rw [this]
    unfold Double.toU64
    norm_num
  have hf5 : Double.toU64 ((⌊(6305039478318695 / 2 ^ 50 : ℚ)⌋ : Int) : ℚ) = 5 := by
    have : ⌊(6305039478318695 / 2 ^ 50 : ℚ)⌋ = 5 := by
      rw [Int.floor_eq_iff]; constructor <;> norm_num
    rw [this]
    unfold Double.toU64
    norm_num
  have ht1 : Double.toU64 (6305039478318694 / 2 ^ 50 : ℚ) = 5 := by
    unfold Double.toU64
    rw [Nat.floor_eq_iff (by norm_num)]
    constructor <;> norm_num
  have ht2 : Double.toU64 (-(5404319552844600 / 2 ^ 53) : ℚ) = 0 := by
    unfold Double.toU64
    exact Nat.floor_of_nonpos (by norm_num)
  unfold setSize
  simp only [h7, Double.round_fifth, Double.round_four_fifths, Double.mul_seven_fifth,
    Double.mul_seven_four_fifths, Double.sub_seven, hf1, hf5, ht1, h5, Double.sub_five, ht2,
    lt_self_iff_false, if_false]
  constructor
  · rw [Function.update_noteq (by decide), Function.update_same]; rfl
  · rw [Function.update_same]; rfl

/-- C18 fails on the code: `total -= cs*0.2` and `total -= cs*0.8` subtract the
unrounded shares, so `total` is 0 at `if(total>0)` and the remainder is lost.  For
`cs = 7` segment 0 gets `⌊1.4⌋ = 1` and segment 1 gets `⌊5.6⌋ = 5`, which sum to 6,
whereas the claim gives segment 0 the capacity `1 + (7 - 1 - 5) = 2`. -/
theorem C18_remainder_lost_at_7 {σ δ : Type} (m : SLRUCache σ δ) :
    ((setSize m 7).segments 0)._cacheSize = 1 ∧
      ((setSize m 7).segments 1)._cacheSize = 5 ∧
      ((setSize m 7).segments 0)._cacheSize + ((setSize m 7).segments 1)._cacheSize ≠ 7 := by
  obtain ⟨h0, h1⟩ := setSize_seven m
  rw [h0, h1]
  decide

end SLRUCache

/-! ### W-TinyLFU: the door-keeper gate -/

namespace W_TinyLFU

/-- C20: in any state, when the door-keeper's estimate of the request's id is 0,
`W_TinyLFU::admit` returns the state with the door-keeper updated for that id and
nothing else changed: window, both segments of the main cache, sketch, sizes and
counters are the same. -/
theorem C20_first_appearance_only_remembered {σ δ : Type} (cm : CountMin σ)
    (door : DoorKeeper δ) (c : W_TinyLFU σ δ) (req : SimpleRequest)
    (h : door.pointEst c.main_cache.dk (toInt64 req.id) = 0) :
    ∃ c1, admitReq cm door c req = Except.ok c1 ∧
      c1.window = c.window ∧
      c1.main_cache.segments = c.main_cache.segments ∧
      c1.main_cache.dk = door.update c.main_cache.dk (toInt64 req.id) ∧
      c1.main_cache.cm_sketch = c.main_cache.cm_sketch ∧
      c1.main_cache._cacheSize = c.main_cache._cacheSize ∧
      c1.main_cache._currentSize = c.main_cache._currentSize ∧
      c1._cacheSize = c._cacheSize ∧ c1.window_size_p = c.window_size_p ∧
      c1.reqs = c.reqs ∧ c1.hits = c.hits ∧ c1.prev_hit_ratio = c.prev_hit_ratio := by
  refine ⟨{ c with
      main_cache := SLRUCache.update_door_keeper door c.main_cache (toInt64 req.id) }, ?_,
    rfl, rfl, rfl, rfl, rfl, rfl, rfl, rfl, rfl, rfl, rfl⟩
  unfold admitReq SLRUCache.search_door_keeper
  rw [if_neg (by simp [h])]

/-- Witness of C20 on the sample state: X (id 1) has not been seen. -/
theorem C20_first_appearance_only_remembered_witness :
    exactDoorKeeper.pointEst sample.main_cache.dk (toInt64 (SimpleRequest.mk 1 4).id) = 0 ∧
      ∃ c1, admitReq exactCountMin exactDoorKeeper sample (SimpleRequest.mk 1 4) = Except.ok c1 ∧
        c1.window = sample.window ∧
        c1.main_cache.segments = sample.main_cache.segments ∧
        c1.main_cache.dk = exactDoorKeeper.update sample.main_cache.dk
          (toInt64 (SimpleRequest.mk 1 4).id) ∧
        c1.main_cache.cm_sketch = sample.main_cache.cm_sketch ∧
        c1.main_cache._cacheSize = sample.main_cache._cacheSize ∧
        c1.main_cache._currentSize = sample.main_cache._currentSize ∧
        c1._cacheSize = sample._cacheSize ∧ c1.window_size_p = sample.window_size_p ∧
        c1.reqs = sample.reqs ∧ c1.hits = sample.hits ∧
        c1.prev_hit_ratio = sample.prev_hit_ratio :=
  ⟨by decide,
    C20_first_appearance_only_remembered exactCountMin exactDoorKeeper sample
      (SimpleRequest.mk 1 4) (by decide)⟩

end W_TinyLFU

end WebCacheSim

namespace WebCacheSim

/-! ### FilterCache -/

namespace LRUCache

theorem wf_lookup_false {c : LRUCache} (hc : WF c) {req : SimpleRequest}
    (h : (lookup c req).2 = false) :
    CacheObject.ofReq req ∉ c.objs ∧ (lookup c req).1 = c := by
  have hnot : CacheObject.ofReq req ∉ c.objs := by
    intro hmem
    obtain ⟨n, hn, hno⟩ := List.mem_map.mp hmem
    have hfind := wf_find_of_mem hc hn
    rw [hno] at hfind
    rw [lookup_hit hfind] at h
    simp at h
  exact ⟨hnot, by rw [lookup_miss (wf_find_none hc hnot)]⟩

theorem lookup_objs_subset (c : LRUCache) (req : SimpleRequest) :
    ∀ o, o ∈ (lookup c req).1.objs → o ∈ c.objs := by
  intro o ho
  obtain ⟨n, hn, hno⟩ := List.mem_map.mp ho
  exact List.mem_map.mpr ⟨n, lookup_list_subset c req n hn, hno⟩

theorem admit_objs_subset {c c1 : LRUCache} {req : SimpleRequest}
    (h : admitReq c req = some c1) :
    ∀ o, o ∈ c1.objs → o = CacheObject.ofReq req ∨ o ∈ c.objs := by
  intro o ho
  rcases admit_list h with h1 | ⟨l, hsub, hl⟩
  · rw [h1] at ho; exact Or.inr ho
  · unfold objs at ho
    rw [hl, List.map_cons] at ho
    rcases List.mem_cons.mp ho with h2 | h2
    · exact Or.inl h2
    · obtain ⟨n, hn, hno⟩ := List.mem_map.mp h2
      exact Or.inr (List.mem_map.mpr ⟨n, hsub.subset hn, hno⟩)

end LRUCache

namespace FilterCache

theorem step_count {c : FilterCache} (hc : LRUCache.Inv c.toLRUCache) (op : LRUCache.Op) :
    ∃ r, step c op = some r ∧ LRUCache.Inv r.toLRUCache ∧
      ∀ o, r._filter o = c._filter o + lookupCount o [op] := by
  cases op with
  | lookup req =>
    refine ⟨_, rfl, LRUCache.inv_lookup hc req, ?_⟩
    intro o
    show (if o = CacheObject.ofReq req then c._filter o + 1 else c._filter o) = _
    by_cases h : o = CacheObject.ofReq req
    · subst h; simp [lookupCount]
    · have h1 : ¬ CacheObject.ofReq req = o := fun e => h e.symm
      simp [lookupCount, h, h1]
  | admitReq req =>
    show ∃ r, admitReq c req = some r ∧ _
    unfold admitReq
    by_cases hle : c._filter (CacheObject.ofReq req) ≤ c._nParam
    · rw [if_pos hle]
      exact ⟨c, rfl, hc, by intro o; simp [lookupCount]⟩
    · rw [if_neg hle]
      obtain ⟨l, hl, hinv, -⟩ := LRUCache.inv_admission hc req
      rw [hl]
      exact ⟨_, rfl, hinv, by intro o; simp [lookupCount]⟩
  | evict => exact ⟨_, rfl, LRUCache.inv_evict hc, by intro o; simp [lookupCount]⟩
  | evictReq req =>
    exact ⟨_, rfl, LRUCache.inv_evictReq hc req, by intro o; simp [lookupCount]⟩

theorem lookupCount_cons (o : CacheObject) (op : LRUCache.Op) (ops : List LRUCache.Op) :
    lookupCount o (op :: ops) = lookupCount o [op] + lookupCount o ops := by
  cases op <;> simp [lookupCount]

theorem run_count {c : FilterCache} (hc : LRUCache.Inv c.toLRUCache) (ops : List LRUCache.Op) :
    ∃ r, run c ops = some r ∧ ∀ o, r._filter o = c._filter o + lookupCount o ops := by
  induction ops generalizing c with
  | nil => exact ⟨c, rfl, by intro o; simp [lookupCount]⟩
  | cons op ops ih =>
    obtain ⟨c1, h1, hi1, hf1⟩ := step_count hc op
    obtain ⟨r, h2, hf2⟩ := ih hi1
    refine ⟨r, ?_, ?_⟩
    · show (step c op).bind (fun c1 => run c1 ops) = some r
      rw [h1]; exact h2
    · intro o
      have := lookupCount_cons o op ops
      rw [hf2, hf1]; omega

theorem request_gated {c : FilterCache} (hc : Gated c) (req : SimpleRequest) :
    ∃ r, request c req = some r ∧ Gated r ∧ r._nParam = c._nParam ∧
      r._cacheSize = c._cacheSize ∧
      (∀ o, r._filter o = c._filter o + (if CacheObject.ofReq req = o then 1 else 0)) ∧
      (c._nParam ≤ c._filter (CacheObject.ofReq req) → req.size ≤ c._cacheSize →
        CacheObject.ofReq req ∈ r.objs) := by
  have hfil : ∀ o, (lookup c req).1._filter o
      = c._filter o + (if CacheObject.ofReq req = o then 1 else 0) := by
    intro o
    show (if o = CacheObject.ofReq req then c._filter o + 1 else c._filter o) = _
    by_cases h : o = CacheObject.ofReq req
    · subst h; simp
    · have h1 : ¬ CacheObject.ofReq req = o := fun e => h e.symm
      simp [h, h1]
  have hmono : ∀ o, c._filter o ≤ (lookup c req).1._filter o := by
    intro o; rw [hfil]; omega
  unfold request
  by_cases hhit : (lookup c req).2 = true
  · rw [if_pos hhit]
    have hhit1 : (LRUCache.lookup c.toLRUCache req).2 = true := hhit
    refine ⟨_, rfl, ⟨LRUCache.wf_lookup hc.wf req, ?_⟩, rfl,
      LRUCache.lookup_cacheSize c.toLRUCache req, hfil, ?_⟩
    · intro o ho hmem
      exact hc.gate o (le_trans (hmono o) ho)
        (LRUCache.lookup_objs_subset c.toLRUCache req o hmem)
    · intro _ _
      by_contra hnot
      have hsub : CacheObject.ofReq req ∉ c.objs := by
        intro hmem
        obtain ⟨n, hn, hno⟩ := List.mem_map.mp hmem
        have hfind := LRUCache.wf_find_of_mem hc.wf hn
        rw [hno] at hfind
        apply hnot
        show _ ∈ (LRUCache.lookup c.toLRUCache req).1.objs
        rw [LRUCache.lookup_hit hfind]
        obtain ⟨-, hobjs⟩ := LRUCache.wf_hit hc.wf hn
        rw [hobjs, hno]
        exact List.mem_cons_self _ _
      have hfind := LRUCache.wf_find_none hc.wf hsub
      rw [LRUCache.lookup_miss hfind] at hhit1
      simp at hhit1
  · rw [if_neg hhit]
    have hmiss : (LRUCache.lookup c.toLRUCache req).2 = false := by
      simpa using hhit
    obtain ⟨hnew, hsame⟩ := LRUCache.wf_lookup_false hc.wf hmiss
    have hlru : (lookup c req).1.toLRUCache = c.toLRUCache := hsame
    unfold admitReq
    by_cases hle : (lookup c req).1._filter (CacheObject.ofReq req) ≤ (lookup c req).1._nParam
    · rw [if_pos hle]
      refine ⟨_, rfl, ⟨by rw [hlru]; exact hc.wf, ?_⟩, rfl, by rw [hlru], hfil, ?_⟩
      · intro o ho hmem
        have hmem1 : o ∈ (lookup c req).1.toLRUCache.objs := hmem
        rw [hlru] at hmem1
        exact hc.gate o (le_trans (hmono o) ho) hmem1
      · intro hn _
        have h1 := hfil (CacheObject.ofReq req)
        simp at h1
        have h2 : (lookup c req).1._nParam = c._nParam := rfl
        omega
    · rw [if_neg hle, hlru]
      obtain ⟨l, hl, -, href⟩ := LRUCache.admit_spec hc.wf.size_eq req
      obtain ⟨hwf, hcap⟩ := LRUCache.admit_wf hc.wf hnew hl
      rw [hl]
      refine ⟨_, rfl, ⟨hwf, ?_⟩, rfl, hcap, hfil, ?_⟩
      · intro o ho hmem
        have hmem1 : o ∈ l.objs := hmem
        have ho1 : (lookup c req).1._filter o ≤ c._nParam := ho
        rcases LRUCache.admit_objs_subset hl o hmem1 with h1 | h1
        · rw [h1] at ho1
          exact hle ho1
        · exact hc.gate o (le_trans (hmono o) ho1) h1
      · intro _ hsize
        show _ ∈ l.objs
        unfold LRUCache.AdmitRef at href
        rw [if_neg (by omega)] at href
        obtain ⟨k, -, -, -, hobjs, -⟩ := href
        rw [hobjs]
        exact List.mem_cons_self _ _

theorem requestCount_append (o : CacheObject) (S : List SimpleRequest) (r : SimpleRequest) :
    requestCount o (S ++ [r]) = requestCount o S + (if CacheObject.ofReq r = o then 1 else 0) := by
  unfold requestCount
  rw [List.filter_append, List.length_append]
  by_cases h : CacheObject.ofReq r = o <;> simp [h]

theorem filter_requests_append (c : FilterCache) (l1 l2 : List SimpleRequest) :
    requests c (l1 ++ l2) = (requests c l1).bind (fun c1 => requests c1 l2) := by
  induction l1 generalizing c with
  | nil => rfl
  | cons req l1 ih =>
    show (request c req).bind (fun c1 => requests c1 (l1 ++ l2)) = _
    cases h : request c req with
    | none => simp [requests, h]
    | some c1 => simp [requests, h, ih]

theorem requests_gated {c : FilterCache} (hc : Gated c) (S : List SimpleRequest) :
    ∃ r, requests c S = some r ∧ Gated r ∧ r._nParam = c._nParam ∧
      r._cacheSize = c._cacheSize ∧
      ∀ o, r._filter o = c._filter o + requestCount o S := by
  induction S using List.reverseRecOn with
  | nil => exact ⟨c, rfl, hc, rfl, rfl, by intro o; simp [requestCount]⟩
  | append_singleton S r ih =>
    obtain ⟨c1, h1, hg1, hn1, hcap1, hf1⟩ := ih
    obtain ⟨c2, h2, hg2, hn2, hcap2, hf2, -⟩ := request_gated hg1 r
    refine ⟨c2, ?_, hg2, by rw [hn2, hn1], by rw [hcap2, hcap1], ?_⟩
    · rw [filter_requests_append, h1]
      show (request c1 r).bind (fun c => requests c []) = some c2
      rw [h2]; rfl
    · intro o
      rw [hf2, hf1, requestCount_append]; omega

theorem gated_empty (cs n : Nat) : Gated (empty cs n) :=
  ⟨LRUCache.wf_empty cs, by intro o _ hmem; simp [empty, LRUCache.empty, LRUCache.objs] at hmem⟩

/-- C11: for a `FilterCache` with parameter `n`, (1) after any sequence of calls the
filter count of an object is the number of `lookup` calls made for it; (2) `admit`
returns the state unchanged when the count is at most `n`, and otherwise is
`LRUCache::admit` on the LRU part; (3) under lookup-then-admit-on-miss an object of
size at most the capacity is not resident after any trace that requests it at most
`n` times, and is resident right after its `(n+1)`-th request. -/
theorem C11_filter_gate (cs n : Nat) :
    (∀ ops, ∃ c, run (empty cs n) ops = some c ∧ ∀ o, c._filter o = lookupCount o ops) ∧
    (∀ (c : FilterCache) (req : SimpleRequest),
      (c._filter (CacheObject.ofReq req) ≤ c._nParam → admitReq c req = some c) ∧
      (c._nParam < c._filter (CacheObject.ofReq req) →
        admitReq c req
          = (LRUCache.admitReq c.toLRUCache req).map (fun l => { c with toLRUCache := l }))) ∧
    (∀ (S : List SimpleRequest) (o : CacheObject), o.size ≤ cs →
      (∃ c, requests (empty cs n) S = some c ∧ (∀ x, c._filter x = requestCount x S) ∧
        (requestCount o S ≤ n → o ∉ c.objs)) ∧
      (∀ r, CacheObject.ofReq r = o → requestCount o S = n →
        ∃ c, requests (empty cs n) (S ++ [r]) = some c ∧ o ∈ c.objs)) := by
  refine ⟨?_, ?_, ?_⟩
  · intro ops
    obtain ⟨r, hr, hf⟩ := @run_count (empty cs n) (LRUCache.inv_empty cs) ops
    refine ⟨r, hr, ?_⟩
    intro o
    rw [hf]
    simp [empty]
  · intro c req
    constructor
    · intro h; unfold admitReq; rw [if_pos h]
    · intro h; unfold admitReq; rw [if_neg (by omega)]
  · intro S o hsize
    obtain ⟨c1, h1, hg1, hn1, hcap1, hf1⟩ := requests_gated (gated_empty cs n) S
    have hf : ∀ x, c1._filter x = requestCount x S := by
      intro x; rw [hf1]; simp [empty]
    have hn : c1._nParam = n := hn1
    have hcap : c1._cacheSize = cs := hcap1
    constructor
    · refine ⟨c1, h1, hf, ?_⟩
      intro hle
      exact hg1.gate o (by rw [hf, hn]; exact hle)
    · intro r hr hcount
      obtain ⟨c2, h2, -, -, -, -, hin⟩ := request_gated hg1 r
      refine ⟨c2, ?_, ?_⟩
      · rw [filter_requests_append, h1]
        show (request c1 r).bind (fun c => requests c []) = some c2
        rw [h2]; rfl
      · rw [← hr]
        apply hin
        · rw [hr, hf, hn, hcount]
        · rw [hcap]
          have : (CacheObject.ofReq r).size = r.size := rfl
          rw [← hr] at hsize
          omega

/-- Witness of C11: capacity 10, `n = 2`, object A (id 1, 5 bytes): after the trace
A, B, A it is not resident, after one more request for A it is. -/
theorem C11_filter_gate_witness :
    (CacheObject.mk 1 5).size ≤ 10 ∧
      (∃ c, requests (empty 10 2)
          [SimpleRequest.mk 1 5, SimpleRequest.mk 2 4, SimpleRequest.mk 1 5] = some c ∧
        (∀ x, c._filter x = requestCount x
          [SimpleRequest.mk 1 5, SimpleRequest.mk 2 4, SimpleRequest.mk 1 5]) ∧
        (requestCount (CacheObject.mk 1 5)
            [SimpleRequest.mk 1 5, SimpleRequest.mk 2 4, SimpleRequest.mk 1 5] ≤ 2 →
          CacheObject.mk 1 5 ∉ c.objs)) ∧
      ∃ c, requests (empty 10 2)
          ([SimpleRequest.mk 1 5, SimpleRequest.mk 2 4, SimpleRequest.mk 1 5]
            ++ [SimpleRequest.mk 1 5]) = some c ∧
        CacheObject.mk 1 5 ∈ c.objs :=
  ⟨by decide,
    ((C11_filter_gate 10 2).2.2
      [SimpleRequest.mk 1 5, SimpleRequest.mk 2 4, SimpleRequest.mk 1 5]
      (CacheObject.mk 1 5) (by decide)).1,
    ((C11_filter_gate 10 2).2.2
      [SimpleRequest.mk 1 5, SimpleRequest.mk 2 4, SimpleRequest.mk 1 5]
      (CacheObject.mk 1 5) (by decide)).2 (SimpleRequest.mk 1 5) rfl (by decide)⟩

end FilterCache

end WebCacheSim

namespace WebCacheSim

/-! ### SLRU: admission from the window -/

namespace LRUCache

theorem ofReq_toReq (o : CacheObject) : CacheObject.ofReq o.toReq = o := rfl

theorem take_sizes_le (l : List Node) (i : Nat) :
    ((l.take i).map (fun n => n.obj.size)).sum ≤ (l.map (fun n => n.obj.size)).sum := by
  have h := List.take_append_drop i l
  conv_rhs => rw [← h]
  rw [List.map_append, List.sum_append]
  omega

/-- Admission of a request that fits without eviction. -/
theorem admit_fits {c : LRUCache} {req : SimpleRequest}
    (hfit : c._currentSize + req.size ≤ c._cacheSize) :
    admitReq c req = some (pushFront c req) := by
  unfold admitReq admitFuel
  rw [if_neg (by omega), evictLoop_succ, if_neg (by omega)]
  rfl

end LRUCache

namespace SLRUCache

open LRUCache

theorem preEvict_succ (size fuel : Nat) (c : LRUCache) (prev : Option SimpleRequest) :
    preEvict size (fuel + 1) c prev =
      if c._currentSize + size > c._cacheSize then
        match (LRUCache.evict_return c).2 with
        | some v => preEvict size fuel (LRUCache.evict_return c).1 (some v)
        | none => some ((LRUCache.evict_return c).1, prev)
      else some (c, prev) :=
  rfl

/-- On a state whose `_currentSize` is the sum of the listed sizes, the first loop of
`admit_from_window` removes the least number `k` of tail nodes that makes room, as
the loop of `LRUCache::admit` does, and `prevEvicted` is the last node removed. -/
theorem preEvict_spec {fuel : Nat} {c : LRUCache} {size : Nat}
    (hsz : c._currentSize = c.listSize) (hs : size ≤ c._cacheSize)
    (hf : c._cacheList.length < fuel) (prev : Option SimpleRequest) :
    ∃ k r p, preEvict size fuel c prev = some (r, p) ∧ evictLoop fuel c size = some r ∧
      k ≤ c._cacheList.length ∧
      r._cacheList = c._cacheList.take (c._cacheList.length - k) ∧
      r._currentSize = r.listSize ∧
      r._currentSize + size ≤ r._cacheSize ∧
      (k = 0 → p = prev ∧ c._currentSize + size ≤ c._cacheSize) ∧
      (0 < k → c._cacheSize < c._currentSize + size ∧
        ∃ x, c._cacheList.get? (c._cacheList.length - k) = some x ∧ p = some x.obj.toReq ∧
          c._cacheSize <
            ((c._cacheList.take (c._cacheList.length - k)).map (fun n => n.obj.size)).sum
              + x.obj.size + size) := by
  induction fuel generalizing c prev with
  | zero => omega
  | succ f ih =>
    rw [preEvict_succ, evictLoop_succ]
    by_cases hgt : c._currentSize + size > c._cacheSize
    · rw [if_pos hgt, if_pos hgt]
      rcases nil_or_snoc c._cacheList with hnil | ⟨init, x, hl⟩
      · have : c.listSize = 0 := by simp [listSize, hnil]
        omega
      · have her := evict_return_concat hl
        have hev : evict c = (LRUCache.evict_return c).1 := rfl
        have hsum := listSize_concat hl
        have hlen : c._cacheList.length = init.length + 1 := by rw [hl]; simp
        have hlist : (evict c)._cacheList = init := by rw [hev, her]
        have h1 : (evict c)._currentSize = (evict c).listSize := by
          rw [hev, her]; show c._currentSize - x.obj.size = (init.map (fun n => n.obj.size)).sum
          omega
        have h2 : size ≤ (evict c)._cacheSize := by rw [evict_cacheSize]; exact hs
        have h3 : (evict c)._cacheList.length < f := by rw [hlist]; omega
        obtain ⟨k, r, p, hp, hr, hk, hrl, hrs, hfit, hk0, hkpos⟩ := ih h1 h2 h3 (some x.obj.toReq)
        rw [hlist] at hk hrl hkpos
        rw [evict_cacheSize] at hkpos
        have h2nd : (LRUCache.evict_return c).2 = some x.obj.toReq := by rw [her]
        rw [h2nd]
        simp only
        rw [← hev]
        refine ⟨k + 1, r, p, hp, hr, by omega, ?_, hrs, hfit, by omega, ?_⟩
        · rw [hrl, hl]
          have : (init ++ [x]).length - (k + 1) = init.length - k := by simp
          rw [this, List.take_append_of_le_length (by omega)]
        · intro _
          refine ⟨by omega, ?_⟩
          have hidx : c._cacheList.length - (k + 1) = init.length - k := by omega
          rw [hidx]
          by_cases hkz : k = 0
          · obtain ⟨hpz, hfitz⟩ := hk0 hkz
            subst hkz
            refine ⟨x, ?_, hpz, ?_⟩
            · rw [hl]; simp
            · rw [hl]
              simp only [Nat.sub_zero]
              rw [List.take_append_of_le_length (le_refl _), List.take_length]
              have := hsz
              omega
          · obtain ⟨hgt1, y, hy, hpy, hmin⟩ := hkpos (by omega)
            have hlt : init.length - k < init.length := by
              have := (List.get?_eq_some.mp hy).1
              exact this
            refine ⟨y, ?_, hpy, ?_⟩
            · rw [hl, List.get?_eq_getElem?, List.getElem?_append_left hlt, ← List.get?_eq_getElem?]; exact hy
            · rw [hl, List.take_append_of_le_length (by omega)]
              exact hmin
    · rw [if_neg hgt, if_neg hgt]
      exact ⟨0, c, prev, rfl, rfl, by omega, by simp, hsz, by omega,
        fun _ => ⟨rfl, by omega⟩, by omega⟩

end SLRUCache

end WebCacheSim

namespace WebCacheSim

/-! ### Segmented caches: invariants of arbitrary call sequences -/

namespace LRUCache

theorem lookup_false_fst {c : LRUCache} {req : SimpleRequest} (h : (lookup c req).2 = false) :
    (lookup c req).1 = c := by
  cases hf : mapFind c._cacheMap (CacheObject.ofReq req) with
  | none => rw [lookup_miss hf]
  | some lit => rw [lookup_hit hf] at h; simp at h

theorem admit_currentSize_le {c c1 : LRUCache} (hsz : c._currentSize = c.listSize)
    {req : SimpleRequest} (h : admitReq c req = some c1) :
    c1._currentSize ≤ c._currentSize + req.size := by
  obtain ⟨c2, h2, -, href⟩ := admit_spec hsz req
  rw [h] at h2
  simp at h2
  subst h2
  unfold AdmitRef at href
  by_cases hov : req.size > c._cacheSize
  · rw [if_pos hov] at href
    omega
  · rw [if_neg hov] at href
    obtain ⟨k, -, -, -, -, hcs⟩ := href
    rw [hcs, sizes_take]
    have := take_sizes_le c._cacheList (c.objs.length - k)
    unfold listSize at hsz
    omega

/-- After a hit, `evict(req)` takes exactly the request's size off. -/
theorem evictReq_after_hit {c : LRUCache} (hc : Inv c) {req : SimpleRequest}
    (h : (lookup c req).2 = true) :
    (evictReq (lookup c req).1 req)._currentSize + req.size = c._currentSize := by
  cases hf : mapFind c._cacheMap (CacheObject.ofReq req) with
  | none => rw [lookup_miss hf] at h; simp at h
  | some lit =>
    have hinv := inv_lookup hc req
    have hmap : (lookup c req).1._cacheMap = c._cacheMap := lookup_cacheMap c req
    have hcs : (lookup c req).1._currentSize = c._currentSize := lookup_currentSize c req
    have hf1 : mapFind (lookup c req).1._cacheMap (CacheObject.ofReq req) = some lit := by
      rw [hmap]; exact hf
    have hn := hinv.map_live _ (mapFind_some hf1)
    have hp := listErase_perm hinv.pos_nodup hn
    have hsum := sum_sizes_perm hp
    simp only [List.map_cons, List.sum_cons] at hsum
    have hsz := hinv.size_eq
    unfold listSize at hsz
    have hge : req.size ≤ (lookup c req).1._currentSize := by
      have : (CacheObject.ofReq req).size = req.size := rfl
      omega
    unfold evictReq
    rw [hf1]
    show (lookup c req).1._currentSize - (CacheObject.ofReq req).size + req.size = _
    have : (CacheObject.ofReq req).size = req.size := rfl
    omega

end LRUCache

namespace Segments

open LRUCache

theorem totalSize_succ (s : Segments) (k : Nat) :
    totalSize s (k + 1) = totalSize s k + (s k)._currentSize := by
  unfold totalSize
  rw [List.range_succ, List.map_append, List.sum_append]
  simp

theorem totalSize_congr {s t : Segments} (k : Nat) (h : ∀ i, i < k → t i = s i) :
    totalSize t k = totalSize s k := by
  induction k with
  | zero => rfl
  | succ n ih =>
    rw [totalSize_succ, totalSize_succ, ih (fun i hi => h i (by omega)), h n (by omega)]

theorem totalSize_extend {s t : Segments} {j x : Nat}
    (h : totalSize t (j + 1) ≤ totalSize s (j + 1) + x) (hframe : ∀ k, j < k → t k = s k)
    (n : Nat) (hn : j + 1 ≤ n) : totalSize t n ≤ totalSize s n + x := by
  induction n, hn using Nat.le_induction with
  | base => exact h
  | succ m hm ih =>
    rw [totalSize_succ, totalSize_succ, hframe m (by omega)]
    omega

theorem allInv_update {s : Segments} (hs : AllInv s) (j : Nat) {c : LRUCache} (hc : Inv c) :
    AllInv (Function.update s j c) := by
  intro k
  by_cases h : k = j
  · subst h; rw [Function.update_same]; exact hc
  · rw [Function.update_noteq h]; exact hs k

theorem admitAt_inv {s : Segments} (hs : AllInv s) (j : Nat) (req : SimpleRequest) :
    ∃ t, admitAt j s req = Except.ok t ∧ AllInv t ∧
      (∀ k, (t k)._cacheSize = (s k)._cacheSize) ∧ (∀ k, k ≠ j → t k = s k) ∧
      (t j)._currentSize ≤ (s j)._currentSize + req.size := by
  obtain ⟨r, hr, hinv, hcap⟩ := inv_admission (hs j) req
  refine ⟨Function.update s j r, ?_, allInv_update hs j hinv, ?_, ?_, ?_⟩
  · unfold admitAt; rw [hr]
  · intro k
    by_cases h : k = j
    · subst h; rw [Function.update_same]; exact hcap
    · rw [Function.update_noteq h]
  · intro k h; rw [Function.update_noteq h]
  · rw [Function.update_same]
    exact admit_currentSize_le (hs j).size_eq hr

theorem segment_admit_null (j : Nat) (s : Segments) :
    segment_admit j s none = Except.error Fault.nullRequest := by
  cases j <;> rfl

theorem segment_admit_succ (j : Nat) (s : Segments) (req : SimpleRequest) :
    segment_admit (j + 1) s (some req) =
      match admitLoop ( segment_admit j) (j + 1) req.size
          ((s (j + 1))._cacheList.length + 1) s with
      | Except.ok s1 => admitAt (j + 1) s1 req
      | Except.error e => Except.error e :=
  rfl

theorem admitLoop_succ (lower : Segments → Option SimpleRequest → Except Fault Segments)
    (idx size fuel : Nat) (s : Segments) :
    admitLoop lower idx size (fuel + 1) s =
      if (s idx)._currentSize + size > (s idx)._cacheSize then
        match lower (Function.update s idx (evict_return (s idx)).1) (evict_return (s idx)).2 with
        | Except.ok s1 => admitLoop lower idx size fuel s1
        | Except.error e => Except.error e
      else Except.ok s :=
  rfl

theorem admitLoop_inv {lower : Segments → Option SimpleRequest → Except Fault Segments}
    {j : Nat} (hl : LowerOk lower j) (size : Nat) :
    ∀ fuel s t, AllInv s → admitLoop lower (j + 1) size fuel s = Except.ok t →
      AllInv t ∧ (∀ k, (t k)._cacheSize = (s k)._cacheSize) ∧
        (∀ k, j + 1 < k → t k = s k) ∧ totalSize t (j + 2) ≤ totalSize s (j + 2) ∧
        (t (j + 1))._currentSize + size ≤ (t (j + 1))._cacheSize := by
  intro fuel
  induction fuel with
  | zero => intro s t _ h; simp [admitLoop] at h
  | succ f ih =>
    intro s t hs h
    rw [admitLoop_succ] at h
    by_cases hgt : (s (j + 1))._currentSize + size > (s (j + 1))._cacheSize
    · rw [if_pos hgt] at h
      cases hlow : lower (Function.update s (j + 1) (evict_return (s (j + 1))).1)
          (evict_return (s (j + 1))).2 with
      | error e => rw [hlow] at h; simp at h
      | ok s2 =>
        rw [hlow] at h
        simp only at h
        have hmid : AllInv (Function.update s (j + 1) (evict_return (s (j + 1))).1) :=
          allInv_update hs (j + 1) (inv_evict (hs (j + 1)))
        obtain ⟨v, hv, hs2, hcap2, hframe2, htot2⟩ := hl _ _ _ hmid hlow
        obtain ⟨ht, hcapt, hframet, htott, hfit⟩ := ih s2 t hs2 h
        have hseg : s2 (j + 1) = (evict_return (s (j + 1))).1 := by
          rw [hframe2 (j + 1) (by omega), Function.update_same]
        -- the victim is the tail of segment j+1
        have hvsize : (evict_return (s (j + 1))).1._currentSize + v.size
            = (s (j + 1))._currentSize := by
          rcases nil_or_snoc (s (j + 1))._cacheList with hnil | ⟨init, x, hx⟩
          · rw [evict_return_nil hnil] at hv; simp at hv
          · rw [evict_return_concat hx] at hv ⊢
            simp at hv
            have hsz := (hs (j + 1)).size_eq
            rw [listSize_concat hx] at hsz
            show (s (j + 1))._currentSize - x.obj.size + v.size = _
            have : v.size = x.obj.size := by rw [← hv]; rfl
            omega
        refine ⟨ht, ?_, ?_, ?_, hfit⟩
        · intro k
          rw [hcapt, hcap2]
          by_cases hk : k = j + 1
          · subst hk; rw [Function.update_same]; exact evict_cacheSize _
          · rw [Function.update_noteq hk]
        · intro k hk
          rw [hframet k hk, hframe2 k (by omega), Function.update_noteq (by omega)]
        · have h1 : totalSize s2 (j + 2) = totalSize s2 (j + 1) + (s2 (j + 1))._currentSize :=
            totalSize_succ s2 (j + 1)
          have h2 : totalSize s (j + 2) = totalSize s (j + 1) + (s (j + 1))._currentSize :=
            totalSize_succ s (j + 1)
          have h3 : totalSize (Function.update s (j + 1) (evict_return (s (j + 1))).1) (j + 1)
              = totalSize s (j + 1) :=
            totalSize_congr (j + 1) (fun i hi => Function.update_noteq (by omega) _ _)
          rw [hseg] at h1
          omega
    · rw [if_neg hgt] at h
      simp at h; subst h
      exact ⟨hs, fun _ => rfl, fun _ _ => rfl, le_refl _, by omega⟩

theorem segment_admit_lowerOk (j : Nat) : LowerOk ( segment_admit j) j := by
  induction j with
  | zero =>
    intro s r t hs h
    cases r with
    | none => rw [segment_admit_null] at h; simp at h
    | some req =>
      obtain ⟨t1, h1, hinv, hcap, hframe, hle⟩ := admitAt_inv hs 0 req
      have h0 : segment_admit 0 s (some req) = admitAt 0 s req := rfl
      rw [h0, h1] at h
      simp at h; subst h
      refine ⟨req, rfl, hinv, hcap, fun k hk => hframe k (by omega), ?_⟩
      rw [totalSize_succ, totalSize_succ]
      show 0 + _ ≤ 0 + _ + _
      omega
  | succ j ih =>
    intro s r t hs h
    cases r with
    | none => rw [segment_admit_null] at h; simp at h
    | some req =>
      rw [segment_admit_succ] at h
      cases hloop : admitLoop ( segment_admit j) (j + 1) req.size
          ((s (j + 1))._cacheList.length + 1) s with
      | error e => rw [hloop] at h; simp at h
      | ok s1 =>
        rw [hloop] at h
        simp only at h
        obtain ⟨hs1, hcap1, hframe1, htot1, -⟩ := admitLoop_inv ih req.size _ s s1 hs hloop
        obtain ⟨t1, h1, hinv, hcap, hframe, hle⟩ := admitAt_inv hs1 (j + 1) req
        rw [h1] at h
        simp at h; subst h
        refine ⟨req, rfl, hinv, fun k => by rw [hcap, hcap1], ?_, ?_⟩
        · intro k hk
          rw [hframe k (by omega), hframe1 k hk]
        · have e1 : totalSize t1 (j + 1 + 1) = totalSize t1 (j + 1) + (t1 (j + 1))._currentSize :=
            totalSize_succ t1 (j + 1)
          have e2 : totalSize s1 (j + 1 + 1) = totalSize s1 (j + 1) + (s1 (j + 1))._currentSize :=
            totalSize_succ s1 (j + 1)
          have e3 : totalSize t1 (j + 1) = totalSize s1 (j + 1) :=
            totalSize_congr (j + 1) (fun i hi => hframe i (by omega))
          have e4 : j + 1 + 1 = j + 2 := rfl
          rw [e4] at e1 e2 ⊢
          omega

end Segments

end WebCacheSim

namespace WebCacheSim

/-! ### S4LRU: capacities and sizes -/

namespace Segments

open LRUCache

theorem totalSize_update_add (s : Segments) (i : Nat) (c : LRUCache) (n : Nat) (hi : i < n) :
    totalSize (Function.update s i c) n + (s i)._currentSize
      = totalSize s n + c._currentSize := by
  induction n with
  | zero => omega
  | succ m ih =>
    rw [totalSize_succ, totalSize_succ]
    by_cases him : i = m
    · subst him
      rw [Function.update_same,
        @totalSize_congr s (Function.update s i c) i
          (fun k hk => Function.update_noteq (by omega) c s)]
      omega
    · rw [Function.update_noteq (fun h => him h.symm)]
      have := ih (by omega)
      omega

end Segments

namespace S4LRUCache

open LRUCache Segments

theorem setSize_init (cs i : Nat) :
    setSize init cs i
      = LRUCache.empty (if i = 0 then cs / 4 + cs % 4 else if i < 4 then cs / 4 else 0) := by
  have htotal : (List.range 4).foldl (fun (t : Nat) _ => t - cs / 4) cs = cs % 4 := by
    simp [List.range_succ]
    omega
  unfold setSize
  simp only [htotal]
  by_cases h0 : cs % 4 > 0
  · rw [if_pos h0]
    simp [List.range_succ, Function.update_apply, LRUCache.setSize, init, LRUCache.empty]
    split_ifs <;> first | rfl | omega
  · rw [if_neg h0]
    simp [List.range_succ, Function.update_apply, LRUCache.setSize, init, LRUCache.empty]
    split_ifs <;> first | rfl | omega | (congr 1; omega)

theorem allInv_setSize (cs : Nat) : AllInv (setSize init cs) := by
  intro k
  rw [setSize_init]
  exact inv_empty _

theorem lookupLoop_succ (req : SimpleRequest) (n i : Nat) (s : Segments) :
    lookupLoop req (n + 1) i s =
      if (LRUCache.lookup (s i) req).2 then
        if i < 3 then
          match segment_admit (i + 1)
              (Function.update s i (LRUCache.evictReq (LRUCache.lookup (s i) req).1 req))
              (some req) with
          | Except.ok s2 => Except.ok (s2, true)
          | Except.error e => Except.error e
        else Except.ok (Function.update s i (LRUCache.lookup (s i) req).1, true)
      else lookupLoop req n (i + 1) (Function.update s i (LRUCache.lookup (s i) req).1) :=
  rfl

theorem lookupLoop_inv (req : SimpleRequest) :
    ∀ n i s r, i + n = 4 → AllInv s → lookupLoop req n i s = Except.ok r →
      AllInv r.1 ∧ (∀ k, (r.1 k)._cacheSize = (s k)._cacheSize) ∧
        totalSize r.1 4 ≤ totalSize s 4 ∧ (r.2 = false → r.1 = s) := by
  intro n
  induction n with
  | zero =>
    intro i s r _ hs h
    simp [lookupLoop] at h
    subst h
    exact ⟨hs, fun _ => rfl, le_refl _, fun _ => rfl⟩
  | succ n ih =>
    intro i s r hin hs h
    rw [lookupLoop_succ] at h
    by_cases hhit : (LRUCache.lookup (s i) req).2 = true
    · rw [if_pos hhit] at h
      by_cases hi3 : i < 3
      · rw [if_pos hi3] at h
        cases hseg : segment_admit (i + 1)
            (Function.update s i (LRUCache.evictReq (LRUCache.lookup (s i) req).1 req))
            (some req) with
        | error e => rw [hseg] at h; simp at h
        | ok s2 =>
          rw [hseg] at h
          simp at h; subst h
          have hmid : AllInv (Function.update s i
              (LRUCache.evictReq (LRUCache.lookup (s i) req).1 req)) :=
            allInv_update hs i (inv_evictReq (inv_lookup (hs i) req) req)
          obtain ⟨rq, hrq, hs2, hcap2, hframe2, htot2⟩ := segment_admit_lowerOk (i + 1) _ _ _ hmid hseg
          simp at hrq; subst hrq
          refine ⟨hs2, ?_, ?_, by intro hf; simp at hf⟩
          · intro k
            show (s2 k)._cacheSize = _
            rw [hcap2]
            by_cases hk : k = i
            · subst hk
              rw [Function.update_same, evictReq_cacheSize, lookup_cacheSize]
            · rw [Function.update_noteq hk]
          · show totalSize s2 4 ≤ totalSize s 4
            have h4 := totalSize_extend htot2 hframe2 4 (by omega)
            have hupd := totalSize_update_add s i
              (LRUCache.evictReq (LRUCache.lookup (s i) req).1 req) 4 (by omega)
            have hev := evictReq_after_hit (hs i) hhit
            omega
      · rw [if_neg hi3] at h
        simp at h; subst h
        refine ⟨allInv_update hs i (inv_lookup (hs i) req), ?_, ?_, by intro hf; simp at hf⟩
        · intro k
          show (Function.update s i (LRUCache.lookup (s i) req).1 k)._cacheSize = _
          by_cases hk : k = i
          · subst hk; rw [Function.update_same, lookup_cacheSize]
          · rw [Function.update_noteq hk]
        · show totalSize (Function.update s i (LRUCache.lookup (s i) req).1) 4 ≤ _
          have hupd := totalSize_update_add s i (LRUCache.lookup (s i) req).1 4 (by omega)
          have := lookup_currentSize (s i) req
          omega
    · rw [if_neg hhit] at h
      have hmiss : (LRUCache.lookup (s i) req).2 = false := by simpa using hhit
      rw [lookup_false_fst hmiss, Function.update_eq_self] at h
      exact ih (i + 1) s r (by omega) hs h

theorem foldl_evictReq_inv (req : SimpleRequest) (l : List Nat) :
    ∀ s : Segments, AllInv s →
      AllInv (l.foldl (fun (t : Segments) i =>
          Function.update t i (LRUCache.evictReq (t i) req)) s) ∧
        ∀ k, ((l.foldl (fun (t : Segments) i =>
          Function.update t i (LRUCache.evictReq (t i) req)) s) k)._cacheSize
            = (s k)._cacheSize := by
  induction l with
  | nil => intro s hs; exact ⟨hs, fun _ => rfl⟩
  | cons i l ih =>
    intro s hs
    have h1 : AllInv (Function.update s i (LRUCache.evictReq (s i) req)) :=
      allInv_update hs i (inv_evictReq (hs i) req)
    obtain ⟨h2, h3⟩ := ih _ h1
    refine ⟨h2, ?_⟩
    intro k
    rw [List.foldl_cons, h3]
    by_cases hk : k = i
    · subst hk; rw [Function.update_same, evictReq_cacheSize]
    · rw [Function.update_noteq hk]

theorem step_inv {s t : Segments} (hs : AllInv s) (op : LRUCache.Op)
    (h : step s op = Except.ok t) :
    AllInv t ∧ ∀ k, (t k)._cacheSize = (s k)._cacheSize := by
  cases op with
  | lookup req =>
    have hstep : step s (LRUCache.Op.lookup req) =
        match lookup s req with
        | Except.ok r => Except.ok r.1
        | Except.error e => Except.error e := rfl
    rw [hstep] at h
    cases hl : lookup s req with
    | error e => rw [hl] at h; simp at h
    | ok r =>
      rw [hl] at h
      simp at h; subst h
      obtain ⟨h1, h2, -, -⟩ := lookupLoop_inv req 4 0 s r rfl hs hl
      exact ⟨h1, h2⟩
  | admitReq req =>
    obtain ⟨t1, h1, hinv, hcap, -, -⟩ := admitAt_inv hs 0 req
    have hstep : step s (LRUCache.Op.admitReq req) = admitAt 0 s req := rfl
    rw [hstep, h1] at h
    simp at h; subst h
    exact ⟨hinv, hcap⟩
  | evict =>
    have hstep : step s LRUCache.Op.evict
        = Except.ok (Function.update s 0 (LRUCache.evict (s 0))) := rfl
    rw [hstep] at h
    simp at h; subst h
    refine ⟨allInv_update hs 0 (inv_evict (hs 0)), ?_⟩
    intro k
    by_cases hk : k = 0
    · subst hk; rw [Function.update_same, evict_cacheSize]
    · rw [Function.update_noteq hk]
  | evictReq req =>
    have hstep : step s (LRUCache.Op.evictReq req) = Except.ok (evictReq s req) := rfl
    rw [hstep] at h
    simp at h; subst h
    exact foldl_evictReq_inv req (List.range 4) s hs

theorem run_inv {s t : Segments} (hs : AllInv s) (ops : List LRUCache.Op)
    (h : run s ops = Except.ok t) :
    AllInv t ∧ ∀ k, (t k)._cacheSize = (s k)._cacheSize := by
  induction ops generalizing s with
  | nil =>
    have : run s [] = Except.ok s := rfl
    rw [this] at h
    simp at h; subst h
    exact ⟨hs, fun _ => rfl⟩
  | cons op ops ih =>
    have hrun : run s (op :: ops) =
        match step s op with
        | Except.ok s1 => run s1 ops
        | Except.error e => Except.error e := rfl
    rw [hrun] at h
    cases hst : step s op with
    | error e => rw [hst] at h; simp at h
    | ok s1 =>
      rw [hst] at h
      simp only at h
      obtain ⟨h1, hc1⟩ := step_inv hs op hst
      obtain ⟨h2, hc2⟩ := ih h1 h
      exact ⟨h2, fun k => by rw [hc2, hc1]⟩

/-- C14: after `setSize(cs)` segments 1 to 3 have capacity `⌊cs/4⌋` and segment 0
has `⌊cs/4⌋ + (cs mod 4)`, which sum to `cs`; in every state reached by `lookup`,
`admit`, `evict()` and `evict(req)` calls the capacities are the same and each
segment's current size is at most its capacity. -/
theorem C14_segment_capacities (cs : Nat) :
    ((setSize init cs 0)._cacheSize = cs / 4 + cs % 4 ∧
      (setSize init cs 1)._cacheSize = cs / 4 ∧ (setSize init cs 2)._cacheSize = cs / 4 ∧
      (setSize init cs 3)._cacheSize = cs / 4 ∧
      (setSize init cs 0)._cacheSize + (setSize init cs 1)._cacheSize
        + (setSize init cs 2)._cacheSize + (setSize init cs 3)._cacheSize = cs) ∧
    (∀ ops s, run (setSize init cs) ops = Except.ok s →
      ∀ i, i < 4 → (s i)._cacheSize = (setSize init cs i)._cacheSize ∧
        (s i)._currentSize ≤ (s i)._cacheSize) := by
  constructor
  · simp only [setSize_init]
    simp [LRUCache.empty]
    omega
  · intro ops s h i _
    obtain ⟨hinv, hcap⟩ := run_inv (allInv_setSize cs) ops h
    exact ⟨hcap i, (hinv i).size_le⟩

/-- Witness of C14: `setSize(8)`, four admissions and a lookup. -/
theorem C14_segment_capacities_witness :
    ∃ s, run (setSize init 8)
        [LRUCache.Op.admitReq (SimpleRequest.mk 1 1), LRUCache.Op.admitReq (SimpleRequest.mk 2 1),
          LRUCache.Op.admitReq (SimpleRequest.mk 3 1), LRUCache.Op.admitReq (SimpleRequest.mk 4 1),
          LRUCache.Op.lookup (SimpleRequest.mk 4 1)] = Except.ok s ∧
      ∀ i, i < 4 → (s i)._cacheSize = (setSize init 8 i)._cacheSize ∧
        (s i)._currentSize ≤ (s i)._cacheSize := by
  cases h : run (setSize init 8)
      [LRUCache.Op.admitReq (SimpleRequest.mk 1 1), LRUCache.Op.admitReq (SimpleRequest.mk 2 1),
        LRUCache.Op.admitReq (SimpleRequest.mk 3 1), LRUCache.Op.admitReq (SimpleRequest.mk 4 1),
        LRUCache.Op.lookup (SimpleRequest.mk 4 1)] with
  | ok s => exact ⟨s, rfl, (C14_segment_capacities 8).2 _ s h⟩
  | error e =>
    have hv : (run (setSize init 8)
        [LRUCache.Op.admitReq (SimpleRequest.mk 1 1), LRUCache.Op.admitReq (SimpleRequest.mk 2 1),
          LRUCache.Op.admitReq (SimpleRequest.mk 3 1), LRUCache.Op.admitReq (SimpleRequest.mk 4 1),
          LRUCache.Op.lookup (SimpleRequest.mk 4 1)]).map view
        = Except.ok [[CacheObject.mk 3 1], [CacheObject.mk 4 1], [], []] := by decide
    rw [h] at hv
    cases hv

/-- C15, as stated, fails: with `setSize(8)`, segment 0 listing the unit-size
objects 1 and 2 and segment 1 the 2-byte object 3 (sum 4), the lookup of object 1
promotes it to segment 1, which demotes object 3 to segment 0, which evicts object
2: the sum of the segments' sizes drops to 3. -/
theorem C15_counterexample :
    (run (setSize init 8)
        [LRUCache.Op.admitReq (SimpleRequest.mk 3 2), LRUCache.Op.lookup (SimpleRequest.mk 3 2),
          LRUCache.Op.admitReq (SimpleRequest.mk 2 1),
          LRUCache.Op.admitReq (SimpleRequest.mk 1 1)]).map
        (fun s => (view s, totalSize s 4))
      = Except.ok ([[CacheObject.mk 1 1, CacheObject.mk 2 1], [CacheObject.mk 3 2], [], []], 4) ∧
    ((run (setSize init 8)
        [LRUCache.Op.admitReq (SimpleRequest.mk 3 2), LRUCache.Op.lookup (SimpleRequest.mk 3 2),
          LRUCache.Op.admitReq (SimpleRequest.mk 2 1),
          LRUCache.Op.admitReq (SimpleRequest.mk 1 1)]).bind
        (fun s => lookup s (SimpleRequest.mk 1 1))).map
        (fun r => (view r.1, totalSize r.1 4, r.2))
      = Except.ok ([[CacheObject.mk 3 2], [CacheObject.mk 1 1], [], []], 3, true) := by
  constructor <;> decide

/-- C15 (amended): in every state reached by `lookup`, `admit`, `evict()` and
`evict(req)` calls and for every request, a `lookup` that returns does not increase
the sum of the four segments' current sizes, and on a miss it leaves every segment
unchanged. -/
theorem C15_lookup_never_grows (cs : Nat) (ops : List LRUCache.Op) (s : Segments)
    (req : SimpleRequest) (r : Segments × Bool)
    (hs : run (setSize init cs) ops = Except.ok s) (hr : lookup s req = Except.ok r) :
    totalSize r.1 4 ≤ totalSize s 4 ∧ (r.2 = false → r.1 = s) := by
  obtain ⟨hinv, -⟩ := run_inv (allInv_setSize cs) ops hs
  obtain ⟨-, -, h1, h2⟩ := lookupLoop_inv req 4 0 s r rfl hinv hr
  exact ⟨h1, h2⟩

/-- Witness of C15: the state and the lookup of the counterexample; the sum drops
from 4 to 3. -/
theorem C15_lookup_never_grows_witness :
    ∃ s r, run (setSize init 8)
        [LRUCache.Op.admitReq (SimpleRequest.mk 3 2), LRUCache.Op.lookup (SimpleRequest.mk 3 2),
          LRUCache.Op.admitReq (SimpleRequest.mk 2 1),
          LRUCache.Op.admitReq (SimpleRequest.mk 1 1)] = Except.ok s ∧
      lookup s (SimpleRequest.mk 1 1) = Except.ok r ∧
      totalSize r.1 4 ≤ totalSize s 4 ∧ (r.2 = false → r.1 = s) := by
  have hv : ((run (setSize init 8)
      [LRUCache.Op.admitReq (SimpleRequest.mk 3 2), LRUCache.Op.lookup (SimpleRequest.mk 3 2),
        LRUCache.Op.admitReq (SimpleRequest.mk 2 1),
        LRUCache.Op.admitReq (SimpleRequest.mk 1 1)]).bind
      (fun s => lookup s (SimpleRequest.mk 1 1))).map (fun r => r.2) = Except.ok true := by
    decide
  cases hs : run (setSize init 8)
      [LRUCache.Op.admitReq (SimpleRequest.mk 3 2), LRUCache.Op.lookup (SimpleRequest.mk 3 2),
        LRUCache.Op.admitReq (SimpleRequest.mk 2 1),
        LRUCache.Op.admitReq (SimpleRequest.mk 1 1)] with
  | error e => rw [hs] at hv; cases hv
  | ok s =>
    rw [hs] at hv
    cases hr : lookup s (SimpleRequest.mk 1 1) with
    | error e =>
      have hb : (Except.ok s : Except Fault Segments).bind
          (fun s => lookup s (SimpleRequest.mk 1 1)) = lookup s (SimpleRequest.mk 1 1) := rfl
      rw [hb, hr] at hv
      cases hv
    | ok r => exact ⟨s, r, rfl, hr, C15_lookup_never_grows 8 _ s (SimpleRequest.mk 1 1) r hs hr⟩

end S4LRUCache

end WebCacheSim

namespace WebCacheSim

/-! ### Segmented caches: well-formed, disjoint segments -/

namespace LRUCache

theorem evictReq_objs_subset (c : LRUCache) (req : SimpleRequest) :
    ∀ o, o ∈ (evictReq c req).objs → o ∈ c.objs := by
  intro o ho
  obtain ⟨n, hn, hno⟩ := List.mem_map.mp ho
  exact List.mem_map.mpr ⟨n, (evictReq_sublist c req).subset hn, hno⟩

theorem evictReq_not_mem {c : LRUCache} (hc : WF c) (req : SimpleRequest) :
    CacheObject.ofReq req ∉ (evictReq c req).objs := by
  by_cases hmem : CacheObject.ofReq req ∈ c.objs
  · obtain ⟨n, hn, hno⟩ := List.mem_map.mp hmem
    have hfind := wf_find_of_mem hc hn
    rw [hno] at hfind
    unfold evictReq
    rw [hfind]
    show _ ∉ (listErase c._cacheList n.pos).map Node.obj
    rw [listErase_eq_erase hc.pos_nodup hn, map_obj_erase hc.obj_nodup hn, hno]
    intro h
    have := (List.mem_filter.mp h).2
    simp at this
  · intro h
    exact hmem (evictReq_objs_subset c req _ h)

theorem wf_lookup_true {c : LRUCache} (hc : WF c) {req : SimpleRequest}
    (hmem : CacheObject.ofReq req ∈ c.objs) : (lookup c req).2 = true := by
  obtain ⟨n, hn, hno⟩ := List.mem_map.mp hmem
  have hfind := wf_find_of_mem hc hn
  rw [hno] at hfind
  rw [lookup_hit hfind]

theorem wf_lookup_miss {c : LRUCache} (hc : WF c) {req : SimpleRequest}
    (hmem : CacheObject.ofReq req ∉ c.objs) : lookup c req = (c, false) :=
  lookup_miss (wf_find_none hc hmem)

theorem wf_size_le_cap {c : LRUCache} (hc : WF c) {o : CacheObject} (ho : o ∈ c.objs) :
    o.size ≤ c._cacheSize := by
  have h1 := hc.size_eq
  have h2 := hc.size_le
  rw [listSize_eq_objs] at h1
  have : o.size ≤ (c.objs.map CacheObject.size).sum :=
    List.single_le_sum (fun _ _ => Nat.zero_le _) _ (List.mem_map_of_mem _ ho)
  omega

end LRUCache

namespace Segments

open LRUCache

theorem segWF_allInv {s : Segments} (hs : SegWF s) : AllInv s :=
  fun k => wf_inv (hs.wf k)

/-- Replacing segment `j` by a well-formed cache none of whose objects is listed
in another segment keeps the segments well-formed and disjoint. -/
theorem segWF_update {s : Segments} (hs : SegWF s) (j : Nat) {c : LRUCache} (hc : WF c)
    (hnew : ∀ o, o ∈ c.objs → ∀ l, l ≠ j → o ∉ (s l).objs) :
    SegWF (Function.update s j c) := by
  constructor
  · intro k
    by_cases h : k = j
    · subst h; rw [Function.update_same]; exact hc
    · rw [Function.update_noteq h]; exact hs.wf k
  · intro k l o hkl ho
    by_cases hk : k = j
    · subst hk
      rw [Function.update_same] at ho
      rw [Function.update_noteq (fun h => hkl h.symm)]
      exact hnew o ho l (fun h => hkl h.symm)
    · rw [Function.update_noteq hk] at ho
      by_cases hl : l = j
      · subst hl
        rw [Function.update_same]
        intro hmem
        exact hnew o hmem k hk ho
      · rw [Function.update_noteq hl]
        exact hs.disjoint k l o hkl ho

/-- A segment whose objects all come from the old segment can replace it. -/
theorem segWF_shrink {s : Segments} (hs : SegWF s) (j : Nat) {c : LRUCache} (hc : WF c)
    (hsub : ∀ o, o ∈ c.objs → o ∈ (s j).objs) : SegWF (Function.update s j c) :=
  segWF_update hs j hc (fun o ho l hl => hs.disjoint j l o (fun h => hl h.symm) (hsub o ho))

/-- A returning call of `segment_admit(j+1, req)` had a request that fits segment
`j+1`. -/
theorem segment_admit_fit {j : Nat} {s t : Segments} {req : SimpleRequest} (hs : AllInv s)
    (h : segment_admit (j + 1) s (some req) = Except.ok t) :
    req.size ≤ (s (j + 1))._cacheSize := by
  rw [segment_admit_succ] at h
  cases hloop : admitLoop ( segment_admit j) (j + 1) req.size
      ((s (j + 1))._cacheList.length + 1) s with
  | error e => rw [hloop] at h; simp at h
  | ok s1 =>
    obtain ⟨-, hcap1, -, -, hfit⟩ :=
      admitLoop_inv (segment_admit_lowerOk j) req.size _ s s1 hs hloop
    rw [hcap1] at hfit
    omega

end Segments

end WebCacheSim

namespace WebCacheSim

namespace Segments

open LRUCache

theorem admitAt_admitsOk (j : Nat) {s : Segments} {req : SimpleRequest} (hs : SegWF s)
    (hnew : ∀ k, CacheObject.ofReq req ∉ (s k).objs) :
    ∃ t, admitAt j s req = Except.ok t ∧ SegWF t ∧
      (∀ k o, o ∈ (t k).objs → (o = CacheObject.ofReq req ∧ k = j) ∨ ∃ l, o ∈ (s l).objs) ∧
      (req.size ≤ (s j)._cacheSize → CacheObject.ofReq req ∈ (t j).objs) := by
  obtain ⟨c1, h1, -, href⟩ := admit_spec (hs.wf j).size_eq req
  obtain ⟨hwf1, -⟩ := admit_wf (hs.wf j) (hnew j) h1
  have hsub := admit_objs_subset h1
  refine ⟨Function.update s j c1, ?_, ?_, ?_, ?_⟩
  · unfold admitAt; rw [h1]
  · apply segWF_update hs j hwf1
    intro o ho l hl
    rcases hsub o ho with h | h
    · rw [h]; exact hnew l
    · exact hs.disjoint j l o (fun e => hl e.symm) h
  · intro k o ho
    by_cases hk : k = j
    · subst hk
      rw [Function.update_same] at ho
      rcases hsub o ho with h | h
      · exact Or.inl ⟨h, rfl⟩
      · exact Or.inr ⟨k, h⟩
    · rw [Function.update_noteq hk] at ho
      exact Or.inr ⟨k, ho⟩
  · intro hsize
    rw [Function.update_same]
    unfold AdmitRef at href
    rw [if_neg (by omega)] at href
    obtain ⟨k, -, -, -, hobjs, -⟩ := href
    rw [hobjs]
    exact List.mem_cons_self _ _

theorem admitLoop_spec {j : Nat} (hj : AdmitsOk j) (req : SimpleRequest) :
    ∀ fuel (s : Segments), SegWF s → (∀ k, CacheObject.ofReq req ∉ (s k).objs) →
      CapsMono s → req.size ≤ (s (j + 1))._cacheSize →
      (s (j + 1))._cacheList.length < fuel →
      ∃ s1, admitLoop ( segment_admit j) (j + 1) req.size fuel s = Except.ok s1 ∧ SegWF s1 ∧
        (∀ k o, o ∈ (s1 k).objs → ∃ l, o ∈ (s l).objs) := by
  intro fuel
  induction fuel with
  | zero => intro s _ _ _ _ h; omega
  | succ f ih =>
    intro s hs hnew hmono hfit hlen
    rw [admitLoop_succ]
    by_cases hgt : (s (j + 1))._currentSize + req.size > (s (j + 1))._cacheSize
    · rw [if_pos hgt]
      have hwf := hs.wf (j + 1)
      rcases nil_or_snoc (s (j + 1))._cacheList with hnil | ⟨init, x, hx⟩
      · have h0 := hwf.size_eq
        simp [listSize, hnil] at h0
        omega
      · have her := evict_return_concat hx
        have hev : (evict_return (s (j + 1))).1 = evict (s (j + 1)) := rfl
        have h2nd : (evict_return (s (j + 1))).2 = some x.obj.toReq := by rw [her]
        rw [h2nd, hev]
        have hwf1 : WF (evict (s (j + 1))) := wf_evict_concat hwf hx
        have hlist1 : (evict (s (j + 1)))._cacheList = init := by
          rw [evict_list, hx]; simp
        have hobjs : (s (j + 1)).objs = (evict (s (j + 1))).objs ++ [x.obj] := by
          unfold objs; rw [hlist1, hx]; simp
        have hxin : x.obj ∈ (s (j + 1)).objs := by rw [hobjs]; simp
        have hxnot : x.obj ∉ (evict (s (j + 1))).objs := by
          have hnd := hwf.obj_nodup
          rw [hobjs] at hnd
          intro hmem
          exact (List.nodup_append.mp hnd).2.2 hmem (by simp)
        have hsub1 : ∀ o, o ∈ (evict (s (j + 1))).objs → o ∈ (s (j + 1)).objs := by
          intro o ho; rw [hobjs]; exact List.mem_append_left _ ho
        have hmid : SegWF (Function.update s (j + 1) (evict (s (j + 1)))) :=
          segWF_shrink hs (j + 1) hwf1 hsub1
        have hmidsub : ∀ l o, o ∈ (Function.update s (j + 1) (evict (s (j + 1))) l).objs →
            ∃ l1, o ∈ (s l1).objs := by
          intro l o ho
          by_cases hl : l = j + 1
          · subst hl
            rw [Function.update_same] at ho
            exact ⟨_, hsub1 o ho⟩
          · rw [Function.update_noteq hl] at ho
            exact ⟨l, ho⟩
        have hmidcap : ∀ k, (Function.update s (j + 1) (evict (s (j + 1))) k)._cacheSize
            = (s k)._cacheSize := by
          intro k
          by_cases hk : k = j + 1
          · subst hk; rw [Function.update_same, evict_cacheSize]
          · rw [Function.update_noteq hk]
        have hnewv : ∀ k, CacheObject.ofReq x.obj.toReq ∉
            (Function.update s (j + 1) (evict (s (j + 1))) k).objs := by
          intro k
          rw [ofReq_toReq]
          by_cases hk : k = j + 1
          · subst hk; rw [Function.update_same]; exact hxnot
          · rw [Function.update_noteq hk]
            exact hs.disjoint (j + 1) k x.obj (fun e => hk e.symm) hxin
        have hmonomid : CapsMono (Function.update s (j + 1) (evict (s (j + 1)))) := by
          intro k hk
          rw [hmidcap, hmidcap]
          exact hmono k hk
        have hfitv : 1 ≤ j → x.obj.toReq.size
            ≤ (Function.update s (j + 1) (evict (s (j + 1))) j)._cacheSize := by
          intro hj1
          rw [hmidcap]
          have h1 := wf_size_le_cap hwf hxin
          have h2 := hmono j hj1
          have h3 : x.obj.toReq.size = x.obj.size := rfl
          omega
        obtain ⟨s2, h2, hs2, hsub2, -⟩ := hj _ x.obj.toReq hmid hnewv hmonomid hfitv
        rw [h2]
        simp only
        obtain ⟨_, -, -, hcap2, hframe2, -⟩ :=
          segment_admit_lowerOk j _ _ s2 (segWF_allInv hmid) h2
        have hseg2 : s2 (j + 1) = evict (s (j + 1)) := by
          rw [hframe2 (j + 1) (by omega), Function.update_same]
        have hcaps2 : ∀ k, (s2 k)._cacheSize = (s k)._cacheSize := by
          intro k; rw [hcap2, hmidcap]
        have hsub2s : ∀ l o, o ∈ (s2 l).objs → ∃ l1, o ∈ (s l1).objs := by
          intro l o ho
          rcases hsub2 l o ho with ⟨heq, -⟩ | ⟨l1, hl1⟩
          · rw [heq, ofReq_toReq]; exact ⟨_, hxin⟩
          · exact hmidsub l1 o hl1
        have hnew2 : ∀ k, CacheObject.ofReq req ∉ (s2 k).objs := by
          intro k hmem
          obtain ⟨l1, hl1⟩ := hsub2s k _ hmem
          exact hnew l1 hl1
        have hmono2 : CapsMono s2 := by
          intro k hk
          rw [hcaps2, hcaps2]
          exact hmono k hk
        obtain ⟨s1, h1, hs1, hsub1s⟩ := ih s2 hs2 hnew2 hmono2
          (by rw [hcaps2]; exact hfit)
          (by rw [hseg2, hlist1]; rw [hx] at hlen; simp at hlen; omega)
        refine ⟨s1, h1, hs1, ?_⟩
        intro k o ho
        obtain ⟨l, hl⟩ := hsub1s k o ho
        exact hsub2s l o hl
    · rw [if_neg hgt]
      exact ⟨s, rfl, hs, fun k o ho => ⟨k, ho⟩⟩

theorem segment_admit_admitsOk (j : Nat) : AdmitsOk j := by
  induction j with
  | zero =>
    intro s req hs hnew _ _
    exact admitAt_admitsOk 0 hs hnew
  | succ j ih =>
    intro s req hs hnew hmono hfit
    have hfit1 : req.size ≤ (s (j + 1))._cacheSize := hfit (by omega)
    obtain ⟨s1, h1, hs1, hsub1⟩ := admitLoop_spec ih req
      ((s (j + 1))._cacheList.length + 1) s hs hnew hmono hfit1 (by omega)
    obtain ⟨-, hcap1, -, -, -⟩ :=
      admitLoop_inv (segment_admit_lowerOk j) req.size _ s s1 (segWF_allInv hs) h1
    have hnew1 : ∀ k, CacheObject.ofReq req ∉ (s1 k).objs := by
      intro k hmem
      obtain ⟨l, hl⟩ := hsub1 k _ hmem
      exact hnew l hl
    obtain ⟨t, ht, hst, hsubt, hmemt⟩ := admitAt_admitsOk (j + 1) hs1 hnew1
    refine ⟨t, ?_, hst, ?_, ?_⟩
    · rw [segment_admit_succ, h1]
      exact ht
    · intro k o ho
      rcases hsubt k o ho with h | ⟨l, hl⟩
      · exact Or.inl h
      · exact Or.inr (hsub1 l o hl)
    · intro _
      exact hmemt (by rw [hcap1]; exact hfit1)

end Segments

end WebCacheSim

namespace WebCacheSim

namespace LRUCache

theorem wf_lookup_mem {c : LRUCache} (hc : WF c) {req : SimpleRequest}
    (hmem : CacheObject.ofReq req ∈ c.objs) :
    CacheObject.ofReq req ∈ (lookup c req).1.objs := by
  obtain ⟨n, hn, hno⟩ := List.mem_map.mp hmem
  have hfind := wf_find_of_mem hc hn
  rw [hno] at hfind
  rw [lookup_hit hfind]
  show _ ∈ (hit c n.pos).objs
  rw [(wf_hit hc hn).2, hno]
  exact List.mem_cons_self _ _

end LRUCache

namespace S4LRUCache

open LRUCache Segments

theorem setSize_cap_succ (cs : Nat) {i : Nat} (hi : i < 3) :
    (setSize init cs (i + 1))._cacheSize = cs / 4 := by
  rw [setSize_init, if_neg (by omega), if_pos (by omega)]
  rfl

theorem capsMono_of_caps {cs : Nat} {s : Segments}
    (h : ∀ k, (s k)._cacheSize = (setSize init cs k)._cacheSize) : CapsMono s := by
  intro k hk
  rw [h, h, setSize_init, setSize_init]
  show (if k + 1 = 0 then cs / 4 + cs % 4 else if k + 1 < 4 then cs / 4 else 0)
    ≤ (if k = 0 then cs / 4 + cs % 4 else if k < 4 then cs / 4 else 0)
  rw [if_neg (Nat.succ_ne_zero k), if_neg (show ¬ k = 0 by omega)]
  by_cases h1 : k + 1 < 4
  · rw [if_pos h1, if_pos (show k < 4 by omega)]
  · rw [if_neg h1]; exact Nat.zero_le _

theorem lookupLoop_scan (req : SimpleRequest) :
    ∀ d i0 m (s : Segments), SegWF s → CacheObject.ofReq req ∈ (s (i0 + d)).objs →
      lookupLoop req (d + m) i0 s = lookupLoop req m (i0 + d) s := by
  intro d
  induction d with
  | zero => intro i0 m s _ _; simp
  | succ d ih =>
    intro i0 m s hs hmem
    have hnot : CacheObject.ofReq req ∉ (s i0).objs :=
      hs.disjoint (i0 + (d + 1)) i0 _ (by omega) hmem
    have hn : d + 1 + m = (d + m) + 1 := by omega
    rw [hn, lookupLoop_succ, wf_lookup_miss (hs.wf i0) hnot]
    simp only [Function.update_eq_self]
    have hidx : i0 + (d + 1) = (i0 + 1) + d := by omega
    rw [hidx] at hmem ⊢
    exact ih (i0 + 1) m s hs hmem

theorem lookup_at {s : Segments} {req : SimpleRequest} {i : Nat} (hs : SegWF s) (hi : i < 4)
    (hmem : CacheObject.ofReq req ∈ (s i).objs) :
    lookup s req = lookupLoop req ((3 - i) + 1) i s := by
  have h := lookupLoop_scan req i 0 ((3 - i) + 1) s hs (by rw [Nat.zero_add]; exact hmem)
  have h4 : i + ((3 - i) + 1) = 4 := by omega
  rw [h4, Nat.zero_add] at h
  exact h

theorem lookupLoop_absent (req : SimpleRequest) :
    ∀ n i0 (s : Segments), SegWF s → (∀ k, CacheObject.ofReq req ∉ (s k).objs) →
      lookupLoop req n i0 s = Except.ok (s, false) := by
  intro n
  induction n with
  | zero => intro i0 s _ _; rfl
  | succ n ih =>
    intro i0 s hs hnot
    rw [lookupLoop_succ, wf_lookup_miss (hs.wf i0) (hnot i0)]
    simp only [Function.update_eq_self]
    exact ih (i0 + 1) s hs hnot

/-- The promotion step of a hit in segment `i < 3`, for a request that fits segment
`i + 1`. -/
theorem hit_promote {s : Segments} {req : SimpleRequest} {i : Nat} (hs : SegWF s)
    (hmono : CapsMono s) (hmem : CacheObject.ofReq req ∈ (s i).objs)
    (hfit : req.size ≤ (s (i + 1))._cacheSize) :
    ∃ t, segment_admit (i + 1)
        (Function.update s i (LRUCache.evictReq (LRUCache.lookup (s i) req).1 req))
        (some req) = Except.ok t ∧ SegWF t ∧ (∀ k, (t k)._cacheSize = (s k)._cacheSize) ∧
      (∀ k, i + 1 < k → t k = s k) ∧ CacheObject.ofReq req ∈ (t (i + 1)).objs := by
  have hwfl : WF (LRUCache.lookup (s i) req).1 := wf_lookup (hs.wf i) req
  have hwfe : WF (LRUCache.evictReq (LRUCache.lookup (s i) req).1 req) := wf_evictReq hwfl req
  have hsub : ∀ o, o ∈ (LRUCache.evictReq (LRUCache.lookup (s i) req).1 req).objs →
      o ∈ (s i).objs :=
    fun o ho => lookup_objs_subset _ _ o (evictReq_objs_subset _ _ o ho)
  have hmid : SegWF (Function.update s i
      (LRUCache.evictReq (LRUCache.lookup (s i) req).1 req)) :=
    segWF_shrink hs i hwfe hsub
  have hmidcap : ∀ k, (Function.update s i
      (LRUCache.evictReq (LRUCache.lookup (s i) req).1 req) k)._cacheSize
        = (s k)._cacheSize := by
    intro k
    by_cases hk : k = i
    · subst hk; rw [Function.update_same, evictReq_cacheSize, lookup_cacheSize]
    · rw [Function.update_noteq hk]
  have hnew : ∀ k, CacheObject.ofReq req ∉ (Function.update s i
      (LRUCache.evictReq (LRUCache.lookup (s i) req).1 req) k).objs := by
    intro k
    by_cases hk : k = i
    · subst hk; rw [Function.update_same]; exact evictReq_not_mem hwfl req
    · rw [Function.update_noteq hk]
      exact hs.disjoint i k _ (fun e => hk e.symm) hmem
  have hmonomid : CapsMono (Function.update s i
      (LRUCache.evictReq (LRUCache.lookup (s i) req).1 req)) := by
    intro k hk
    rw [hmidcap, hmidcap]
    exact hmono k hk
  obtain ⟨t, ht, hst, -, hin⟩ := segment_admit_admitsOk (i + 1) _ req hmid hnew hmonomid
    (fun _ => by rw [hmidcap]; exact hfit)
  obtain ⟨_, -, -, hcap, hframe, -⟩ :=
    segment_admit_lowerOk (i + 1) _ _ t (segWF_allInv hmid) ht
  refine ⟨t, ht, hst, ?_, ?_, ?_⟩
  · intro k; rw [hcap, hmidcap]
  · intro k hk
    rw [hframe k hk, Function.update_noteq (by omega)]
  · exact hin (by rw [hmidcap]; exact hfit)

/-- A lookup of a resident object that returns: it is a hit, the object is listed
one segment up (or still in segment 3), and the invariant of the segments is
kept. -/
theorem lookup_resident {s : Segments} {req : SimpleRequest} {i : Nat} (hs : SegWF s)
    (hmono : CapsMono s) (hi : i < 4) (hmem : CacheObject.ofReq req ∈ (s i).objs)
    {r : Segments × Bool} (h : lookup s req = Except.ok r) :
    r.2 = true ∧ SegWF r.1 ∧ (∀ k, (r.1 k)._cacheSize = (s k)._cacheSize) ∧
      (∀ k, 4 ≤ k → r.1 k = s k) ∧ CacheObject.ofReq req ∈ (r.1 (min (i + 1) 3)).objs := by
  rw [lookup_at hs hi hmem, lookupLoop_succ, if_pos (wf_lookup_true (hs.wf i) hmem)] at h
  by_cases h3 : i < 3
  · rw [if_pos h3] at h
    cases h2 : segment_admit (i + 1)
        (Function.update s i (LRUCache.evictReq (LRUCache.lookup (s i) req).1 req))
        (some req) with
    | error e => rw [h2] at h; simp at h
    | ok s2 =>
      rw [h2] at h
      simp only [Except.ok.injEq] at h
      subst h
      have hwfl : WF (LRUCache.lookup (s i) req).1 := wf_lookup (hs.wf i) req
      have hmid : SegWF (Function.update s i
          (LRUCache.evictReq (LRUCache.lookup (s i) req).1 req)) :=
        segWF_shrink hs i (wf_evictReq hwfl req)
          (fun o ho => lookup_objs_subset _ _ o (evictReq_objs_subset _ _ o ho))
      have hfit := segment_admit_fit (segWF_allInv hmid) h2
      rw [Function.update_noteq (by omega)] at hfit
      obtain ⟨t, ht, hst, hcap, hframe, hin⟩ := hit_promote hs hmono hmem hfit
      rw [h2] at ht
      simp only [Except.ok.injEq] at ht
      subst ht
      refine ⟨rfl, hst, hcap, fun k hk => hframe k (by omega), ?_⟩
      rw [Nat.min_eq_left (by omega)]
      exact hin
  · rw [if_neg h3] at h
    simp only [Except.ok.injEq] at h
    subst h
    have hi3 : i = 3 := by omega
    subst hi3
    refine ⟨rfl, segWF_shrink hs 3 (wf_lookup (hs.wf 3) req) (lookup_objs_subset _ _), ?_, ?_, ?_⟩
    · intro k
      show (Function.update s 3 (LRUCache.lookup (s 3) req).1 k)._cacheSize = _
      by_cases hk : k = 3
      · subst hk; rw [Function.update_same, lookup_cacheSize]
      · rw [Function.update_noteq hk]
    · intro k hk
      exact Function.update_noteq (by omega) _ _
    · show _ ∈ (Function.update s 3 (LRUCache.lookup (s 3) req).1 3).objs
      rw [Function.update_same]
      exact wf_lookup_mem (hs.wf 3) hmem

/-- A lookup of a resident object returns when the object fits the next segment. -/
theorem lookup_resident_ok {s : Segments} {req : SimpleRequest} {i : Nat} (hs : SegWF s)
    (hmono : CapsMono s) (hi : i < 4) (hmem : CacheObject.ofReq req ∈ (s i).objs)
    (hfit : i < 3 → req.size ≤ (s (i + 1))._cacheSize) :
    ∃ r, lookup s req = Except.ok r := by
  rw [lookup_at hs hi hmem, lookupLoop_succ, if_pos (wf_lookup_true (hs.wf i) hmem)]
  by_cases h3 : i < 3
  · rw [if_pos h3]
    obtain ⟨t, ht, -⟩ := hit_promote hs hmono hmem (hfit h3)
    rw [ht]
    exact ⟨_, rfl⟩
  · rw [if_neg h3]
    exact ⟨_, rfl⟩

theorem reach_setSize (cs : Nat) : Reach cs (setSize init cs) := by
  refine ⟨⟨?_, ?_⟩, fun _ => rfl, ?_⟩
  · intro k; rw [setSize_init]; exact wf_empty _
  · intro k l o _ ho
    rw [setSize_init] at ho
    simp [LRUCache.empty, objs] at ho
  · intro k _
    rw [setSize_init]
    rfl

theorem reach_request {cs : Nat} {s s1 : Segments} {req : SimpleRequest} (hs : Reach cs s)
    (h : request s req = Except.ok s1) : Reach cs s1 := by
  have hmono := capsMono_of_caps hs.caps
  unfold request at h
  by_cases hex : ∃ i, i < 4 ∧ CacheObject.ofReq req ∈ (s i).objs
  · obtain ⟨i, hi, hmem⟩ := hex
    cases hl : lookup s req with
    | error e => rw [hl] at h; simp at h
    | ok r =>
      obtain ⟨htrue, hwf, hcap, hup, -⟩ := lookup_resident hs.segwf hmono hi hmem hl
      rw [hl] at h
      simp only [htrue, if_true, Except.ok.injEq] at h
      subst h
      exact ⟨hwf, fun k => by rw [hcap, hs.caps], fun k hk => by rw [hup k hk, hs.upper k hk]⟩
  · have hnot : ∀ k, CacheObject.ofReq req ∉ (s k).objs := by
      intro k hk
      by_cases h4 : k < 4
      · exact hex ⟨k, h4, hk⟩
      · rw [hs.upper k (by omega)] at hk
        simp at hk
    have hl : lookup s req = Except.ok (s, false) := lookupLoop_absent req 4 0 s hs.segwf hnot
    rw [hl] at h
    simp only [Bool.false_eq_true, if_false] at h
    obtain ⟨t, ht, hst, -, -⟩ := @admitAt_admitsOk 0 s req hs.segwf hnot
    obtain ⟨t1, ht1, -, hcap, hframe, -⟩ := admitAt_inv (segWF_allInv hs.segwf) 0 req
    have h0 : admitReq s req = admitAt 0 s req := rfl
    rw [h0] at h
    rw [h] at ht ht1
    simp only [Except.ok.injEq] at ht ht1
    subst ht
    subst ht1
    exact ⟨hst, fun k => by rw [hcap, hs.caps],
      fun k hk => by rw [hframe k (by omega), hs.upper k hk]⟩

theorem reach_requests {cs : Nat} :
    ∀ (reqs : List SimpleRequest) (s s1 : Segments), Reach cs s →
      requests s reqs = Except.ok s1 → Reach cs s1 := by
  intro reqs
  induction reqs with
  | nil =>
    intro s s1 hs h
    simp only [requests, Except.ok.injEq] at h
    subst h; exact hs
  | cons req reqs ih =>
    intro s s1 hs h
    unfold requests at h
    cases hr : request s req with
    | error e => rw [hr] at h; simp at h
    | ok s2 =>
      rw [hr] at h
      exact ih s2 s1 (reach_request hs hr) h

end S4LRUCache

end WebCacheSim

namespace WebCacheSim

namespace S4LRUCache

open LRUCache Segments

/-- C12 fails on the code (the loop of `segment_admit` neither checks that the
object fits the segment nor that `evict_return` found a victim, as the loops of
`SLRUCache::admit_from_window` do).  With `setSize(7)` the segments hold 4, 1, 1 and
1 bytes; after the request of the 2-byte object 1 it is resident in segment 0, and
its lookup removes it from segment 0 and calls `segment_admit(1, req)`, whose loop
asks the empty segment 1 for a victim and passes the null result to
`segment_admit(0, ·)`, which dereferences it: the lookup does not return true and
the object is promoted nowhere. -/
theorem C12_hit_dereferences_null_victim :
    (requests (setSize init 7) [SimpleRequest.mk 1 2]).map view
      = Except.ok [[CacheObject.mk 1 2], [], [], []] ∧
    ((requests (setSize init 7) [SimpleRequest.mk 1 2]).bind
        (fun s => lookup s (SimpleRequest.mk 1 2))).map (fun r => (view r.1, r.2))
      = Except.error Fault.nullRequest := by
  constructor <;> decide

/-- Where the null victim cannot arise the promotion works: in every state reached
from `setSize(cs)` by a trace of requests (lookup, and admit on a miss), for a request
resident in segment `i < 4` whose size is at most `cs / 4` when `i < 3`,
`S4LRUCache::lookup` returns true; afterwards the object is resident in segment
`i + 1` when `i < 3`, in segment 3 when `i = 3`, and in no other segment. -/
theorem hit_promotes_of_fits (cs : Nat) (reqs : List SimpleRequest) (s : Segments)
    (req : SimpleRequest) (i : Nat)
    (hreach : requests (setSize init cs) reqs = Except.ok s) (hi : i < 4)
    (hmem : CacheObject.ofReq req ∈ (s i).objs) (hfit : i < 3 → req.size ≤ cs / 4) :
    ∃ t, lookup s req = Except.ok (t, true) ∧
      (i < 3 → CacheObject.ofReq req ∈ (t (i + 1)).objs ∧
        ∀ l, l ≠ i + 1 → CacheObject.ofReq req ∉ (t l).objs) ∧
      (i = 3 → CacheObject.ofReq req ∈ (t 3).objs ∧
        ∀ l, l ≠ 3 → CacheObject.ofReq req ∉ (t l).objs) := by
  have hr := reach_requests reqs _ s (reach_setSize cs) hreach
  have hmono := capsMono_of_caps hr.caps
  have hfit1 : i < 3 → req.size ≤ (s (i + 1))._cacheSize := by
    intro h3
    rw [hr.caps, setSize_cap_succ cs h3]
    exact hfit h3
  obtain ⟨r, hl⟩ := lookup_resident_ok hr.segwf hmono hi hmem hfit1
  obtain ⟨htrue, hwf, -, -, hin⟩ := lookup_resident hr.segwf hmono hi hmem hl
  obtain ⟨t, b⟩ := r
  simp only at htrue hwf hin
  subst htrue
  refine ⟨t, hl, ?_, ?_⟩
  · intro h3
    rw [Nat.min_eq_left (by omega)] at hin
    exact ⟨hin, fun l hne => hwf.disjoint (i + 1) l _ (fun e => hne e.symm) hin⟩
  · intro h3
    subst h3
    exact ⟨hin, fun l hne => hwf.disjoint 3 l _ (fun e => hne e.symm) hin⟩

/-- With `setSize(8)` the unit-size object 1 is resident in segment 0 after its first
request; its lookup returns true and moves it to segment 1. -/
theorem hit_promotes_of_fits_sample :
    ∃ s, requests (setSize init 8) [SimpleRequest.mk 1 1] = Except.ok s ∧
      CacheObject.mk 1 1 ∈ (s 0).objs ∧
      ∃ t, lookup s (SimpleRequest.mk 1 1) = Except.ok (t, true) ∧
        (0 < 3 → CacheObject.ofReq (SimpleRequest.mk 1 1) ∈ (t (0 + 1)).objs ∧
          ∀ l, l ≠ 0 + 1 → CacheObject.ofReq (SimpleRequest.mk 1 1) ∉ (t l).objs) ∧
        (0 = 3 → CacheObject.ofReq (SimpleRequest.mk 1 1) ∈ (t 3).objs ∧
          ∀ l, l ≠ 3 → CacheObject.ofReq (SimpleRequest.mk 1 1) ∉ (t l).objs) := by
  have hv : (requests (setSize init 8) [SimpleRequest.mk 1 1]).map (fun s => (s 0).objs)
      = Except.ok [CacheObject.mk 1 1] := by decide
  cases hs : requests (setSize init 8) [SimpleRequest.mk 1 1] with
  | error e => rw [hs] at hv; cases hv
  | ok s =>
    rw [hs] at hv
    have h0 : (s 0).objs = [CacheObject.mk 1 1] := by
      have hm : (Except.ok s : Except Fault Segments).map (fun s => (s 0).objs)
          = Except.ok (s 0).objs := rfl
      rw [hm] at hv
      exact Except.ok.inj hv
    have hmem : CacheObject.ofReq (SimpleRequest.mk 1 1) ∈ (s 0).objs := by
      rw [h0]; exact List.mem_cons_self _ _
    exact ⟨s, rfl, hmem,
      hit_promotes_of_fits 8 [SimpleRequest.mk 1 1] s (SimpleRequest.mk 1 1) 0 hs (by decide) hmem
        (fun _ => by decide)⟩

end S4LRUCache

end WebCacheSim

namespace WebCacheSim

/-! ### W-TinyLFU: admission through the window -/

namespace LRU

open LRUCache

theorem evictCollect_succ (size fuel : Nat) (c : LRUCache) (acc : List SimpleRequest) :
    evictCollect size (fuel + 1) c acc =
      if c._currentSize + size > c._cacheSize then
        match (LRUCache.evict_return c).2 with
        | some v => evictCollect size fuel (LRUCache.evict_return c).1 (acc ++ [v])
        | none => evictCollect size fuel (LRUCache.evict_return c).1 acc
      else some (c, acc) :=
  rfl

/-- The collecting loop of `admit_with_return` runs like the loop of `admit` and
returns the unlinked objects, the tail first. -/
theorem evictCollect_spec {fuel : Nat} {c : LRUCache} {size : Nat}
    (hsz : c._currentSize = c.listSize) (hs : size ≤ c._cacheSize)
    (hf : c._cacheList.length < fuel) (acc : List SimpleRequest) :
    ∃ k r, evictLoop fuel c size = some r ∧ k ≤ c._cacheList.length ∧
      r._cacheList = c._cacheList.take (c._cacheList.length - k) ∧
      evictCollect size fuel c acc
        = some (r, acc ++ ((c.objs.drop (c.objs.length - k)).reverse.map CacheObject.toReq)) := by
  induction fuel generalizing c acc with
  | zero => omega
  | succ f ih =>
    rw [evictCollect_succ, evictLoop_succ]
    by_cases hgt : c._currentSize + size > c._cacheSize
    · rw [if_pos hgt, if_pos hgt]
      rcases nil_or_snoc c._cacheList with hnil | ⟨init, x, hl⟩
      · have : c.listSize = 0 := by simp [listSize, hnil]
        omega
      · have her := evict_return_concat hl
        have hev : evict c = (LRUCache.evict_return c).1 := rfl
        have hsum := listSize_concat hl
        have hlen : c._cacheList.length = init.length + 1 := by rw [hl]; simp
        have hlist : (evict c)._cacheList = init := by rw [hev, her]
        have h1 : (evict c)._currentSize = (evict c).listSize := by
          rw [hev, her]; show c._currentSize - x.obj.size = (init.map (fun n => n.obj.size)).sum
          omega
        have h2 : size ≤ (evict c)._cacheSize := by rw [evict_cacheSize]; exact hs
        have h3 : (evict c)._cacheList.length < f := by rw [hlist]; omega
        obtain ⟨k, r, hr, hk, hrl, hcol⟩ := ih h1 h2 h3 (acc ++ [x.obj.toReq])
        have h2nd : (LRUCache.evict_return c).2 = some x.obj.toReq := by rw [her]
        rw [h2nd]
        simp only
        rw [← hev, hcol]
        rw [hlist] at hk hrl
        refine ⟨k + 1, r, hr, by omega, ?_, ?_⟩
        · rw [hrl, hl]
          have : (init ++ [x]).length - (k + 1) = init.length - k := by simp
          rw [this, List.take_append_of_le_length (by omega)]
        · have hobjs : c.objs = (evict c).objs ++ [x.obj] := by
            unfold objs; rw [hlist, hl]; simp
          have hlo : (evict c).objs.length = init.length := by rw [objs_length, hlist]
          have hidx : c.objs.length - (k + 1) = (evict c).objs.length - k := by
            rw [objs_length, hlen, hlo]; omega
          rw [hidx, hobjs, List.drop_append_of_le_length (by omega)]
          simp [List.append_assoc]
    · rw [if_neg hgt, if_neg hgt]
      refine ⟨0, c, rfl, by omega, by simp, ?_⟩
      simp

/-- The method `admit_with_return` on a consistent window, for a request that is
not larger than the window: the least number `k` of tail objects is removed, the
request is pushed to the front, and the removed objects are returned tail first. -/
theorem admit_with_return_spec {c : LRUCache} (hsz : c._currentSize = c.listSize)
    {req : SimpleRequest} (hs : req.size ≤ c._cacheSize) :
    ∃ k w, k ≤ c.objs.length ∧ fitsAfter c req.size k ∧
      (∀ j, j < k → ¬ fitsAfter c req.size j) ∧
      w.objs = CacheObject.ofReq req :: c.objs.take (c.objs.length - k) ∧
      w._cacheSize = c._cacheSize ∧
      admit_with_return c req
        = Except.ok (w, (c.objs.drop (c.objs.length - k)).reverse.map CacheObject.toReq) := by
  obtain ⟨k, r, hr, hk, hlist, hrs, hcap, -, hfit, hmin⟩ :=
    @evictLoop_spec (c._cacheList.length + 1) c req.size hsz hs (by omega)
  obtain ⟨k1, r1, hr1, hk1, hlist1, hcol⟩ :=
    @evictCollect_spec (c._cacheList.length + 1) c req.size hsz hs (by omega) []
  rw [hr] at hr1
  have hrr : r = r1 := Option.some.inj hr1
  subst hrr
  have hkk : k = k1 := by
    have h1 := congrArg List.length hlist
    rw [hlist1] at h1
    simp at h1
    omega
  subst hkk
  have hobjs : r.objs = c.objs.take (c.objs.length - k) := by
    unfold objs; rw [hlist, List.map_take, List.length_map]
  have hsum : r._currentSize
      = ((c.objs.take (c.objs.length - k)).map CacheObject.size).sum := by
    rw [hrs, listSize_eq_objs, hobjs]
  refine ⟨k, pushFront r req, by rw [objs_length]; exact hk, ?_, ?_, ?_, hcap, ?_⟩
  · unfold fitsAfter; rw [← hsum, ← hcap]; exact hfit
  · intro j hj hfits
    unfold fitsAfter at hfits
    have := hmin j hj
    rw [sizes_take, objs_length] at hfits
    omega
  · show (Node.mk r._next (CacheObject.ofReq req) :: r._cacheList).map Node.obj = _
    rw [List.map_cons]
    show CacheObject.ofReq req :: r.objs = _
    rw [hobjs]
  · unfold admit_with_return
    rw [if_neg (by omega), hcol, List.nil_append]
    simp only
    rw [admit_fits hfit]

end LRU

namespace SLRUCache

open LRUCache

/-- On a main cache whose segment 0 is consistent, `admit_from_window` returns and
keeps segment 0 consistent. -/
theorem admit_from_window_total {σ δ : Type} (cm : CountMin σ) (door : DoorKeeper δ)
    (m : SLRUCache σ δ) (req : SimpleRequest) (h0 : Inv (m.segments 0)) :
    ∃ m1, admit_from_window cm door m req = Except.ok m1 ∧ Inv (m1.segments 0) := by
  unfold admit_from_window
  by_cases hbig : req.size > (m.segments 0)._cacheSize
  · rw [if_pos hbig]; exact ⟨m, rfl, h0⟩
  · rw [if_neg hbig]
    obtain ⟨k, r, p, hp, hr, -⟩ :=
      @preEvict_spec ((m.segments 0)._cacheList.length + 1) (m.segments 0) req.size
        h0.size_eq (by omega) (by omega) none
    rw [hp]
    simp only
    obtain ⟨hinv, -, -⟩ := evictLoop_inv h0 hr
    have key : ∀ chosen : SimpleRequest, ∃ m1,
        (match LRUCache.admitReq r chosen with
          | none => (Except.error Fault.diverges : Except Fault (SLRUCache σ δ))
          | some seg0a =>
              Except.ok { m with
                segments := (Function.update m.segments 0 seg0a)
                _currentSize := (seg0a._currentSize + (m.segments 1)._currentSize) })
          = Except.ok m1 ∧ Inv (m1.segments 0) := by
      intro chosen
      obtain ⟨r1, hr1, hinv1, -⟩ := inv_admission hinv chosen
      rw [hr1]
      refine ⟨_, rfl, ?_⟩
      show Inv (Function.update m.segments 0 r1 0)
      rw [Function.update_same]
      exact hinv1
    exact key _

end SLRUCache

namespace W_TinyLFU

open LRUCache

theorem offerVictims_total {σ δ : Type} (cm : CountMin σ) (door : DoorKeeper δ) :
    ∀ (vs : List SimpleRequest) (m : SLRUCache σ δ), Inv (m.segments 0) →
      ∃ m1, offerVictims cm door vs m = Except.ok m1 ∧ Inv (m1.segments 0) := by
  intro vs
  induction vs with
  | nil => intro m h; exact ⟨m, rfl, h⟩
  | cons v vs ih =>
    intro m h
    obtain ⟨m1, h1, hinv1⟩ := SLRUCache.admit_from_window_total cm door m v h
    obtain ⟨m2, h2, hinv2⟩ := ih m1 hinv1
    refine ⟨m2, ?_, hinv2⟩
    unfold offerVictims
    rw [h1]
    exact h2

/-- C30: with a positive window capacity, a request whose door-keeper estimate is
not 0 and whose size exceeds the window capacity is admitted nowhere:
`W_TinyLFU::admit` returns the state it was called on. -/
theorem C30_larger_than_window_dropped {σ δ : Type} (cm : CountMin σ) (door : DoorKeeper δ)
    (c : W_TinyLFU σ δ) (req : SimpleRequest)
    (hdk : door.pointEst c.main_cache.dk (toInt64 req.id) ≠ 0)
    (hpos : 0 < c.window._cacheSize) (hbig : c.window._cacheSize < req.size) :
    admitReq cm door c req = Except.ok c := by
  have hsearch : SLRUCache.search_door_keeper door c.main_cache (toInt64 req.id) ≠ 0 := hdk
  unfold admitReq LRU.admit_with_return
  rw [if_pos hsearch, if_neg (by omega), if_pos hbig]
  rfl

/-- Witness of C30: capacity 100, window 10, segment 0 of the main cache 18 bytes;
X (id 1) is known to the door-keeper and has 15 bytes: it would fit segment 0 and
is admitted nowhere. -/
theorem C30_larger_than_window_dropped_witness :
    (SimpleRequest.mk 1 15).size ≤ (sample.main_cache.segments 0)._cacheSize ∧
    admitReq exactCountMin exactDoorKeeper
        { sample with
          main_cache := SLRUCache.update_door_keeper exactDoorKeeper sample.main_cache 1 }
        (SimpleRequest.mk 1 15)
      = Except.ok { sample with
          main_cache := SLRUCache.update_door_keeper exactDoorKeeper sample.main_cache 1 } :=
  ⟨by decide,
    C30_larger_than_window_dropped exactCountMin exactDoorKeeper
      { sample with
        main_cache := SLRUCache.update_door_keeper exactDoorKeeper sample.main_cache 1 }
      (SimpleRequest.mk 1 15) (by decide) (by decide) (by decide)⟩

end W_TinyLFU

end WebCacheSim

namespace WebCacheSim

/-! ### W-TinyLFU: admission through the window, in 64 bits -/

namespace LRU

open LRUCache

theorem evictCollect64_succ (size fuel : Nat) (c : LRUCache) (acc : List SimpleRequest) :
    LRU.W64.evictCollect size (fuel + 1) c acc =
      if add64 c._currentSize size > c._cacheSize then
        match (LRUCache.W64.evict_return c).2 with
        | some v => LRU.W64.evictCollect size fuel (LRUCache.W64.evict_return c).1 (acc ++ [v])
        | none => LRU.W64.evictCollect size fuel (LRUCache.W64.evict_return c).1 acc
      else some (c, acc) :=
  rfl

/-- The collecting loop keeps the state consistent and the capacity. -/
theorem evictCollect_inv {size : Nat} :
    ∀ (fuel : Nat) (c : LRUCache) (acc : List SimpleRequest) (r : LRUCache × List SimpleRequest),
      Inv c → evictCollect size fuel c acc = some r →
      Inv r.1 ∧ r.1._cacheSize = c._cacheSize := by
  intro fuel
  induction fuel with
  | zero => intro c acc r _ h; simp [evictCollect] at h
  | succ f ih =>
    intro c acc r hc h
    rw [evictCollect_succ] at h
    have hev : Inv (LRUCache.evict_return c).1 := inv_evict hc
    have hcap : (LRUCache.evict_return c).1._cacheSize = c._cacheSize := evict_cacheSize c
    by_cases hgt : c._currentSize + size > c._cacheSize
    · rw [if_pos hgt] at h
      cases hv : (LRUCache.evict_return c).2 with
      | none =>
        rw [hv] at h
        obtain ⟨h1, h2⟩ := ih _ _ r hev h
        exact ⟨h1, by rw [h2, hcap]⟩
      | some v =>
        rw [hv] at h
        obtain ⟨h1, h2⟩ := ih _ _ r hev h
        exact ⟨h1, by rw [h2, hcap]⟩
    · rw [if_neg hgt] at h
      simp only [Option.some.injEq] at h
      rw [← h]
      exact ⟨hc, rfl⟩

theorem evictCollect64_eq {size : Nat} :
    ∀ (fuel : Nat) (c : LRUCache) (acc : List SimpleRequest),
      Inv c → c._cacheSize < 2 ^ 63 → size ≤ c._cacheSize →
      LRU.W64.evictCollect size fuel c acc = evictCollect size fuel c acc := by
  intro fuel
  induction fuel with
  | zero => intro c acc _ _ _; rfl
  | succ f ih =>
    intro c acc hc hcap hs
    have hle := hc.size_le
    rw [evictCollect64_succ, evictCollect_succ, add64_eq (by omega),
      LRUCache.W64.evict_return_eq hc (by omega)]
    have hev : Inv (LRUCache.evict_return c).1 := inv_evict hc
    have hcap1 : (LRUCache.evict_return c).1._cacheSize = c._cacheSize := evict_cacheSize c
    by_cases hgt : c._currentSize + size > c._cacheSize
    · rw [if_pos hgt, if_pos hgt]
      cases hv : (LRUCache.evict_return c).2 with
      | none => exact ih _ _ hev (by rw [hcap1]; exact hcap) (by rw [hcap1]; exact hs)
      | some v => exact ih _ _ hev (by rw [hcap1]; exact hcap) (by rw [hcap1]; exact hs)
    · rw [if_neg hgt, if_neg hgt]

/-- On a consistent window of capacity below `2^63`, `admit_with_return` computes in
64 bits what it computes in the natural numbers. -/
theorem admit_with_return64_eq {c : LRUCache} (hc : Inv c) (hcap : c._cacheSize < 2 ^ 63)
    (req : SimpleRequest) : LRU.W64.admit_with_return c req = admit_with_return c req := by
  unfold LRU.W64.admit_with_return admit_with_return
  by_cases h : req.size > c._cacheSize
  · rw [if_pos h, if_pos h]
  · rw [if_neg h, if_neg h, evictCollect64_eq _ c [] hc hcap (by omega)]
    cases hr : evictCollect req.size (c._cacheList.length + 1) c [] with
    | none => rfl
    | some r =>
      obtain ⟨c1, victims⟩ := r
      obtain ⟨hinv, hcap1⟩ := evictCollect_inv _ _ _ _ hc hr
      simp only
      rw [LRUCache.W64.admitReq_eq hinv (by rw [hcap1]; exact hcap)]

end LRU

namespace SLRUCache

open LRUCache

theorem preEvict64_succ (size fuel : Nat) (c : LRUCache) (prev : Option SimpleRequest) :
    SLRUCache.W64.preEvict size (fuel + 1) c prev =
      if add64 c._currentSize size > c._cacheSize then
        match (LRUCache.W64.evict_return c).2 with
        | some v => SLRUCache.W64.preEvict size fuel (LRUCache.W64.evict_return c).1 (some v)
        | none => some ((LRUCache.W64.evict_return c).1, prev)
      else some (c, prev) :=
  rfl

/-- The first loop of `admit_from_window` keeps segment 0 consistent and its
capacity. -/
theorem preEvict_inv {size : Nat} :
    ∀ (fuel : Nat) (c : LRUCache) (prev : Option SimpleRequest)
      (r : LRUCache × Option SimpleRequest),
      Inv c → preEvict size fuel c prev = some r → Inv r.1 ∧ r.1._cacheSize = c._cacheSize := by
  intro fuel
  induction fuel with
  | zero => intro c prev r _ h; simp [preEvict] at h
  | succ f ih =>
    intro c prev r hc h
    rw [preEvict_succ] at h
    have hev : Inv (LRUCache.evict_return c).1 := inv_evict hc
    have hcap : (LRUCache.evict_return c).1._cacheSize = c._cacheSize := evict_cacheSize c
    by_cases hgt : c._currentSize + size > c._cacheSize
    · rw [if_pos hgt] at h
      cases hv : (LRUCache.evict_return c).2 with
      | none =>
        rw [hv] at h
        simp only [Option.some.injEq] at h
        rw [← h]
        exact ⟨hev, hcap⟩
      | some v =>
        rw [hv] at h
        obtain ⟨h1, h2⟩ := ih _ _ r hev h
        exact ⟨h1, by rw [h2, hcap]⟩
    · rw [if_neg hgt] at h
      simp only [Option.some.injEq] at h
      rw [← h]
      exact ⟨hc, rfl⟩

theorem preEvict64_eq {size : Nat} :
    ∀ (fuel : Nat) (c : LRUCache) (prev : Option SimpleRequest),
      Inv c → c._cacheSize < 2 ^ 63 → size ≤ c._cacheSize →
      SLRUCache.W64.preEvict size fuel c prev = preEvict size fuel c prev := by
  intro fuel
  induction fuel with
  | zero => intro c prev _ _ _; rfl
  | succ f ih =>
    intro c prev hc hcap hs
    have hle := hc.size_le
    rw [preEvict64_succ, preEvict_succ, add64_eq (by omega),
      LRUCache.W64.evict_return_eq hc (by omega)]
    have hev : Inv (LRUCache.evict_return c).1 := inv_evict hc
    have hcap1 : (LRUCache.evict_return c).1._cacheSize = c._cacheSize := evict_cacheSize c
    by_cases hgt : c._currentSize + size > c._cacheSize
    · rw [if_pos hgt, if_pos hgt]
      cases hv : (LRUCache.evict_return c).2 with
      | none => rfl
      | some v => exact ih _ _ hev (by rw [hcap1]; exact hcap) (by rw [hcap1]; exact hs)
    · rw [if_neg hgt, if_neg hgt]

/-- On a main cache whose segment 0 is consistent and of capacity below `2^63`,
`admit_from_window` returns, with the 64-bit arithmetic of the code, and leaves
segment 0 consistent and of the same capacity. -/
theorem admit_from_window64_total {σ δ : Type} (cm : CountMin σ) (door : DoorKeeper δ)
    (m : SLRUCache σ δ) (req : SimpleRequest) (h0 : Inv (m.segments 0))
    (hcap : (m.segments 0)._cacheSize < 2 ^ 63) :
    ∃ m1, SLRUCache.W64.admit_from_window cm door m req = Except.ok m1 ∧
      Inv (m1.segments 0) ∧ (m1.segments 0)._cacheSize = (m.segments 0)._cacheSize := by
  unfold SLRUCache.W64.admit_from_window
  by_cases hbig : req.size > (m.segments 0)._cacheSize
  · rw [if_pos hbig]; exact ⟨m, rfl, h0, rfl⟩
  · rw [if_neg hbig, preEvict64_eq _ _ _ h0 hcap (by omega)]
    obtain ⟨k, r, p, hp, hr, -⟩ :=
      @preEvict_spec ((m.segments 0)._cacheList.length + 1) (m.segments 0) req.size
        h0.size_eq (by omega) (by omega) none
    rw [hp]
    simp only
    obtain ⟨hinv, hrcap⟩ := preEvict_inv _ _ _ _ h0 hp
    have hrcap0 : r._cacheSize = (m.segments 0)._cacheSize := hrcap
    have hrcap1 : r._cacheSize < 2 ^ 63 := by rw [hrcap0]; exact hcap
    have key : ∀ chosen : SimpleRequest, ∃ m1,
        (match LRUCache.W64.admitReq r chosen with
          | none => (Except.error Fault.diverges : Except Fault (SLRUCache σ δ))
          | some seg0a =>
              Except.ok { m with
                segments := (Function.update m.segments 0 seg0a)
                _currentSize := add64 seg0a._currentSize (m.segments 1)._currentSize })
          = Except.ok m1 ∧ Inv (m1.segments 0) ∧
          (m1.segments 0)._cacheSize = (m.segments 0)._cacheSize := by
      intro chosen
      obtain ⟨r1, hr1, hinv1, hcap1⟩ := inv_admission hinv chosen
      rw [LRUCache.W64.admitReq_eq hinv hrcap1, hr1]
      refine ⟨_, rfl, ?_, ?_⟩
      · show Inv (Function.update m.segments 0 r1 0)
        rw [Function.update_same]; exact hinv1
      · show (Function.update m.segments 0 r1 0)._cacheSize = _
        rw [Function.update_same, hcap1, hrcap0]
    exact key _

end SLRUCache

namespace W_TinyLFU

open LRUCache

/-- The loop of `W_TinyLFU::admit` over the victims is the left fold of
`admit_from_window` over the list. -/
theorem offerVictims64_eq_foldlM {σ δ : Type} (cm : CountMin σ) (door : DoorKeeper δ) :
    ∀ (vs : List SimpleRequest) (m : SLRUCache σ δ),
      W_TinyLFU.W64.offerVictims cm door vs m
        = vs.foldlM (fun m1 v => SLRUCache.W64.admit_from_window cm door m1 v) m := by
  intro vs
  induction vs with
  | nil => intro m; rfl
  | cons v vs ih =>
    intro m
    rw [List.foldlM_cons]
    unfold W_TinyLFU.W64.offerVictims
    cases h : SLRUCache.W64.admit_from_window cm door m v with
    | error e => rfl
    | ok m1 => exact ih m1

theorem offerVictims64_total {σ δ : Type} (cm : CountMin σ) (door : DoorKeeper δ) :
    ∀ (vs : List SimpleRequest) (m : SLRUCache σ δ), Inv (m.segments 0) →
      (m.segments 0)._cacheSize < 2 ^ 63 →
      ∃ m1, W_TinyLFU.W64.offerVictims cm door vs m = Except.ok m1 := by
  intro vs
  induction vs with
  | nil => intro m _ _; exact ⟨m, rfl⟩
  | cons v vs ih =>
    intro m h hcap
    obtain ⟨m1, h1, hinv1, hcap1⟩ := SLRUCache.admit_from_window64_total cm door m v h hcap
    obtain ⟨m2, h2⟩ := ih m1 hinv1 (by rw [hcap1]; exact hcap)
    refine ⟨m2, ?_⟩
    unfold W_TinyLFU.W64.offerVictims
    rw [h1]
    exact h2

/-- C21 fails when the 64-bit sum wraps.  The window has the capacity `2^64 - 1` and
is full with one object of `2^64 - 1` bytes; the request `{2, 2}` is known to the
door-keeper and not larger than the window.  The list and the request do not fit
together, so the tail object is needed to make room; the code forms
`2^64 - 1 + 2 = 1`, removes nothing, and the window lists both objects. -/
theorem C21_counterexample :
    Inv sampleHugeWindow.window ∧ Inv (sampleHugeWindow.main_cache.segments 0) ∧
    exactDoorKeeper.pointEst sampleHugeWindow.main_cache.dk
        (toInt64 (SimpleRequest.mk 2 2).id) ≠ 0 ∧
    0 < sampleHugeWindow.window._cacheSize ∧
    (SimpleRequest.mk 2 2).size ≤ sampleHugeWindow.window._cacheSize ∧
    ¬ fitsAfter sampleHugeWindow.window (SimpleRequest.mk 2 2).size 0 ∧
    (W_TinyLFU.W64.admitReq exactCountMin exactDoorKeeper sampleHugeWindow
        (SimpleRequest.mk 2 2)).map
        (fun c => (c.window.objs, (c.main_cache.segments 0).objs,
          (c.main_cache.segments 1).objs))
      = Except.ok ([CacheObject.mk 2 2, CacheObject.mk 1 (2 ^ 64 - 1)], [], []) := by
  refine ⟨⟨by decide, by decide, by decide, by decide, by decide⟩, inv_empty 18, by decide,
    by decide, by decide, ?_, by decide⟩
  unfold fitsAfter
  decide

/-- C21 (amended): on a `W_TinyLFU` cache whose window and main segment 0 are
consistent and have capacities below `2^63`, for a request whose door-keeper
estimate is not 0, with the 64-bit arithmetic of the code: with a window capacity of
0 the call is `admit_from_window(req)` on the main cache; with a positive window
capacity that the request does not exceed, the call returns, the least number `k` of
window tail objects that makes room is removed, the request is the front object of
the window, and the main cache is the result of calling `admit_from_window` on the
removed objects one after the other, the tail (first evicted) first, each call on
the main cache the previous one returned. -/
theorem C21_admit_through_window {σ δ : Type} (cm : CountMin σ) (door : DoorKeeper δ)
    (c : W_TinyLFU σ δ) (req : SimpleRequest) (hw : Inv c.window)
    (hwcap : c.window._cacheSize < 2 ^ 63) (hm : Inv (c.main_cache.segments 0))
    (hmcap : (c.main_cache.segments 0)._cacheSize < 2 ^ 63)
    (hdk : door.pointEst c.main_cache.dk (toInt64 req.id) ≠ 0) :
    (c.window._cacheSize = 0 →
      ∃ m, SLRUCache.W64.admit_from_window cm door c.main_cache req = Except.ok m ∧
        W_TinyLFU.W64.admitReq cm door c req = Except.ok { c with main_cache := m }) ∧
    (0 < c.window._cacheSize → req.size ≤ c.window._cacheSize →
      ∃ k w m, k ≤ c.window.objs.length ∧ fitsAfter c.window req.size k ∧
        (∀ j, j < k → ¬ fitsAfter c.window req.size j) ∧
        w.objs = CacheObject.ofReq req :: c.window.objs.take (c.window.objs.length - k) ∧
        w._cacheSize = c.window._cacheSize ∧
        ((c.window.objs.drop (c.window.objs.length - k)).reverse.map CacheObject.toReq).foldlM
            (fun m1 v => SLRUCache.W64.admit_from_window cm door m1 v) c.main_cache
          = Except.ok m ∧
        W_TinyLFU.W64.admitReq cm door c req
          = Except.ok { c with window := w, main_cache := m }) := by
  have hsearch : SLRUCache.search_door_keeper door c.main_cache (toInt64 req.id) ≠ 0 := hdk
  constructor
  · intro h0
    obtain ⟨m, hmres, -, -⟩ :=
      SLRUCache.admit_from_window64_total cm door c.main_cache req hm hmcap
    refine ⟨m, hmres, ?_⟩
    unfold W_TinyLFU.W64.admitReq
    rw [if_pos hsearch, if_pos h0, hmres]
  · intro hpos hsize
    obtain ⟨k, w, hk, hfit, hmin, hobjs, hcap, hres⟩ :=
      LRU.admit_with_return_spec hw.size_eq hsize
    obtain ⟨m, hmres⟩ := offerVictims64_total cm door
      ((c.window.objs.drop (c.window.objs.length - k)).reverse.map CacheObject.toReq)
      c.main_cache hm hmcap
    refine ⟨k, w, m, hk, hfit, hmin, hobjs, hcap, ?_, ?_⟩
    · rw [← offerVictims64_eq_foldlM]; exact hmres
    · unfold W_TinyLFU.W64.admitReq
      rw [if_pos hsearch, if_neg (by omega), LRU.admit_with_return64_eq hw hwcap, hres]
      simp only
      rw [hmres]

theorem inv_sampleVictim_window : Inv sampleVictim.window :=
  ⟨by decide, by decide, by decide, by decide, by decide⟩

/-- Witness of C21.  The scenario of capacity 100 and window percentage 10: the first
`admit` of X (id 1, 4 bytes) only marks the door-keeper; the second `admit` of X puts
X at the front of the window.  With Y (id 2, 8 bytes) in the window, the admission
of X removes Y from the window and `admit_from_window` puts Y into segment 0 of the
main cache. -/
theorem C21_admit_through_window_witness :
    W_TinyLFU.W64.admitReq exactCountMin exactDoorKeeper sample (SimpleRequest.mk 1 4)
      = Except.ok { sample with
          main_cache := SLRUCache.update_door_keeper exactDoorKeeper sample.main_cache 1 } ∧
    (∃ w m, w.objs = [CacheObject.mk 1 4] ∧
      W_TinyLFU.W64.admitReq exactCountMin exactDoorKeeper
          { sample with
            main_cache := SLRUCache.update_door_keeper exactDoorKeeper sample.main_cache 1 }
          (SimpleRequest.mk 1 4)
        = Except.ok { sample with window := w, main_cache := m }) ∧
    (∃ k w m, k ≤ sampleVictim.window.objs.length ∧
      fitsAfter sampleVictim.window (SimpleRequest.mk 1 4).size k ∧
      (∀ j, j < k → ¬ fitsAfter sampleVictim.window (SimpleRequest.mk 1 4).size j) ∧
      w.objs = CacheObject.ofReq (SimpleRequest.mk 1 4)
        :: sampleVictim.window.objs.take (sampleVictim.window.objs.length - k) ∧
      w._cacheSize = sampleVictim.window._cacheSize ∧
      ((sampleVictim.window.objs.drop (sampleVictim.window.objs.length - k)).reverse.map
          CacheObject.toReq).foldlM
          (fun m1 v => SLRUCache.W64.admit_from_window exactCountMin exactDoorKeeper m1 v)
          sampleVictim.main_cache
        = Except.ok m ∧
      W_TinyLFU.W64.admitReq exactCountMin exactDoorKeeper sampleVictim (SimpleRequest.mk 1 4)
        = Except.ok { sampleVictim with window := w, main_cache := m }) ∧
    (W_TinyLFU.W64.admitReq exactCountMin exactDoorKeeper sampleVictim
        (SimpleRequest.mk 1 4)).map
        (fun c => (c.window.objs, (c.main_cache.segments 0).objs,
          (c.main_cache.segments 1).objs))
      = Except.ok ([CacheObject.mk 1 4], [CacheObject.mk 2 8], []) := by
  refine ⟨rfl, ?_, ?_, by decide⟩
  · obtain ⟨k, w, m, -, -, -, hobjs, -, -, hres⟩ :=
      (C21_admit_through_window exactCountMin exactDoorKeeper
        { sample with
          main_cache := SLRUCache.update_door_keeper exactDoorKeeper sample.main_cache 1 }
        (SimpleRequest.mk 1 4) (inv_empty 10) (by decide) (inv_empty 18) (by decide)
        (by decide)).2
        (by decide) (by decide)
    refine ⟨w, m, ?_, hres⟩
    rw [hobjs]
    simp [sample, LRUCache.empty, objs, CacheObject.ofReq]
  · exact (C21_admit_through_window exactCountMin exactDoorKeeper sampleVictim
      (SimpleRequest.mk 1 4) inv_sampleVictim_window (by decide) (inv_empty 18) (by decide)
      (by decide)).2
      (by decide) (by decide)

end W_TinyLFU

end WebCacheSim
namespace WebCacheSim

/-! ### W-TinyLFU: the hill climber -/

namespace LRUCache

theorem evictLoop_fit {fuel : Nat} {c r : LRUCache} {size : Nat}
    (h : evictLoop fuel c size = some r) :
    r._currentSize + size ≤ r._cacheSize ∧ r._cacheSize = c._cacheSize := by
  induction fuel generalizing c with
  | zero => simp [evictLoop] at h
  | succ f ih =>
    rw [evictLoop_succ] at h
    by_cases hgt : c._currentSize + size > c._cacheSize
    · rw [if_pos hgt] at h
      have := ih h
      rw [evict_cacheSize] at this
      exact this
    · rw [if_neg hgt] at h
      simp at h; subst h
      exact ⟨by omega, rfl⟩

/-- An admission keeps the capacity. -/
theorem admit_cacheSize {c c1 : LRUCache} {req : SimpleRequest}
    (h : admitReq c req = some c1) : c1._cacheSize = c._cacheSize := by
  by_cases hov : req.size > c._cacheSize
  · rw [admit_oversize hov] at h
    simp at h; subst h; rfl
  · rw [admit_fitting hov] at h
    cases hr : evictLoop (c._cacheList.length + 1) c req.size with
    | none => rw [hr] at h; simp at h
    | some r =>
      rw [hr] at h
      simp at h
      subst h
      exact (evictLoop_fit hr).2

end LRUCache

namespace W_TinyLFU

open LRUCache

theorem intToU64_of_nonneg {x : Int} (h0 : 0 ≤ x) (h1 : x < 2 ^ 31) : intToU64 x = x.toNat := by
  unfold intToU64
  rw [Int.emod_eq_of_lt h0 (by omega)]

theorem admitPtr_cacheSize {w w1 : LRUCache} {r : Option SimpleRequest}
    (h : admitPtr w r = Except.ok w1) : w1._cacheSize = w._cacheSize := by
  cases r with
  | none => simp [admitPtr] at h
  | some req =>
    have h1 : LRUCache.admitOrFault w req = Except.ok w1 := h
    unfold LRUCache.admitOrFault at h1
    cases ha : LRUCache.admitReq w req with
    | none => rw [ha] at h1; simp at h1
    | some w2 =>
      rw [ha] at h1
      simp only [Except.ok.injEq] at h1
      subst h1
      exact admit_cacheSize ha

theorem increaseWindowLoop_succ {σ δ : Type} (bound : ℚ) (fuel : Nat) (w : LRUCache)
    (m : SLRUCache σ δ) :
    increaseWindowLoop bound (fuel + 1) w m =
      if bound < Double.ofU64 m._currentSize then
        match admitPtr w
            (if toInt32 (m.segments 0)._currentSize ≤ 0 then (SLRUCache.evict_return m 1).2
              else (SLRUCache.evict_return m 0).2) with
        | Except.ok w1 =>
            increaseWindowLoop bound fuel w1
              (if toInt32 (m.segments 0)._currentSize ≤ 0 then (SLRUCache.evict_return m 1).1
                else (SLRUCache.evict_return m 0).1)
        | Except.error e => Except.error e
      else Except.ok (w, m) :=
  rfl

/-- The loop of `increaseWindow` keeps the capacity of the window. -/
theorem increaseWindowLoop_cacheSize {σ δ : Type} (bound : ℚ) :
    ∀ (fuel : Nat) (w : LRUCache) (m : SLRUCache σ δ) (r : LRUCache × SLRUCache σ δ),
      increaseWindowLoop bound fuel w m = Except.ok r → r.1._cacheSize = w._cacheSize := by
  intro fuel
  induction fuel with
  | zero => intro w m r h; simp [increaseWindowLoop] at h
  | succ f ih =>
    intro w m r h
    rw [increaseWindowLoop_succ] at h
    by_cases hb : bound < Double.ofU64 m._currentSize
    · rw [if_pos hb] at h
      cases ha : admitPtr w
          (if toInt32 (m.segments 0)._currentSize ≤ 0 then (SLRUCache.evict_return m 1).2
            else (SLRUCache.evict_return m 0).2) with
      | error e => rw [ha] at h; simp at h
      | ok w1 =>
        rw [ha] at h
        simp only at h
        rw [ih _ _ r h, admitPtr_cacheSize ha]
    · rw [if_neg hb] at h
      simp only [Except.ok.injEq] at h
      rw [← h]

theorem increaseMainCacheLoop_succ {σ δ : Type} (bound : ℚ) (fuel : Nat) (w : LRUCache)
    (m : SLRUCache σ δ) :
    increaseMainCacheLoop bound (fuel + 1) w m =
      if bound < Double.ofU64 w._currentSize then
        match SLRUCache.segment_admit m
            (if toInt32 (m.segments 0)._currentSize ≥ toInt32 (m.segments 0)._cacheSize then 1
              else 0)
            (LRUCache.evict_return w).2 with
        | Except.ok m1 => increaseMainCacheLoop bound fuel (LRUCache.evict_return w).1 m1
        | Except.error e => Except.error e
      else Except.ok (w, m) :=
  rfl

theorem segment_admit_cacheSize {σ δ : Type} {m m1 : SLRUCache σ δ} {idx : Nat}
    {r : Option SimpleRequest} (h : SLRUCache.segment_admit m idx r = Except.ok m1) :
    m1._cacheSize = m._cacheSize := by
  unfold SLRUCache.segment_admit at h
  cases hs : Segments.segment_admit idx m.segments r with
  | error e => rw [hs] at h; simp at h
  | ok s =>
    rw [hs] at h
    simp only [Except.ok.injEq] at h
    rw [← h]

/-- The loop of `increaseMainCache` keeps the capacity of the main cache. -/
theorem increaseMainCacheLoop_cacheSize {σ δ : Type} (bound : ℚ) :
    ∀ (fuel : Nat) (w : LRUCache) (m : SLRUCache σ δ) (r : LRUCache × SLRUCache σ δ),
      increaseMainCacheLoop bound fuel w m = Except.ok r → r.2._cacheSize = m._cacheSize := by
  intro fuel
  induction fuel with
  | zero => intro w m r h; simp [increaseMainCacheLoop] at h
  | succ f ih =>
    intro w m r h
    rw [increaseMainCacheLoop_succ] at h
    by_cases hb : bound < Double.ofU64 w._currentSize
    · rw [if_pos hb] at h
      cases ha : SLRUCache.segment_admit m
          (if toInt32 (m.segments 0)._currentSize ≥ toInt32 (m.segments 0)._cacheSize then 1
            else 0)
          (LRUCache.evict_return w).2 with
      | error e => rw [ha] at h; simp at h
      | ok m1 =>
        rw [ha] at h
        simp only at h
        rw [ih _ _ r h, segment_admit_cacheSize ha]
    · rw [if_neg hb] at h
      simp only [Except.ok.injEq] at h
      rw [← h]

/-- What `increaseWindow` leaves as it was, and the capacities it returns with. -/
theorem increaseWindow_fields {σ δ : Type} {c c1 : W_TinyLFU σ δ}
    (h : increaseWindow c = Except.ok c1) :
    c1.window_size_p = c.window_size_p ∧ c1.prev_hit_ratio = c.prev_hit_ratio ∧
      c1._cacheSize = c._cacheSize ∧ c1.reqs = c.reqs ∧ c1.hits = c.hits ∧
      c1.window._cacheSize = c.window._cacheSize ∧
      c1.main_cache._cacheSize = Double.toU64 (mainShare c._cacheSize c.window_size_p) := by
  unfold increaseWindow at h
  cases hl : increaseWindowLoop (mainShare c._cacheSize c.window_size_p)
      ((c.main_cache.segments 0)._cacheList.length
        + (c.main_cache.segments 1)._cacheList.length + 1) c.window c.main_cache with
  | error e => rw [hl] at h; simp at h
  | ok r =>
    obtain ⟨w, m⟩ := r
    rw [hl] at h
    simp only [Except.ok.injEq] at h
    have hw := increaseWindowLoop_cacheSize _ _ _ _ _ hl
    rw [← h]
    exact ⟨rfl, rfl, rfl, rfl, rfl, hw, rfl⟩

/-- What `increaseMainCache` leaves as it was, and the capacities it returns with. -/
theorem increaseMainCache_fields {σ δ : Type} {c c1 : W_TinyLFU σ δ}
    (h : increaseMainCache c = Except.ok c1) :
    c1.window_size_p = c.window_size_p ∧ c1.prev_hit_ratio = c.prev_hit_ratio ∧
      c1._cacheSize = c._cacheSize ∧ c1.reqs = c.reqs ∧ c1.hits = c.hits ∧
      c1.window._cacheSize = Double.toU64 (windowShareLate c._cacheSize c.window_size_p) ∧
      c1.main_cache._cacheSize = c.main_cache._cacheSize := by
  unfold increaseMainCache at h
  cases hl : increaseMainCacheLoop (windowShare c._cacheSize c.window_size_p)
      (c.window._cacheList.length + 1) c.window c.main_cache with
  | error e => rw [hl] at h; simp at h
  | ok r =>
    obtain ⟨w, m⟩ := r
    rw [hl] at h
    simp only [Except.ok.injEq] at h
    have hm := increaseMainCacheLoop_cacheSize _ _ _ _ _ hl
    rw [← h]
    exact ⟨rfl, rfl, rfl, rfl, rfl, rfl, hm⟩

theorem windowUp_eq (p : Int) :
    windowUp p = if p = 0 then 1 else if p = 1 then 5 else min (p + 5) 80 := by
  unfold windowUp
  by_cases h0 : p = 0
  · rw [if_pos h0, if_pos h0]
  · rw [if_neg h0, if_neg h0]
    by_cases h1 : p = 1
    · rw [if_pos h1, if_pos h1]
    · rw [if_neg h1, if_neg h1]
      by_cases h2 : p + 5 > 80
      · rw [if_pos h2, min_eq_right (by omega)]
      · rw [if_neg h2, min_eq_left (by omega)]

theorem hillClimber_up {σ δ : Type} (c : W_TinyLFU σ δ) (reqs hits : Int)
    (h0 : ¬ HILL_CLIMBER_FACTOR * c._cacheSize = 0)
    (hmod : intToU64 reqs % (HILL_CLIMBER_FACTOR * c._cacheSize) = 0)
    (hgt : hitRatio hits reqs > c.prev_hit_ratio) :
    hillClimber c reqs hits
      = increaseWindow { c with
          window_size_p := windowUp c.window_size_p
          prev_hit_ratio := hitRatio hits reqs
          window := (LRUCache.setSize c.window
            (Double.toU64 (windowShare c._cacheSize (windowUp c.window_size_p)))) } := by
  unfold hillClimber
  rw [if_neg h0, if_neg (by intro h; exact h hmod), if_pos hgt]

theorem hillClimber_down {σ δ : Type} (c : W_TinyLFU σ δ) (reqs hits : Int)
    (h0 : ¬ HILL_CLIMBER_FACTOR * c._cacheSize = 0)
    (hmod : intToU64 reqs % (HILL_CLIMBER_FACTOR * c._cacheSize) = 0)
    (hlt : hitRatio hits reqs < c.prev_hit_ratio) :
    hillClimber c reqs hits
      = increaseMainCache { c with
          window_size_p := windowDown c.window_size_p
          prev_hit_ratio := hitRatio hits reqs
          main_cache := (SLRUCache.setSize c.main_cache
            (Double.toU64 (mainShare c._cacheSize (windowDown c.window_size_p)))) } := by
  unfold hillClimber
  rw [if_neg h0, if_neg (by intro h; exact h hmod), if_neg (not_lt.mpr (le_of_lt hlt)),
    if_pos hlt]

/-- C26: `W_TinyLFU::hillClimber(reqs, hits)` on a cache of positive capacity, for a
positive request count (an `int`).  Unless `reqs` is a multiple of
`HILL_CLIMBER_FACTOR * capacity` it returns the state unchanged.  At a multiple, with
`r` the double `double(hits)/reqs`: if `r` equals the previous hit ratio the state is
unchanged; if `r` is higher, the call returns with the percentage `p` set to 1 for
`p = 0`, to 5 for `p = 1` and to `min(p + 5, 80)` otherwise, the previous hit ratio
set to `r`, the window capacity `(uint64_t)(capacity*(double(p)/100))` and the main
capacity `(uint64_t)(capacity*(1-double(p)/100))` of the new `p`; if `r` is lower,
it returns with `p` left at 0 for `p = 0`, set to 0 for `p = 1`, to 1 for `p = 5` and
to `p - 5` otherwise, the previous hit ratio set to `r`, the window capacity
`(uint64_t)(capacity*double(p)/100)` and the main capacity
`(uint64_t)(capacity*(1-double(p)/100))` of the new `p`.  The products, quotients
and differences are those of binary64. -/
theorem C26_hill_climber_ladder {σ δ : Type} (c : W_TinyLFU σ δ) (reqs hits : Int)
    (hcs : 0 < c._cacheSize) (hreqs : 0 < reqs) (hint : reqs < 2 ^ 31) :
    (reqs.toNat % (HILL_CLIMBER_FACTOR * c._cacheSize) ≠ 0 →
      hillClimber c reqs hits = Except.ok c) ∧
    (reqs.toNat % (HILL_CLIMBER_FACTOR * c._cacheSize) = 0 →
      (hitRatio hits reqs = c.prev_hit_ratio → hillClimber c reqs hits = Except.ok c) ∧
      (hitRatio hits reqs > c.prev_hit_ratio →
        ∀ c1, hillClimber c reqs hits = Except.ok c1 →
          c1.window_size_p =
              (if c.window_size_p = 0 then 1 else if c.window_size_p = 1 then 5
                else min (c.window_size_p + 5) 80) ∧
            c1.prev_hit_ratio = hitRatio hits reqs ∧
            c1.window._cacheSize = Double.toU64 (windowShare c._cacheSize c1.window_size_p) ∧
            c1.main_cache._cacheSize
              = Double.toU64 (mainShare c._cacheSize c1.window_size_p)) ∧
      (hitRatio hits reqs < c.prev_hit_ratio →
        ∀ c1, hillClimber c reqs hits = Except.ok c1 →
          c1.window_size_p =
              (if c.window_size_p = 0 then 0 else if c.window_size_p = 1 then 0
                else if c.window_size_p = 5 then 1 else c.window_size_p - 5) ∧
            c1.prev_hit_ratio = hitRatio hits reqs ∧
            c1.window._cacheSize
              = Double.toU64 (windowShareLate c._cacheSize c1.window_size_p) ∧
            c1.main_cache._cacheSize
              = Double.toU64 (mainShare c._cacheSize c1.window_size_p))) := by
  have hne : ¬ HILL_CLIMBER_FACTOR * c._cacheSize = 0 := by
    unfold HILL_CLIMBER_FACTOR; omega
  have hconv : intToU64 reqs = reqs.toNat := intToU64_of_nonneg (by omega) hint
  constructor
  · intro hmod
    unfold hillClimber
    rw [if_neg hne, hconv, if_pos hmod]
  · intro hmod
    have hnmod : ¬ reqs.toNat % (HILL_CLIMBER_FACTOR * c._cacheSize) ≠ 0 := by
      intro h; exact h hmod
    have hmod1 : intToU64 reqs % (HILL_CLIMBER_FACTOR * c._cacheSize) = 0 := by
      rw [hconv]; exact hmod
    refine ⟨?_, ?_, ?_⟩
    · intro heq
      unfold hillClimber
      rw [if_neg hne, hconv, if_neg hnmod, if_neg (by rw [heq]; exact lt_irrefl _),
        if_neg (by rw [heq]; exact lt_irrefl _)]
    · intro hgt c1 h1
      rw [hillClimber_up c reqs hits hne hmod1 hgt] at h1
      obtain ⟨hp, hprev, -, -, -, hw, hm⟩ := increaseWindow_fields h1
      have hp1 : c1.window_size_p = windowUp c.window_size_p := hp
      refine ⟨by rw [hp1, windowUp_eq], hprev, ?_, ?_⟩
      · rw [hw, hp1]; rfl
      · rw [hm, hp1]
    · intro hlt c1 h1
      rw [hillClimber_down c reqs hits hne hmod1 hlt] at h1
      obtain ⟨hp, hprev, -, -, -, hw, hm⟩ := increaseMainCache_fields h1
      have hp1 : c1.window_size_p = windowDown c.window_size_p := hp
      refine ⟨by rw [hp1]; rfl, hprev, ?_, ?_⟩
      · rw [hw, hp1]
      · rw [hm, hp1]
        show (SLRUCache.setSize c.main_cache _)._cacheSize = _
        rw [SLRUCache.setSize_cacheSize]

end W_TinyLFU

end WebCacheSim

namespace WebCacheSim


namespace W_TinyLFU

open LRUCache

theorem admitReq_fields {σ δ : Type} (cm : CountMin σ) (door : DoorKeeper δ)
    {c c1 : W_TinyLFU σ δ} {req : SimpleRequest} (h : admitReq cm door c req = Except.ok c1) :
    c1.window_size_p = c.window_size_p := by
  unfold admitReq at h
  by_cases hs : SLRUCache.search_door_keeper door c.main_cache (toInt64 req.id) ≠ 0
  · rw [if_pos hs] at h
    by_cases h0 : c.window._cacheSize = 0
    · rw [if_pos h0] at h
      cases hm : SLRUCache.admit_from_window cm door c.main_cache req with
      | error e => rw [hm] at h; simp at h
      | ok m =>
        rw [hm] at h
        simp only [Except.ok.injEq] at h
        subst h; rfl
    · rw [if_neg h0] at h
      cases hw : LRU.admit_with_return c.window req with
      | error e => rw [hw] at h; simp at h
      | ok r =>
        obtain ⟨w, victims⟩ := r
        rw [hw] at h
        simp only at h
        cases hm : offerVictims cm door victims c.main_cache with
        | error e => rw [hm] at h; simp at h
        | ok m =>
          rw [hm] at h
          simp only [Except.ok.injEq] at h
          subst h; rfl
  · rw [if_neg hs] at h
    simp only [Except.ok.injEq] at h
    subst h; rfl

theorem onLadder_windowUp {p : Int} (h : OnLadder p) : OnLadder (windowUp p) := by
  unfold OnLadder at h ⊢
  unfold windowUp
  by_cases h0 : p = 0
  · rw [if_pos h0]; omega
  · rw [if_neg h0]
    by_cases h1 : p = 1
    · rw [if_pos h1]; omega
    · rw [if_neg h1]
      by_cases h2 : p + 5 > 80
      · rw [if_pos h2]; omega
      · rw [if_neg h2]; omega

theorem onLadder_windowDown {p : Int} (h : OnLadder p) : OnLadder (windowDown p) := by
  unfold OnLadder at h ⊢
  unfold windowDown
  by_cases h0 : p = 0
  · rw [if_pos h0]; omega
  · rw [if_neg h0]
    by_cases h1 : p = 1
    · rw [if_pos h1]; omega
    · rw [if_neg h1]
      by_cases h2 : p = 5
      · rw [if_pos h2]; omega
      · rw [if_neg h2]; omega

theorem hillClimber_ladder {σ δ : Type} {c c1 : W_TinyLFU σ δ} {reqs hits : Int}
    (h : hillClimber c reqs hits = Except.ok c1) (hp : OnLadder c.window_size_p) :
    OnLadder c1.window_size_p := by
  unfold hillClimber at h
  by_cases hz : HILL_CLIMBER_FACTOR * c._cacheSize = 0
  · rw [if_pos hz] at h; simp at h
  · rw [if_neg hz] at h
    by_cases hmod : intToU64 reqs % (HILL_CLIMBER_FACTOR * c._cacheSize) ≠ 0
    · rw [if_pos hmod] at h
      simp only [Except.ok.injEq] at h
      subst h; exact hp
    · rw [if_neg hmod] at h
      by_cases hgt : hitRatio hits reqs > c.prev_hit_ratio
      · rw [if_pos hgt] at h
        rw [(increaseWindow_fields h).1]
        exact onLadder_windowUp hp
      · rw [if_neg hgt] at h
        by_cases hlt : hitRatio hits reqs < c.prev_hit_ratio
        · rw [if_pos hlt] at h
          rw [(increaseMainCache_fields h).1]
          exact onLadder_windowDown hp
        · rw [if_neg hlt] at h
          simp only [Except.ok.injEq] at h
          subst h; exact hp

theorem lookup_ladder {σ δ : Type} (cm : CountMin σ) (door : DoorKeeper δ)
    {c : W_TinyLFU σ δ} {req : SimpleRequest} {r : W_TinyLFU σ δ × Bool}
    (hp : OnLadder c.window_size_p) (h : lookup cm door c req = Except.ok r) :
    OnLadder r.1.window_size_p := by
  unfold lookup at h
  simp only at h
  split at h
  · split at h
    · rename_i c1 hc
      simp only [Except.ok.injEq] at h
      subst h
      exact hillClimber_ladder hc hp
    · simp at h
  · split at h
    · simp at h
    · split at h
      · rename_i c1 hc
        simp only [Except.ok.injEq] at h
        subst h
        exact hillClimber_ladder hc hp
      · simp at h
    · split at h
      · rename_i c1 hc
        simp only [Except.ok.injEq] at h
        subst h
        exact hillClimber_ladder hc hp
      · simp at h

theorem step_ladder {σ δ : Type} (cm : CountMin σ) (door : DoorKeeper δ)
    {c c1 : W_TinyLFU σ δ} (op : LRUCache.Op) (hp : OnLadder c.window_size_p)
    (h : step cm door c op = Except.ok c1) : OnLadder c1.window_size_p := by
  cases op with
  | lookup req =>
    simp only [step] at h
    cases hl : lookup cm door c req with
    | error e => rw [hl] at h; simp at h
    | ok r =>
      rw [hl] at h
      simp only [Except.ok.injEq] at h
      subst h
      exact lookup_ladder cm door hp hl
  | admitReq req =>
    have h1 : admitReq cm door c req = Except.ok c1 := h
    rw [admitReq_fields cm door h1]; exact hp
  | evict =>
    have h1 : Except.ok c = (Except.ok c1 : Except Fault (W_TinyLFU σ δ)) := h
    rw [← Except.ok.inj h1]; exact hp
  | evictReq req =>
    have h1 : Except.ok c = (Except.ok c1 : Except Fault (W_TinyLFU σ δ)) := h
    rw [← Except.ok.inj h1]; exact hp

theorem run_ladder {σ δ : Type} (cm : CountMin σ) (door : DoorKeeper δ) :
    ∀ (ops : List LRUCache.Op) (c c1 : W_TinyLFU σ δ), OnLadder c.window_size_p →
      run cm door c ops = Except.ok c1 → OnLadder c1.window_size_p := by
  intro ops
  induction ops with
  | nil =>
    intro c c1 hp h
    have h1 : Except.ok c = (Except.ok c1 : Except Fault (W_TinyLFU σ δ)) := h
    rw [← Except.ok.inj h1]; exact hp
  | cons op ops ih =>
    intro c c1 hp h
    unfold run at h
    cases hs : step cm door c op with
    | error e => rw [hs] at h; simp at h
    | ok c2 =>
      rw [hs] at h
      exact ih c2 c1 (step_ladder cm door op hp hs) h

/-- C22, as stated, fails: `setPar` stores any number it is given, so after
`setPar(37)` on a cache of capacity 100 and an `admit` the window percentage is 37,
which is not one of 0, 1, 5, 10, ..., 80. -/
theorem C22_counterexample :
    (run exactCountMin exactDoorKeeper (setPar (fun _ => []) (fun _ => []) sample 37)
        [LRUCache.Op.admitReq (SimpleRequest.mk 1 4)]).map (fun c => c.window_size_p)
      = Except.ok 37 ∧ ¬ OnLadder 37 := by
  constructor <;> decide

/-- C22 (amended): when `setPar` is given one of the percentages 0, 1, 5, 10, ..., 80,
the window percentage is one of them after every sequence of `lookup`, `admit`,
`evict()` and `evict(req)` calls that returns. -/
theorem C22_window_percentage_on_ladder {σ δ : Type} (cm : CountMin σ) (door : DoorKeeper δ)
    (cmInit : Nat → σ) (dkInit : Nat → δ) (c0 c : W_TinyLFU σ δ) (p : Nat)
    (ops : List LRUCache.Op) (hp : OnLadder (p : Int))
    (h : run cm door (setPar cmInit dkInit c0 p) ops = Except.ok c) :
    OnLadder c.window_size_p :=
  run_ladder cm door ops _ c hp h

/-- Witness of C22: `setPar(10)` on a cache of capacity 100, then an `admit`. -/
theorem C22_window_percentage_on_ladder_witness :
    OnLadder ((10 : Nat) : Int) ∧
    ∃ c, run exactCountMin exactDoorKeeper (setPar (fun _ => []) (fun _ => []) sample 10)
        [LRUCache.Op.admitReq (SimpleRequest.mk 1 4)] = Except.ok c ∧
      OnLadder c.window_size_p := by
  refine ⟨by decide, ?_⟩
  cases h : run exactCountMin exactDoorKeeper (setPar (fun _ => []) (fun _ => []) sample 10)
      [LRUCache.Op.admitReq (SimpleRequest.mk 1 4)] with
  | ok c =>
    exact ⟨c, rfl, C22_window_percentage_on_ladder exactCountMin exactDoorKeeper
      (fun _ => []) (fun _ => []) sample c 10 _ (by decide) h⟩
  | error e =>
    have hv : (run exactCountMin exactDoorKeeper
        (setPar (fun _ => []) (fun _ => []) sample 10)
        [LRUCache.Op.admitReq (SimpleRequest.mk 1 4)]).map (fun c => c.window_size_p)
        = Except.ok 10 := by decide
    rw [h] at hv
    cases hv

end W_TinyLFU

end WebCacheSim
namespace WebCacheSim

namespace W_TinyLFU

open LRUCache

theorem hitRatio_50_100 : hitRatio 50 100 = 1 / 2 := by
  unfold hitRatio Double.ofInt
  have h1 : ((50 : Int) : ℚ) = 50 := by norm_num
  have h2 : ((100 : Int) : ℚ) = 100 := by norm_num
  rw [h1, h2, Double.round_fifty, Double.round_hundred, Double.div_fifty_hundred]

/-- At capacity 100 and 80 percent the window share is the double 80. -/
theorem windowShare_100_80 : windowShare 100 80 = 80 := by
  unfold windowShare Double.ofInt Double.ofU64
  have h1 : ((80 : Int) : ℚ) = 80 := by norm_num
  have h2 : ((100 : Int) : ℚ) = 100 := by norm_num
  have h3 : ((100 : Nat) : ℚ) = 100 := by norm_num
  rw [h1, h2, h3, Double.round_eighty, Double.round_hundred, Double.div_eighty_hundred,
    Double.mul_hundred_eighty]

/-- At capacity 100 and 80 percent the main share is a double below 20: the code
gives the main cache 19 bytes. -/
theorem mainShare_100_80 : mainShare 100 80 = 5629499534213119 / 2 ^ 48 := by
  unfold mainShare Double.ofInt Double.ofU64
  have h0 : ((1 : Int) : ℚ) = 1 := by norm_num
  have h1 : ((80 : Int) : ℚ) = 80 := by norm_num
  have h2 : ((100 : Int) : ℚ) = 100 := by norm_num
  have h3 : ((100 : Nat) : ℚ) = 100 := by norm_num
  rw [h0, h1, h2, h3, Double.round_one, Double.round_eighty, Double.round_hundred,
    Double.div_eighty_hundred, Double.sub_one_eighty, Double.mul_hundred_fifth]

theorem toU64_mainShare_100_80 : Double.toU64 (mainShare 100 80) = 19 := by
  rw [mainShare_100_80]
  unfold Double.toU64
  rw [Nat.floor_eq_iff (by norm_num)]
  constructor <;> norm_num

theorem toU64_windowShare_100_80 : Double.toU64 (windowShare 100 80) = 80 := by
  rw [windowShare_100_80]
  unfold Double.toU64
  exact Nat.floor_ofNat 80

/-- When the main cache already fits its new share, `increaseWindow` moves nothing
and only sets the capacities of the main cache. -/
theorem increaseWindow_fits {σ δ : Type} (c : W_TinyLFU σ δ)
    (h : ¬ mainShare c._cacheSize c.window_size_p < Double.ofU64 c.main_cache._currentSize) :
    increaseWindow c = Except.ok { c with
      main_cache := (SLRUCache.setSize c.main_cache
        (Double.toU64 (mainShare c._cacheSize c.window_size_p))) } := by
  unfold increaseWindow
  rw [increaseWindowLoop_succ, if_neg h]

/-- Witness of C26: capacity 100, window percentage 75, previous hit ratio 0; at
100 requests and 50 hits the ratio is the double 1/2, the percentage becomes 80,
the previous hit ratio 1/2, the window capacity 80 and the main capacity 19 (the
double `100*(1-80.0/100)` is below 20). -/
theorem C26_hill_climber_ladder_witness :
    ∃ c1, hillClimber sample75 100 50 = Except.ok c1 ∧ c1.window_size_p = 80 ∧
      c1.prev_hit_ratio = 1 / 2 ∧ c1.window._cacheSize = 80 ∧
      c1.main_cache._cacheSize = 19 := by
  have hgt : hitRatio 50 100 > sample75.prev_hit_ratio := by
    rw [hitRatio_50_100]
    show (1 / 2 : ℚ) > 0
    norm_num
  have hstep := hillClimber_up sample75 100 50 (by decide) (by decide) hgt
  have hfit := increaseWindow_fits
    { sample75 with
      window_size_p := windowUp sample75.window_size_p
      prev_hit_ratio := hitRatio 50 100
      window := (LRUCache.setSize sample75.window
        (Double.toU64 (windowShare sample75._cacheSize (windowUp sample75.window_size_p)))) }
    (by
      show ¬ mainShare 100 80 < Double.ofU64 0
      rw [mainShare_100_80]
      unfold Double.ofU64
      rw [Nat.cast_zero, Double.round_zero]
      norm_num)
  rw [hfit] at hstep
  obtain ⟨hp, hprev, hw, hm⟩ :=
    ((C26_hill_climber_ladder sample75 100 50 (by decide) (by decide) (by decide)).2
      (by decide)).2.1 hgt _ hstep
  have hp80 : (if sample75.window_size_p = 0 then (1 : Int)
      else if sample75.window_size_p = 1 then 5
      else min (sample75.window_size_p + 5) 80) = 80 := by decide
  have hp1 := hp.trans hp80
  rw [hp1] at hw hm
  exact ⟨_, hstep, hp1, hprev.trans hitRatio_50_100, hw.trans toU64_windowShare_100_80,
    hm.trans toU64_mainShare_100_80⟩

end W_TinyLFU

end WebCacheSim

namespace WebCacheSim

namespace S4LRUCache

open LRUCache Segments

/-- C27 fails on the code (the loop of `segment_admit` neither checks that the
object fits the segment nor that `evict_return` found a victim).  With `setSize(7)`
the segments hold 4, 1, 1 and 1 bytes.  The request of the 2-byte object 1 admits
it to segment 0; its second request hits there and calls `segment_admit(1, req)`:
segment 1 is empty and `0 + 2 > 1`, so `evict_return` returns null and the null
request is passed to `segment_admit(0, ·)`, which dereferences it. -/
theorem C27_null_victim_passed_down :
    (requests (setSize init 7) [SimpleRequest.mk 1 2]).map view
      = Except.ok [[CacheObject.mk 1 2], [], [], []] ∧
    ((setSize init 7) 1)._cacheList = [] ∧
    (LRUCache.evict_return ((setSize init 7) 1)).2 = none ∧
    ( Segments.segment_admit 1 (setSize init 7) (some (SimpleRequest.mk 1 2))).map view
      = Except.error Fault.nullRequest ∧
    (requests (setSize init 7) [SimpleRequest.mk 1 2, SimpleRequest.mk 1 2]).map view
      = Except.error Fault.nullRequest := by
  refine ⟨by decide, by decide, by decide, by decide, by decide⟩

end S4LRUCache

namespace TinyLFU

open LRUCache

theorem wf_sampleHot : WF sampleHot.toLRUCache := by
  constructor <;> decide

/-- C29: `TinyLFU::admit` is not atomic on rejection.  On the well-formed sample
state (capacity 2, A in front of B, exact sketch with estimates 2 for A, 1 for B and
2 for id 3, reached by the trace `{3,5}`, `{2,1}`, `{1,1}`, `{1,1}` and the lookup of
`{3,2}`) the admission of `{3,2}`, which is not larger than the capacity, evicts the
tail B (estimate 1 < 2), stops at A (estimate 2, not lower) and does not admit the
request: only A is resident afterwards. -/
theorem C29_eviction_without_admission :
    WF sampleHot.toLRUCache ∧
    ((requests exactCountMin (empty 2 [])
        [SimpleRequest.mk 3 5, SimpleRequest.mk 2 1, SimpleRequest.mk 1 1,
          SimpleRequest.mk 1 1]).map
        (fun c => ((lookup exactCountMin c (SimpleRequest.mk 3 2)).1.toLRUCache,
          (lookup exactCountMin c (SimpleRequest.mk 3 2)).1.cm_sketch,
          (lookup exactCountMin c (SimpleRequest.mk 3 2)).2)))
      = some (sampleHot.toLRUCache, sampleHot.cm_sketch, false) ∧
    (SimpleRequest.mk 3 2).size ≤ sampleHot._cacheSize ∧
    sampleHot.objs = [CacheObject.mk 1 1, CacheObject.mk 2 1] ∧
    (exactCountMin.pointEst sampleHot.cm_sketch 1, exactCountMin.pointEst sampleHot.cm_sketch 2,
      exactCountMin.pointEst sampleHot.cm_sketch (toInt32 3)) = (2, 1, 2) ∧
    (admitReq exactCountMin sampleHot (SimpleRequest.mk 3 2)).map
        (fun c => (c.objs, c._currentSize))
      = some ([CacheObject.mk 1 1], 1) := by
  refine ⟨wf_sampleHot, by decide, by decide, by decide, by decide, by decide⟩

end TinyLFU

end WebCacheSim

namespace WebCacheSim

/-! ### AdaptSize: the search stays in its bracket -/

namespace AdaptSizeCache

theorem coarseScan_cons {K : Type} [LinearOrderedField K] (hitRate : K → Option K) (x3 : K)
    (i : Nat) (is : List Nat) (acc : Option K × K) :
    coarseScan hitRate x3 (i :: is) acc =
      if (i : K) < x3 then
        coarseScan hitRate x3 is
          (if rateGt (hitRate (i : K)) acc.1 then (hitRate (i : K), (i : K)) else acc)
      else acc :=
  rfl

theorem gssLoop_succ {K : Type} [LinearOrderedField K] (r v tol : K) (hitRate : K → Option K)
    (n : Nat) (b : Bracket K) :
    gssLoop r v tol hitRate (n + 1) b =
      if |b.x3 - b.x0| > tol * (|b.x1| + |b.x2|) then
        if isNaN b.h1 || isNaN b.h2 then b
        else gssLoop r v tol hitRate n (gssStep r v hitRate b)
      else b :=
  rfl

theorem gssTrace_succ {K : Type} [LinearOrderedField K] (r v tol : K) (hitRate : K → Option K)
    (n : Nat) (b : Bracket K) :
    gssTrace r v tol hitRate (n + 1) b =
      if |b.x3 - b.x0| > tol * (|b.x1| + |b.x2|) then
        if isNaN b.h1 || isNaN b.h2 then [b]
        else b :: gssTrace r v tol hitRate n (gssStep r v hitRate b)
      else [b] :=
  rfl

/-- The coarse scan leaves `x1` between 0 and `x3`. -/
theorem coarseScan_bounds {K : Type} [LinearOrderedField K] (hitRate : K → Option K) (x3 : K) :
    ∀ (is : List Nat) (acc : Option K × K), 0 ≤ acc.2 → acc.2 ≤ x3 →
      0 ≤ (coarseScan hitRate x3 is acc).2 ∧ (coarseScan hitRate x3 is acc).2 ≤ x3 := by
  intro is
  induction is with
  | nil => intro acc h0 h1; exact ⟨h0, h1⟩
  | cons i is ih =>
    intro acc h0 h1
    rw [coarseScan_cons]
    by_cases hi : (i : K) < x3
    · rw [if_pos hi]
      by_cases hg : rateGt (hitRate (i : K)) acc.1 = true
      · rw [if_pos hg]
        exact ih _ (Nat.cast_nonneg i) (le_of_lt hi)
      · rw [if_neg hg]
        exact ih _ h0 h1
    · rw [if_neg hi]
      exact ⟨h0, h1⟩

theorem prepare_ordered {K : Type} [LinearOrderedField K] {v : K} (hv0 : 0 ≤ v) (hv1 : v ≤ 1)
    (hitRate : K → Option K) {x0 x1 x3 : K} (best : Option K) (h01 : x0 ≤ x1) (h13 : x1 ≤ x3) :
    (prepare v hitRate x0 x3 best x1).Ordered x0 x3 := by
  unfold prepare Bracket.Ordered
  by_cases h : x3 - x1 > x1 - x0
  · rw [if_pos h]
    have hd : 0 ≤ x3 - x1 := sub_nonneg.mpr h13
    have h1 : 0 ≤ v * (x3 - x1) := mul_nonneg hv0 hd
    have h2 : v * (x3 - x1) ≤ x3 - x1 := mul_le_of_le_one_left hd hv1
    refine ⟨le_refl _, h01, ?_, ?_, le_refl _⟩
    · show x1 ≤ x1 + v * (x3 - x1)
      linarith
    · show x1 + v * (x3 - x1) ≤ x3
      linarith
  · rw [if_neg h]
    have hd : 0 ≤ x1 - x0 := sub_nonneg.mpr h01
    have h1 : 0 ≤ v * (x1 - x0) := mul_nonneg hv0 hd
    have h2 : v * (x1 - x0) ≤ x1 - x0 := mul_le_of_le_one_left hd hv1
    refine ⟨le_refl _, ?_, ?_, h13, le_refl _⟩
    · show x0 ≤ x0 + v * (x1 - x0)
      linarith
    · show x0 + v * (x1 - x0) ≤ x1
      linarith

theorem gssStep_ordered {K : Type} [LinearOrderedField K] {r : K} (hr0 : 0 ≤ r) (hr1 : r ≤ 1)
    (hitRate : K → Option K) {b : Bracket K} {lo hi : K} (hb : b.Ordered lo hi) :
    (gssStep r (1 - r) hitRate b).Ordered lo hi := by
  obtain ⟨h0, h01, h12, h23, h3⟩ := hb
  unfold gssStep Bracket.Ordered
  by_cases h : rateGt b.h2 b.h1 = true
  · rw [if_pos h]
    have hd : 0 ≤ b.x3 - b.x2 := sub_nonneg.mpr h23
    have h1 : 0 ≤ r * (b.x3 - b.x2) := mul_nonneg hr0 hd
    have h2 : r * (b.x3 - b.x2) ≤ b.x3 - b.x2 := mul_le_of_le_one_left hd hr1
    refine ⟨le_trans h0 h01, h12, ?_, ?_, h3⟩
    · show b.x2 ≤ r * b.x2 + (1 - r) * b.x3
      linarith
    · show r * b.x2 + (1 - r) * b.x3 ≤ b.x3
      linarith
  · rw [if_neg h]
    have hd : 0 ≤ b.x1 - b.x0 := sub_nonneg.mpr h01
    have h1 : 0 ≤ r * (b.x1 - b.x0) := mul_nonneg hr0 hd
    have h2 : r * (b.x1 - b.x0) ≤ b.x1 - b.x0 := mul_le_of_le_one_left hd hr1
    refine ⟨h0, ?_, ?_, h12, le_trans h23 h3⟩
    · show b.x0 ≤ r * b.x1 + (1 - r) * b.x0
      linarith
    · show r * b.x1 + (1 - r) * b.x0 ≤ b.x1
      linarith

theorem gssLoop_ordered {K : Type} [LinearOrderedField K] {r : K} (hr0 : 0 ≤ r) (hr1 : r ≤ 1)
    (tol : K) (hitRate : K → Option K) {lo hi : K} :
    ∀ (n : Nat) (b : Bracket K), b.Ordered lo hi →
      (gssLoop r (1 - r) tol hitRate n b).Ordered lo hi := by
  intro n
  induction n with
  | zero => intro b hb; exact hb
  | succ n ih =>
    intro b hb
    rw [gssLoop_succ]
    by_cases hc : |b.x3 - b.x0| > tol * (|b.x1| + |b.x2|)
    · rw [if_pos hc]
      by_cases hn : (isNaN b.h1 || isNaN b.h2) = true
      · rw [if_pos hn]; exact hb
      · rw [if_neg hn]; exact ih _ (gssStep_ordered hr0 hr1 hitRate hb)
    · rw [if_neg hc]; exact hb

theorem bracket0_ordered {K : Type} [LinearOrderedField K] {r : K} (hr0 : 0 ≤ r) (hr1 : r ≤ 1)
    (hitRate : K → Option K) {L : K} (hL : 0 ≤ L) : (bracket0 r hitRate L).Ordered 0 L := by
  unfold bracket0
  obtain ⟨h0, h1⟩ := coarseScan_bounds hitRate L scanPoints (some 0, L) hL (le_refl L)
  exact prepare_ordered (by linarith) (by linarith) hitRate _ h0 h1

/-- The exponent the search returns lies between 0 and `L`. -/
theorem search_bounds {K : Type} [LinearOrderedField K] {r : K} (hr0 : 0 ≤ r) (hr1 : r ≤ 1)
    (tol : K) (maxIterations : Nat) (hitRate : K → Option K) {L : K} (hL : 0 ≤ L) {x : K}
    (h : search r tol maxIterations hitRate L = Except.ok (some x)) : 0 ≤ x ∧ x ≤ L := by
  unfold search at h
  by_cases hlt : (bracket0 r hitRate L).x1 < (bracket0 r hitRate L).x2
  · rw [if_pos hlt] at h
    have hch : choose (gssLoop r (1 - r) tol hitRate maxIterations (bracket0 r hitRate L))
        = some x := Except.ok.inj h
    obtain ⟨h0, h01, h12, h23, h3⟩ :=
      gssLoop_ordered hr0 hr1 tol hitRate maxIterations _ (bracket0_ordered hr0 hr1 hitRate hL)
    unfold choose at hch
    by_cases hn : (isNaN (gssLoop r (1 - r) tol hitRate maxIterations (bracket0 r hitRate L)).h1
        || isNaN (gssLoop r (1 - r) tol hitRate maxIterations (bracket0 r hitRate L)).h2) = true
    · rw [if_pos hn] at hch; simp at hch
    · rw [if_neg hn] at hch
      by_cases hg : rateGt (gssLoop r (1 - r) tol hitRate maxIterations (bracket0 r hitRate L)).h1
          (gssLoop r (1 - r) tol hitRate maxIterations (bracket0 r hitRate L)).h2 = true
      · rw [if_pos hg] at hch
        have hx := Option.some.inj hch
        rw [← hx]
        exact ⟨le_trans h0 h01, le_trans h12 (le_trans h23 h3)⟩
      · rw [if_neg hg] at hch
        have hx := Option.some.inj hch
        rw [← hx]
        exact ⟨le_trans h0 (le_trans h01 h12), le_trans h23 h3⟩
  · rw [if_neg hlt] at h
    simp at h

/-- What `reconfigure` does to `_cParam`: nothing, or the power of two of the
exponent its search returns. -/
theorem reconfigure_cParam {K : Type} [LinearOrderedField K] (E : AdaptEnv K)
    {c c1 : AdaptSizeCache K} (h : reconfigure E c = Except.ok c1) :
    c1._cParam = c._cParam ∨
      ∃ x, search E.gss_r E.tol c._maxIterations
          (E.modelHitRate (smooth E c).2.2.1 (smooth E c).2.2.2 c._cacheSize)
          (E.log2 c._cacheSize) = Except.ok (some x) ∧ c1._cParam = E.pow2 x := by
  unfold reconfigure at h
  by_cases h1 : decr64 c._nextReconfiguration > 0
  · rw [if_pos h1] at h
    simp only [Except.ok.injEq] at h
    subst h; exact Or.inl rfl
  · rw [if_neg h1] at h
    by_cases h2 : c.statSize ≤ c._cacheSize * 3
    · rw [if_pos h2] at h
      simp only [Except.ok.injEq] at h
      subst h; exact Or.inl rfl
    · rw [if_neg h2] at h
      cases hs : search E.gss_r E.tol c._maxIterations
          (E.modelHitRate (smooth E c).2.2.1 (smooth E c).2.2.2 c._cacheSize)
          (E.log2 c._cacheSize) with
      | error e => rw [hs] at h; simp at h
      | ok x =>
        rw [hs] at h
        simp only [Except.ok.injEq] at h
        subst h
        cases x with
        | none => exact Or.inl rfl
        | some e => exact Or.inr ⟨e, rfl, rfl⟩

/-- C24: over an ordered field (exact arithmetic), with `0 ≤ gss_r ≤ 1` and
`log2(capacity) ≥ 0` (capacity at least 1), whatever the statistics and whatever
values (NaN included) the hit-rate model returns: every run of `reconfigure` that
returns either leaves `_cParam` as it was or assigns `pow(2, x)` for an `x` with
`0 ≤ x ≤ log2(capacity)`; with `pow(2, ·)` monotone, `pow(2, 0) = 1` and
`pow(2, log2(capacity)) = capacity`, the assigned value lies between 1 and the
capacity. -/
theorem C24_cParam_in_bracket {K : Type} [LinearOrderedField K] (E : AdaptEnv K)
    (c c1 : AdaptSizeCache K) (hr0 : 0 ≤ E.gss_r) (hr1 : E.gss_r ≤ 1)
    (hL : 0 ≤ E.log2 c._cacheSize) (hmono : Monotone E.pow2) (hp0 : E.pow2 0 = 1)
    (hpL : E.pow2 (E.log2 c._cacheSize) = (c._cacheSize : K))
    (h : reconfigure E c = Except.ok c1) :
    c1._cParam = c._cParam ∨
      ∃ x, 0 ≤ x ∧ x ≤ E.log2 c._cacheSize ∧ c1._cParam = E.pow2 x ∧
        1 ≤ c1._cParam ∧ c1._cParam ≤ (c._cacheSize : K) := by
  rcases reconfigure_cParam E h with hsame | ⟨x, hs, hx⟩
  · exact Or.inl hsame
  · obtain ⟨h0, h1⟩ := search_bounds hr0 hr1 E.tol c._maxIterations _ hL hs
    refine Or.inr ⟨x, h0, h1, hx, ?_, ?_⟩
    · rw [hx, ← hp0]; exact hmono h0
    · rw [hx, ← hpL]; exact hmono h1

end AdaptSizeCache

end WebCacheSim

namespace WebCacheSim

/-! ### AdaptSize: NaN in the hit-rate model -/

namespace AdaptSizeCache

theorem head_mem_gssTrace {K : Type} [LinearOrderedField K] (r v tol : K)
    (hitRate : K → Option K) (n : Nat) (b : Bracket K) : b ∈ gssTrace r v tol hitRate n b := by
  cases n with
  | zero => exact List.mem_singleton.mpr rfl
  | succ n =>
    rw [gssTrace_succ]
    by_cases hc : |b.x3 - b.x0| > tol * (|b.x1| + |b.x2|)
    · rw [if_pos hc]
      by_cases hn : (isNaN b.h1 || isNaN b.h2) = true
      · rw [if_pos hn]; exact List.mem_singleton.mpr rfl
      · rw [if_neg hn]; exact List.mem_cons_self _ _
    · rw [if_neg hc]; exact List.mem_singleton.mpr rfl

/-- A NaN in a bracket the loop goes through is still there at the final check. -/
theorem gssTrace_nan {K : Type} [LinearOrderedField K] (r v tol : K) (hitRate : K → Option K) :
    ∀ (n : Nat) (b0 b : Bracket K), b ∈ gssTrace r v tol hitRate n b0 →
      (isNaN b.h1 || isNaN b.h2) = true → choose (gssLoop r v tol hitRate n b0) = none := by
  intro n
  induction n with
  | zero =>
    intro b0 b hb hn
    have hbb : b = b0 := List.mem_singleton.mp hb
    subst hbb
    show choose b = none
    unfold choose
    rw [if_pos hn]
  | succ n ih =>
    intro b0 b hb hn
    rw [gssTrace_succ] at hb
    rw [gssLoop_succ]
    by_cases hc : |b0.x3 - b0.x0| > tol * (|b0.x1| + |b0.x2|)
    · rw [if_pos hc] at hb ⊢
      by_cases hn0 : (isNaN b0.h1 || isNaN b0.h2) = true
      · rw [if_pos hn0] at hb ⊢
        unfold choose
        rw [if_pos hn0]
      · rw [if_neg hn0] at hb ⊢
        rcases List.mem_cons.mp hb with hbb | hrest
        · subst hbb; exact absurd hn hn0
        · exact ih _ b hrest hn
    · rw [if_neg hc] at hb ⊢
      have hbb : b = b0 := List.mem_singleton.mp hb
      subst hbb
      unfold choose
      rw [if_pos hn]

/-- The coarse scan never takes a NaN as the best hit rate. -/
theorem coarseScan_best {K : Type} [LinearOrderedField K] (hitRate : K → Option K) (x3 : K) :
    ∀ (is : List Nat) (acc : Option K × K), acc.1 ≠ none →
      (coarseScan hitRate x3 is acc).1 ≠ none := by
  intro is
  induction is with
  | nil => intro acc h; exact h
  | cons i is ih =>
    intro acc h
    rw [coarseScan_cons]
    by_cases hi : (i : K) < x3
    · rw [if_pos hi]
      by_cases hg : rateGt (hitRate (i : K)) acc.1 = true
      · rw [if_pos hg]
        apply ih
        intro hnone
        have hn : hitRate (i : K) = none := hnone
        rw [hn] at hg
        simp [rateGt] at hg
      · rw [if_neg hg]; exact ih _ h
    · rw [if_neg hi]; exact h

theorem floor_six_fifths_like {x : ℚ} (h1 : 1 ≤ x) (h2 : x < 2) : ⌊x⌋₊ = 1 := by
  rw [Nat.floor_eq_iff (by linarith)]
  constructor
  · exact_mod_cast h1
  · norm_num; exact h2

theorem log2_eight : ((Nat.log 2 8 : Nat) : ℚ) = 3 := by
  have : Nat.log 2 8 = 3 := Nat.log_pow (by norm_num) 3
  rw [this]; norm_num

theorem scanPoints_eq : scanPoints = 2 :: 6 :: (List.range 14).map (fun j => 4 * (j + 2) + 2) := by
  decide

theorem sampleStats_full (model : ℚ → Option ℚ) {x : Option ℚ}
    (hs : search (309 / 500) (1 / 10000) 1 model 3 = Except.ok x) :
    reconfigure (sampleEnv model) sampleStats
      = Except.ok { sampleStats with
          _nextReconfiguration := 500000
          _longTermMetadata := (smooth (sampleEnv model) sampleStats).1
          _intervalMetadata := []
          statSize := (smooth (sampleEnv model) sampleStats).2.1
          _alignedReqCount := (smooth (sampleEnv model) sampleStats).2.2.1
          _alignedObjSize := (smooth (sampleEnv model) sampleStats).2.2.2
          _cParam := x.elim (2 ^ 15) pow2Interp } := by
  have hs1 : search (sampleEnv model).gss_r (sampleEnv model).tol sampleStats._maxIterations
      ((sampleEnv model).modelHitRate (smooth (sampleEnv model) sampleStats).2.2.1
        (smooth (sampleEnv model) sampleStats).2.2.2 sampleStats._cacheSize)
      ((sampleEnv model).log2 sampleStats._cacheSize) = Except.ok x := by
    have hL : (sampleEnv model).log2 sampleStats._cacheSize = 3 := log2_eight
    rw [hL]
    exact hs
  unfold reconfigure
  rw [if_neg (by decide), if_neg (by decide), hs1]
  cases x <;> rfl

theorem search_nanAtScan :
    search (309 / 500 : ℚ) (1 / 10000) 1 nanAtScan 3 = Except.ok (some (573 / 500)) := by
  have hscan : coarseScan nanAtScan 3 scanPoints (some 0, 3) = (some 0, 3) := by
    rw [scanPoints_eq, coarseScan_cons, if_pos (by norm_num), coarseScan_cons,
      if_neg (by norm_num)]
    simp [rateGt, nanAtScan]
  have habs1 : |(573 / 500 : ℚ)| = 573 / 500 := abs_of_pos (by norm_num)
  simp only [search, bracket0, hscan, prepare]
  norm_num [gssLoop, gssStep, choose, rateGt, isNaN, nanAtScan, habs1]

theorem search_nanOffScan :
    search (309 / 500 : ℚ) (1 / 10000) 1 nanOffScan 3 = Except.ok none := by
  have hscan : coarseScan nanOffScan 3 scanPoints (some 0, 3) = (some 4, 2) := by
    rw [scanPoints_eq, coarseScan_cons, if_pos (by norm_num), coarseScan_cons,
      if_neg (by norm_num)]
    simp [rateGt, nanOffScan]
  have habs1 : |(191 / 250 : ℚ)| = 191 / 250 := abs_of_pos (by norm_num)
  simp only [search, bracket0, hscan, prepare]
  norm_num [gssLoop, gssStep, choose, rateGt, isNaN, nanOffScan, habs1]

/-- C25, as stated, fails for a NaN in the coarse scan: the scan only asks whether
a value beats the best one, which a NaN never does, so the point is skipped and the
search goes on.  On the sample cache (capacity 8, `log2` 3) with a model that is NaN
at the scan point 2, `reconfigure` assigns `_cParam` the power of two of 573/500 in
place of `2^15`. -/
theorem C25_counterexample :
    (2 : ℚ) < (sampleEnv nanAtScan).log2 sampleStats._cacheSize ∧
    (sampleEnv nanAtScan).modelHitRate (smooth (sampleEnv nanAtScan) sampleStats).2.2.1
      (smooth (sampleEnv nanAtScan) sampleStats).2.2.2 sampleStats._cacheSize 2 = none ∧
    sampleStats._cParam = 32768 ∧
    (reconfigure (sampleEnv nanAtScan) sampleStats).map (fun c => c._cParam)
      = Except.ok (573 / 250) := by
  refine ⟨?_, ?_, ?_, ?_⟩
  · show (2 : ℚ) < ((Nat.log 2 8 : Nat) : ℚ)
    rw [log2_eight]; norm_num
  · show nanAtScan 2 = none
    simp [nanAtScan]
  · show (2 : ℚ) ^ 15 = 32768
    norm_num
  · rw [sampleStats_full nanAtScan search_nanAtScan]
    show Except.ok (pow2Interp (573 / 500)) = Except.ok (573 / 250)
    unfold pow2Interp
    rw [floor_six_fifths_like (by norm_num) (by norm_num)]
    norm_num

/-- C25 (amended): when `h1` or `h2` is NaN in a bracket the search goes through
(the bracket after the preparation, or the bracket after a round of the loop: each
value the model returns there is stored in `h1` or `h2`), a run of `reconfigure`
that returns leaves `_cParam` unchanged.  A NaN returned in the coarse scan is not
in the bracket: the scan never takes it as the best hit rate. -/
theorem C25_nan_keeps_cParam {K : Type} [LinearOrderedField K] (E : AdaptEnv K)
    (c c1 : AdaptSizeCache K) (b : Bracket K)
    (hb : b ∈ gssTrace E.gss_r (1 - E.gss_r) E.tol
      (E.modelHitRate (smooth E c).2.2.1 (smooth E c).2.2.2 c._cacheSize) c._maxIterations
      (bracket0 E.gss_r (E.modelHitRate (smooth E c).2.2.1 (smooth E c).2.2.2 c._cacheSize)
        (E.log2 c._cacheSize)))
    (hnan : isNaN b.h1 = true ∨ isNaN b.h2 = true)
    (h : reconfigure E c = Except.ok c1) :
    c1._cParam = c._cParam ∧
      (coarseScan (E.modelHitRate (smooth E c).2.2.1 (smooth E c).2.2.2 c._cacheSize)
        (E.log2 c._cacheSize) scanPoints (some 0, E.log2 c._cacheSize)).1 ≠ none := by
  constructor
  · rcases reconfigure_cParam E h with hsame | ⟨x, hs, -⟩
    · exact hsame
    · exfalso
      have hn : (isNaN b.h1 || isNaN b.h2) = true := by
        rcases hnan with h1 | h2
        · rw [h1]; rfl
        · rw [h2]; simp
      have hch := gssTrace_nan _ _ _ _ _ _ b hb hn
      unfold search at hs
      by_cases hlt : (bracket0 E.gss_r
          (E.modelHitRate (smooth E c).2.2.1 (smooth E c).2.2.2 c._cacheSize)
          (E.log2 c._cacheSize)).x1
          < (bracket0 E.gss_r
          (E.modelHitRate (smooth E c).2.2.1 (smooth E c).2.2.2 c._cacheSize)
          (E.log2 c._cacheSize)).x2
      · rw [if_pos hlt, hch] at hs
        simp at hs
      · rw [if_neg hlt] at hs
        simp at hs
  · exact coarseScan_best _ _ _ _ (by simp)

/-- Witness of C25: on the sample cache with a model that is NaN away from the scan
point 2, the value of the preparation is NaN and `_cParam` stays `2^15`. -/
theorem C25_nan_keeps_cParam_witness :
    ∃ c1, reconfigure (sampleEnv nanOffScan) sampleStats = Except.ok c1 ∧
      c1._cParam = sampleStats._cParam := by
  have hrec := sampleStats_full nanOffScan search_nanOffScan
  have hscan : coarseScan nanOffScan 3 scanPoints (some 0, 3) = (some 4, 2) := by
    rw [scanPoints_eq, coarseScan_cons, if_pos (by norm_num), coarseScan_cons,
      if_neg (by norm_num)]
    simp [rateGt, nanOffScan]
  have hL : (sampleEnv nanOffScan).log2 sampleStats._cacheSize = 3 := log2_eight
  have hnan : isNaN (bracket0 (sampleEnv nanOffScan).gss_r
      ((sampleEnv nanOffScan).modelHitRate (smooth (sampleEnv nanOffScan) sampleStats).2.2.1
        (smooth (sampleEnv nanOffScan) sampleStats).2.2.2 sampleStats._cacheSize)
      ((sampleEnv nanOffScan).log2 sampleStats._cacheSize)).h1 = true := by
    rw [hL]
    show isNaN (bracket0 (309 / 500) nanOffScan 3).h1 = true
    simp only [bracket0, hscan, prepare]
    norm_num [isNaN, nanOffScan]
  exact ⟨_, hrec,
    (C25_nan_keeps_cParam (sampleEnv nanOffScan) sampleStats _ _
      (head_mem_gssTrace _ _ _ _ _ _) (Or.inl hnan) hrec).1⟩

end AdaptSizeCache

end WebCacheSim

namespace WebCacheSim

namespace AdaptSizeCache

theorem pow2Interp_mono : Monotone pow2Interp := by
  intro a b hab
  unfold pow2Interp
  have hm : ⌊a⌋₊ ≤ ⌊b⌋₊ := Nat.floor_mono hab
  have h2a : (0 : ℚ) < 2 ^ ⌊a⌋₊ := by positivity
  rcases Nat.lt_or_ge ⌊a⌋₊ ⌊b⌋₊ with hlt | hge
  · have ha1 : a < (⌊a⌋₊ : ℚ) + 1 := Nat.lt_floor_add_one a
    have hbpos : 0 < ⌊b⌋₊ := by omega
    have hb0 : (0 : ℚ) ≤ b := by
      by_contra hneg
      have : ⌊b⌋₊ = 0 := Nat.floor_of_nonpos (le_of_lt (not_le.mp hneg))
      omega
    have hb1 : (⌊b⌋₊ : ℚ) ≤ b := Nat.floor_le hb0
    have hpow : (2 : ℚ) ^ (⌊a⌋₊ + 1) ≤ 2 ^ ⌊b⌋₊ :=
      pow_le_pow_right₀ (by norm_num) (by omega)
    have h1 : (2 : ℚ) ^ ⌊a⌋₊ * (1 + (a - ⌊a⌋₊)) ≤ 2 ^ ⌊a⌋₊ * 2 :=
      mul_le_mul_of_nonneg_left (by linarith) (le_of_lt h2a)
    have h2 : (2 : ℚ) ^ ⌊b⌋₊ * 1 ≤ 2 ^ ⌊b⌋₊ * (1 + (b - ⌊b⌋₊)) :=
      mul_le_mul_of_nonneg_left (by linarith) (by positivity)
    rw [pow_succ] at hpow
    linarith
  · have heq : ⌊a⌋₊ = ⌊b⌋₊ := le_antisymm hm hge
    rw [heq]
    exact mul_le_mul_of_nonneg_left (by linarith) (by positivity)

theorem search_hillModel :
    search (309 / 500 : ℚ) (1 / 10000) 1 hillModel 3 = Except.ok (some 2) := by
  have hscan : coarseScan hillModel 3 scanPoints (some 0, 3) = (some 4, 2) := by
    rw [scanPoints_eq, coarseScan_cons, if_pos (by norm_num), coarseScan_cons,
      if_neg (by norm_num)]
    norm_num [rateGt, hillModel]
  have habs1 : |(191 / 250 : ℚ)| = 191 / 250 := abs_of_pos (by norm_num)
  simp only [search, bracket0, hscan, prepare]
  norm_num [gssLoop, gssStep, choose, rateGt, isNaN, hillModel, habs1]

/-- Witness of C24: the sample cache of capacity 8 with the model that peaks at 2;
the search returns the exponent 2 and `_cParam` becomes 4. -/
theorem C24_cParam_in_bracket_witness :
    ∃ c1, reconfigure (sampleEnv hillModel) sampleStats = Except.ok c1 ∧ c1._cParam = 4 ∧
      (c1._cParam = sampleStats._cParam ∨
        ∃ x, 0 ≤ x ∧ x ≤ (sampleEnv hillModel).log2 sampleStats._cacheSize ∧
          c1._cParam = (sampleEnv hillModel).pow2 x ∧
          1 ≤ c1._cParam ∧ c1._cParam ≤ (sampleStats._cacheSize : ℚ)) := by
  have hrec := sampleStats_full hillModel search_hillModel
  have hL : (sampleEnv hillModel).log2 sampleStats._cacheSize = 3 := log2_eight
  refine ⟨_, hrec, ?_, C24_cParam_in_bracket (sampleEnv hillModel) sampleStats _
    (by norm_num [sampleEnv]) (by norm_num [sampleEnv]) (by rw [hL]; norm_num)
    pow2Interp_mono ?_ ?_ hrec⟩
  · show pow2Interp 2 = 4
    have h2 : ⌊(2 : ℚ)⌋₊ = 2 := Nat.floor_ofNat 2
    unfold pow2Interp
    rw [h2]
    norm_num
  · show pow2Interp 0 = 1
    simp [pow2Interp]
  · rw [hL]
    show pow2Interp 3 = ((8 : Nat) : ℚ)
    have h3 : ⌊(3 : ℚ)⌋₊ = 3 := Nat.floor_ofNat 3
    unfold pow2Interp
    rw [h3]
    norm_num

end AdaptSizeCache

end WebCacheSim

namespace WebCacheSim

/-! ### AdaptSize: `statSize` is the sum over the distinct keys -/

namespace AdaptSizeCache

end AdaptSizeCache

end WebCacheSim

namespace WebCacheSim

namespace AdaptSizeCache

end AdaptSizeCache

end WebCacheSim
